import Mathlib

/-! # TinyInfiniTensor: the graph engine (`core/graph.cc`) and MatMul shape inference
(`operators/matmul.cc`)

Conventions of the embedding.

* The objects of the C++ heap are addressed by natural numbers.  An `OpId` stands for an
  `Operator` (a shared pointer to an `OperatorObj`); because an operator's guid is assigned
  once at creation and never reused, the same number also serves as the operator's guid.
  A `TensorId` stands for a `Tensor` pointer; the tensor's `fuid` is a separate field,
  because two tensor objects can carry the same fuid.
* A `GraphObj` carries the two vectors `ops` and `tensors`, the `sorted` flag and the heap:
  the current contents of every operator object and every tensor object.
* Tensor references held by operators are non-null, so the `if (input)` / `if (output)`
  guards of `addOperatorAndConnect` are always taken.
* Extents and permutation entries are non-negative `int`s, represented by `Nat`.
* The member functions of `TensorObj` and `OperatorObj` that `graph.cc` calls live in
  headers outside `src/`; they are modelled from the specification, which describes
  targets, predecessors and successors as sets with add and remove.
-/

namespace infini

abbrev OpId := Nat
abbrev TensorId := Nat
abbrev Shape := List Nat

/-- Modelled from the spec: the operator kind tag (`OpType`, declared outside `src/`): MatMul,
Transpose, and `Unknown` standing for every other kind. -/
inductive OpType where
  | Unknown
  | MatMul
  | Transpose
  deriving DecidableEq, Repr

/-- Modelled from the spec: a storage handle (`BlobObj`, declared outside `src/`), the pair
of a runtime/device context and an address. -/
structure BlobObj where
  runtime : Nat
  ptr : Nat
  deriving DecidableEq, Repr

/-- Modelled from the spec: the contents of a tensor object (`TensorObj`, declared outside
`src/`): its fuid, shape, runtime, producing operator and consuming operators, the size in
bytes of one element of its data type, and the optional bound storage handle. -/
structure TensorObj where
  fuid : Nat
  dims : Shape := []
  runtime : Nat := 0
  source : Option OpId := none
  targets : List OpId := []
  dtypeSize : Nat := 4
  data : Option BlobObj := none
  deriving DecidableEq, Repr

/-- Modelled from the spec: the contents of an operator object (`OperatorObj` and its derived
classes, declared outside `src/`).  The fields of the derived classes (`TransposeObj`:
`permute`; `MatmulObj`: `transA`, `transB`, `m`, `n`, `k`) are carried by every record and
are read only when the type tag says so. -/
structure OperatorObj where
  type : OpType := OpType.Unknown
  inputs : List TensorId := []
  outputs : List TensorId := []
  predecessors : List OpId := []
  successors : List OpId := []
  permute : List Nat := []
  transA : Bool := false
  transB : Bool := false
  m : Nat := 0
  n : Nat := 0
  k : Nat := 0
  deriving DecidableEq, Repr

/-- The members of `GraphObj` that `graph.cc` uses (`ops`, `tensors`, `sorted`, `runtime`)
together with the heap its pointers refer to. -/
structure GraphObj where
  ops : List OpId := []
  tensors : List TensorId := []
  sorted : Bool := false
  runtime : Nat := 0
  opObj : OpId → OperatorObj := fun _ => {}
  tensorObj : TensorId → TensorObj := fun i => { fuid := i }

/-- Overwrite one cell of a heap. -/
def heapSet {α : Type} (h : Nat → α) (i : Nat) (v : α) : Nat → α :=
  fun j => if j = i then v else h j

/-- Modelled from the spec: insertion into one of the sets `targets`, `predecessors`,
`successors` (the spec's "sets with add/remove"); the set is kept as a duplicate-free
list in insertion order. -/
def setAdd (x : Nat) (l : List Nat) : List Nat :=
  if x ∈ l then l else l ++ [x]

/-- Modelled from the spec: removal from one of the sets `targets`, `predecessors`,
`successors`. -/
def setRemove (x : Nat) (l : List Nat) : List Nat :=
  l.filter (fun y => decide (y ≠ x))

namespace GraphObj

def modifyOp (g : GraphObj) (o : OpId) (f : OperatorObj → OperatorObj) : GraphObj :=
  { g with opObj := heapSet g.opObj o (f (g.opObj o)) }

def modifyTensor (g : GraphObj) (t : TensorId) (f : TensorObj → TensorObj) : GraphObj :=
  { g with tensorObj := heapSet g.tensorObj t (f (g.tensorObj t)) }

/-- Modelled from the spec: `TensorObj::addTarget`. -/
def addTarget (g : GraphObj) (t : TensorId) (o : OpId) : GraphObj :=
  g.modifyTensor t (fun r => { r with targets := setAdd o r.targets })

/-- Modelled from the spec: `TensorObj::removeTarget`. -/
def removeTarget (g : GraphObj) (t : TensorId) (o : OpId) : GraphObj :=
  g.modifyTensor t (fun r => { r with targets := setRemove o r.targets })

/-- Modelled from the spec: `TensorObj::setSource`. -/
def setSource (g : GraphObj) (t : TensorId) (o : OpId) : GraphObj :=
  g.modifyTensor t (fun r => { r with source := some o })

/-- Modelled from the spec: `OperatorObj::addPredecessors`. -/
def addPredecessors (g : GraphObj) (o p : OpId) : GraphObj :=
  g.modifyOp o (fun r => { r with predecessors := setAdd p r.predecessors })

/-- Modelled from the spec: `OperatorObj::addSuccessors`. -/
def addSuccessors (g : GraphObj) (o s : OpId) : GraphObj :=
  g.modifyOp o (fun r => { r with successors := setAdd s r.successors })

/-- Modelled from the spec: `OperatorObj::removePredecessors`. -/
def removePredecessors (g : GraphObj) (o p : OpId) : GraphObj :=
  g.modifyOp o (fun r => { r with predecessors := setRemove p r.predecessors })

/-- Modelled from the spec: `OperatorObj::removeSuccessors`. -/
def removeSuccessors (g : GraphObj) (o s : OpId) : GraphObj :=
  g.modifyOp o (fun r => { r with successors := setRemove s r.successors })

/-- Modelled from the spec: `OperatorObj::replaceInput(t1, t2)`, which rebinds every input
slot holding `t1` to `t2`. -/
def replaceInput (g : GraphObj) (o : OpId) (t1 t2 : TensorId) : GraphObj :=
  g.modifyOp o (fun r => { r with inputs := r.inputs.map (fun t => if t = t1 then t2 else t) })

/-! ## `GraphObj::topo_sort` -/

/-- The lambda given to `std::all_of`: the input has no source, or its source is flagged. -/
def sourcePlaced (g : GraphObj) (flags : List OpId) (input : TensorId) : Bool :=
  match (g.tensorObj input).source with
  | none => true
  | some ptr => decide (ptr ∈ flags)

/-- The condition of the `if` inside the scan. -/
def eligible (g : GraphObj) (flags : List OpId) (op : OpId) : Bool :=
  decide (op ∉ flags) && (g.opObj op).inputs.all (sourcePlaced g flags)

/-- One `for (auto const &op : ops)` scan; the state is `(sorted, flags, modified)`. -/
def topoPass (g : GraphObj) :
    List OpId → List OpId × List OpId × Bool → List OpId × List OpId × Bool
  | [], st => st
  | op :: rest, (sorted, flags, modified) =>
    if eligible g flags op then
      topoPass g rest (sorted ++ [op], op :: flags, true)
    else
      topoPass g rest (sorted, flags, modified)

/-- The `while (sorted.size() < ops.size())` loop.  The outer `Option` is `none` when the
iteration budget runs out; the inner one is `none` for `return false` and `some sorted`
when the loop is left normally. -/
def topoLoop (g : GraphObj) : Nat → List OpId → List OpId → Option (Option (List OpId))
  | 0, _, _ => none
  | fuel + 1, sorted, flags =>
    if sorted.length < g.ops.length then
      match topoPass g g.ops (sorted, flags, false) with
      | (sorted', flags', modified) =>
        if !modified then some none else topoLoop g fuel sorted' flags'
    else some (some sorted)

/-- Body of `GraphObj::topo_sort` run with an iteration budget for the `while` loop: the
returned flag and the graph afterwards. -/
def topo_sort_fuel (fuel : Nat) (g : GraphObj) : Option (Bool × GraphObj) :=
  if g.sorted then some (true, g)
  else
    match topoLoop g fuel [] [] with
    | none => none
    | some none => some (false, g)
    | some (some sorted) => some (true, { g with ops := sorted, sorted := true })

/-- `GraphObj::topo_sort`: the loop needs at most `ops.size() + 1` iterations. -/
def topo_sort (g : GraphObj) : Option (Bool × GraphObj) :=
  topo_sort_fuel (g.ops.length + 1) g

/-! ## Topological order and cycles -/

/-- In the list `l`, `a` occurs somewhere before an occurrence of `b`. -/
def precedes (l : List OpId) (a b : OpId) : Prop :=
  ∃ pre post, l = pre ++ b :: post ∧ a ∈ pre

/-- Every operator of `l` comes after the source of each of its input tensors. -/
def TopoOrdered (g : GraphObj) (l : List OpId) : Prop :=
  ∀ op ∈ l, ∀ t ∈ (g.opObj op).inputs, ∀ a, (g.tensorObj t).source = some a → precedes l a op

/-- The producer relation among the listed operators: `a` is the source of an input tensor
of `b`. -/
def producer (g : GraphObj) (a b : OpId) : Prop :=
  a ∈ g.ops ∧ b ∈ g.ops ∧ ∃ t ∈ (g.opObj b).inputs, (g.tensorObj t).source = some a

/-- The producer relation contains a cycle (a self-loop is a cycle of length one). -/
def HasCycle (g : GraphObj) : Prop :=
  ∃ a, Relation.TransGen (producer g) a a

/-- The source of every input tensor of a listed operator is itself listed. -/
def SourcesListed (g : GraphObj) : Prop :=
  ∀ op ∈ g.ops, ∀ t ∈ (g.opObj op).inputs, ∀ a, (g.tensorObj t).source = some a → a ∈ g.ops

/-- The loop invariant of `topo_sort`: `flags` and `sorted` hold the same operators, all of
them listed, none twice, each after the sources of its inputs. -/
structure PassInv (g : GraphObj) (s f : List OpId) : Prop where
  mem_iff : ∀ x, x ∈ f ↔ x ∈ s
  nodup : s.Nodup
  sub : ∀ x ∈ s, x ∈ g.ops
  ordered : TopoOrdered g s

/-- What the `while` loop of `topo_sort` has established when it is left: with `some s` the
whole list is placed, with `none` a scan found no eligible operator. -/
def LoopOut (g : GraphObj) : Option (List OpId) → Prop
  | some s => (∃ f, PassInv g s f) ∧ g.ops.length ≤ s.length
  | none => ∃ s f, PassInv g s f ∧ s.length < g.ops.length ∧
      ∀ op ∈ g.ops, eligible g f op = false

/-- A producer `0` and its consumer `1`, listed consumer first, with the `sorted` flag
clear. -/
def unsortedGraph : GraphObj where
  ops := [1, 0]
  tensors := [0, 1]
  opObj := fun o => if o = 0 then { outputs := [0] } else { inputs := [0], outputs := [1] }
  tensorObj := fun t => if t = 0 then { fuid := 0, source := some 0, targets := [1] }
    else { fuid := t, source := some 1 }

/-- Two operators feeding each other: `0` consumes tensor `1` and produces tensor `0`,
`1` consumes tensor `0` and produces tensor `1`. -/
def loopGraph : GraphObj where
  ops := [0, 1]
  tensors := [0, 1]
  opObj := fun o => if o = 0 then { inputs := [1], outputs := [0] }
    else { inputs := [0], outputs := [1] }
  tensorObj := fun t => if t = 0 then { fuid := 0, source := some 0, targets := [1] }
    else { fuid := t, source := some 1, targets := [0] }

end GraphObj

/-! ## `MatmulObj::inferShape` -/

/-- The statement `std::swap(d[d.size()-1], d[d.size()-2])`.  (For a rank below 2 the C++
indices wrap around and the access is undefined; the model is used for rank at least 2.) -/
def swapLastTwo (d : Shape) : Shape :=
  (d.set (d.length - 1) (d.getD (d.length - 2) 0)).set (d.length - 2) (d.getD (d.length - 1) 0)

/-- The extent read by `a_dim` / `b_dim` in the loop: the operand extent `i` places from the
end, or 1 when the operand has no such axis. -/
def dimFromEnd (d : Shape) (i : Nat) : Nat :=
  if i < d.length then d.getD (d.length - 1 - i) 0 else 1

/-- One iteration of the `for (size_t i = 0; i < max_rank; i++)` loop of `inferShape`. -/
def inferShapeStep (a_dims b_dims : Shape) (max_rank : Nat) (result : Shape) (i : Nat) : Shape :=
  if i = 0 then
    result.set (max_rank - 1 - i) (b_dims.getD (b_dims.length - 1) 0)
  else if i = 1 then
    result.set (max_rank - 1 - i) (a_dims.getD (a_dims.length - 2) 0)
  else
    result.set (max_rank - 1 - i) (max (dimFromEnd a_dims i) (dimFromEnd b_dims i))

/-- What `MatmulObj::inferShape` leaves behind: the returned `optional<vector<Shape>>` and
the recorded members `m`, `n`, `k`. -/
structure MatmulInfer where
  shapes : Option (List Shape)
  m : Nat
  n : Nat
  k : Nat
  deriving DecidableEq, Repr

/-- `MatmulObj::inferShape` on operand shapes `A` and `B` with the flags `transA`, `transB`. -/
def matmulInferShape (transA transB : Bool) (A B : Shape) : MatmulInfer :=
  let max_rank := max A.length B.length
  let a_dims := if transA then swapLastTwo A else A
  let b_dims := if transB then swapLastTwo B else B
  let result := (List.range max_rank).foldl (inferShapeStep a_dims b_dims max_rank)
    (List.replicate max_rank 1)
  { shapes := some [result]
    m := a_dims.getD (a_dims.length - 2) 0
    n := b_dims.getD (b_dims.length - 1) 0
    k := a_dims.getD (a_dims.length - 1) 0 }

/-- The shape of the materialised transpose of the last two axes, in the words of the spec:
the operand shape with its last two extents swapped. -/
def lastTwoExtentsSwapped (A : Shape) : Shape :=
  A.take (A.length - 2) ++ [A.getD (A.length - 1) 0, A.getD (A.length - 2) 0]

namespace GraphObj

/-! ## `GraphObj::addOperatorAndConnect` and `GraphObj::addTensor` -/

/-- Body of the loop over the inputs of the new operator. -/
def connectInput (op : OpId) (g : GraphObj) (input : TensorId) : GraphObj :=
  let g1 := g.addTarget input op
  match (g1.tensorObj input).source with
  | some pred => (g1.addSuccessors pred op).addPredecessors op pred
  | none => g1

/-- Body of the loop over the outputs of the new operator. -/
def connectOutput (op : OpId) (g : GraphObj) (output : TensorId) : GraphObj :=
  let g1 := g.setSource output op
  (g1.tensorObj output).targets.foldl
    (fun acc succ => (acc.addPredecessors succ op).addSuccessors op succ) g1

/-- `GraphObj::addOperatorAndConnect`. -/
def addOperatorAndConnect (g : GraphObj) (op : OpId) : GraphObj :=
  let g0 : GraphObj := { g with sorted := false, ops := g.ops ++ [op] }
  let g1 := (g0.opObj op).inputs.foldl (connectInput op) g0
  (g1.opObj op).outputs.foldl (connectOutput op) g1

/-- Modelled from the spec: the `TensorObj` constructor (outside `src/`).  The new object
carries the fuid handed out for it, the given shape and runtime, and has neither source nor
targets. -/
def newTensorObj (fuid : Nat) (dim : Shape) (runtime : Nat) : TensorObj :=
  { fuid := fuid, dims := dim, runtime := runtime }

/-- `GraphObj::addTensor(Shape dim, DataType dtype)`: a new tensor object is made for the
graph's runtime and appended; `t` is the address of the new object and `fuid` the fuid
handed out for it. -/
def addTensorNew (g : GraphObj) (t : TensorId) (fuid : Nat) (dim : Shape) : GraphObj :=
  { g with
    tensorObj := heapSet g.tensorObj t (newTensorObj fuid dim g.runtime)
    tensors := g.tensors ++ [t] }

/-- `GraphObj::addTensor(const Tensor &tensor)`; `none` is the failed `IT_ASSERT` on the
runtime. -/
def addTensor (g : GraphObj) (tensor : TensorId) : Option GraphObj :=
  if (g.tensorObj tensor).runtime = g.runtime then
    some { g with tensors := g.tensors ++ [tensor] }
  else none

/-- `GraphObj::addTensor(const TensorVec &tensors)`. -/
def addTensorVec (g : GraphObj) (ts : List TensorId) : Option GraphObj :=
  ts.foldlM addTensor g

/-! ## `GraphObj::checkValid` -/

/-- `IT_ASSERT(cond)`: `none` stands for the abort. -/
def IT_ASSERT (cond : Bool) : Option Unit :=
  if cond then some () else none

/-- A `for` loop whose body may abort. -/
def forEach {α : Type} : List α → (α → Option Unit) → Option Unit
  | [], _ => some ()
  | x :: rest, body => (body x).bind (fun _ => forEach rest body)

/-- Body of the first loop of `checkValid`, over the tensors. -/
def checkTensor (g : GraphObj) (tensor : TensorId) : Option Unit :=
  (IT_ASSERT (!(decide ((g.tensorObj tensor).targets.length = 0) &&
      decide ((g.tensorObj tensor).source = none)))).bind fun _ =>
  (forEach (g.tensorObj tensor).targets (fun op => IT_ASSERT (decide (op ∈ g.ops)))).bind fun _ =>
  IT_ASSERT (!(match (g.tensorObj tensor).source with
    | some op => decide (op ∉ g.ops)
    | none => false))

/-- Body of the second loop of `checkValid`, over the operators. -/
def checkOp (g : GraphObj) (op : OpId) : Option Unit :=
  (forEach (g.opObj op).inputs (fun t => IT_ASSERT (decide (t ∈ g.tensors)))).bind fun _ =>
  (forEach (g.opObj op).outputs (fun t => IT_ASSERT (decide (t ∈ g.tensors)))).bind fun _ =>
  (forEach (g.opObj op).predecessors (fun pre => IT_ASSERT (decide (pre ∈ g.ops)))).bind fun _ =>
  forEach (g.opObj op).successors (fun suc => IT_ASSERT (decide (suc ∈ g.ops)))

/-- The last loop of `checkValid`: `s` is the `std::set` of the fuids seen so far. -/
def checkFuids (g : GraphObj) : List TensorId → List Nat → Option Unit
  | [], _ => some ()
  | tensor :: rest, s =>
    (IT_ASSERT (decide (s.count (g.tensorObj tensor).fuid = 0))).bind fun _ =>
      checkFuids g rest ((g.tensorObj tensor).fuid :: s)

/-- `GraphObj::checkValid`: `some b` is the returned value, `none` an abort by a failed
`IT_ASSERT`. -/
def checkValid (g : GraphObj) : Option Bool :=
  (forEach g.tensors (checkTensor g)).bind fun _ =>
  (forEach g.ops (checkOp g)).bind fun _ =>
  (checkFuids g g.tensors []).bind fun _ =>
  some true

/-- The five conditions of the validator. -/
structure Valid (g : GraphObj) : Prop where
  connected : ∀ t ∈ g.tensors, (g.tensorObj t).source ≠ none ∨ (g.tensorObj t).targets ≠ []
  tensorRefs : ∀ t ∈ g.tensors, (∀ o ∈ (g.tensorObj t).targets, o ∈ g.ops) ∧
    (∀ o, (g.tensorObj t).source = some o → o ∈ g.ops)
  opTensors : ∀ o ∈ g.ops, (∀ t ∈ (g.opObj o).inputs, t ∈ g.tensors) ∧
    (∀ t ∈ (g.opObj o).outputs, t ∈ g.tensors)
  opRefs : ∀ o ∈ g.ops, (∀ p ∈ (g.opObj o).predecessors, p ∈ g.ops) ∧
    (∀ p ∈ (g.opObj o).successors, p ∈ g.ops)
  fuids : (g.tensors.map (fun t => (g.tensorObj t).fuid)).Nodup

/-- Two tensors forced to share the fuid `7`, both consumed by the listed operator `0`. -/
def sharedFuidGraph : GraphObj where
  ops := [0]
  tensors := [0, 1]
  opObj := fun _ => { inputs := [0, 1] }
  tensorObj := fun _ => { fuid := 7, targets := [0] }

/-- What the wiring calls leave alone: the tensor list, the input and output lists of every
operator and the fuid of every tensor. -/
structure Frame (g g' : GraphObj) : Prop where
  tensors : g'.tensors = g.tensors
  inputs : ∀ o, (g'.opObj o).inputs = (g.opObj o).inputs
  outputs : ∀ o, (g'.opObj o).outputs = (g.opObj o).outputs
  fuid : ∀ t, (g'.tensorObj t).fuid = (g.tensorObj t).fuid

/-- A graph with no operators whose objects are as their constructors leave them: no tensor
has a source or a target, no operator has a predecessor or a successor. -/
structure Unwired (g : GraphObj) : Prop where
  ops : g.ops = []
  source : ∀ t, (g.tensorObj t).source = none
  targets : ∀ t, (g.tensorObj t).targets = []
  predecessors : ∀ o, (g.opObj o).predecessors = []
  successors : ∀ o, (g.opObj o).successors = []

/-- Among the operators `l`, each tensor is the output of at most one. -/
def UniqueProducer (g : GraphObj) (l : List OpId) : Prop :=
  ∀ a ∈ l, ∀ b ∈ l, ∀ t, t ∈ (g.opObj a).outputs → t ∈ (g.opObj b).outputs → a = b

/-- The operators `l` connected one after the other. -/
def addAll (g : GraphObj) (l : List OpId) : GraphObj :=
  l.foldl addOperatorAndConnect g

/-- The wiring invariant of a graph built by `addOperatorAndConnect` alone. -/
structure Wired (g : GraphObj) : Prop where
  targets : ∀ t x, x ∈ (g.tensorObj t).targets ↔ x ∈ g.ops ∧ t ∈ (g.opObj x).inputs
  source_sound : ∀ t a, (g.tensorObj t).source = some a → a ∈ g.ops ∧ t ∈ (g.opObj a).outputs
  source_complete : ∀ t a, a ∈ g.ops → t ∈ (g.opObj a).outputs → (g.tensorObj t).source ≠ none
  preds_succs : ∀ a b, a ∈ (g.opObj b).predecessors ↔ b ∈ (g.opObj a).successors
  preds_sound : ∀ a b, a ∈ (g.opObj b).predecessors →
    a ∈ g.ops ∧ b ∈ g.ops ∧ ∃ t, t ∈ (g.opObj a).outputs ∧ t ∈ (g.opObj b).inputs
  preds_complete : UniqueProducer g g.ops → ∀ a ∈ g.ops, ∀ b ∈ g.ops, ∀ t,
    t ∈ (g.opObj a).outputs → t ∈ (g.opObj b).inputs → a ∈ (g.opObj b).predecessors

/-- Two operator objects before wiring: `0` reads tensor `0` and writes tensor `1`, `1`
reads tensor `1` and writes tensor `2`. -/
def pairObjects : GraphObj where
  opObj := fun o => if o = 0 then { inputs := [0], outputs := [1] }
    else { inputs := [1], outputs := [2] }

/-! ## Graphs built by the construction calls -/

/-- The tensor object at `t` is new to the graph: it is not listed and no listed operator
refers to it.  (In the C++ program a tensor made by `addTensor(dim, dtype)` is a new heap
object, so nothing can refer to it yet.) -/
def FreshAt (g : GraphObj) (t : TensorId) : Prop :=
  t ∉ g.tensors ∧ ∀ o ∈ g.ops, t ∉ (g.opObj o).inputs ∧ t ∉ (g.opObj o).outputs

/-- The graphs obtained from the graph `g0` by a sequence of construction calls: the three
overloads of `addTensor` and `addOperatorAndConnect`.  Nothing is asked of `g0` or of the
objects the calls are given. -/
inductive Built (g0 : GraphObj) : GraphObj → Prop
  | start : Built g0 g0
  | newTensor (g : GraphObj) (t : TensorId) (fuid : Nat) (dim : Shape) :
      Built g0 g → FreshAt g t → Built g0 (g.addTensorNew t fuid dim)
  | tensor (g g' : GraphObj) (t : TensorId) : Built g0 g → g.addTensor t = some g' → Built g0 g'
  | tensorVec (g g' : GraphObj) (ts : List TensorId) :
      Built g0 g → g.addTensorVec ts = some g' → Built g0 g'
  | connect (g : GraphObj) (op : OpId) : Built g0 g → Built g0 (g.addOperatorAndConnect op)

/-- The empty graph. -/
def emptyGraph : GraphObj := {}

/-- The graph built by listing the tensors `0`, `1`, `2` and connecting the operators `0`
and `1` of `pairObjects`. -/
def pairGraph : GraphObj :=
  (({ pairObjects with tensors := [0, 1, 2] } : GraphObj).addOperatorAndConnect 0).addOperatorAndConnect 1

/-- An empty graph next to objects that are in use elsewhere: tensor `0` already has a source,
the operator `9` of another graph.  Operator `0` reads tensor `0` and writes tensor `1`. -/
def adoptObjects : GraphObj where
  opObj := fun _ => { inputs := [0], outputs := [1] }
  tensorObj := fun t => if t = 0 then { fuid := 0, source := some 9 } else { fuid := t }

/-- The graph built over `adoptObjects` by adopting the tensors `0` and `1` with
`addTensor(const Tensor &)` and connecting operator `0`. -/
def adoptGraph : GraphObj :=
  ((adoptObjects.addTensor 0).bind fun g => (g.addTensor 1).map fun g1 =>
    g1.addOperatorAndConnect 0).getD emptyGraph

/-! ## `GraphObj::optimize` -/

/-- The local state of `optimize`: the graph objects and the two sets of deleted ids
(`deleted_ops` holds operator guids, `deleted_tensors` tensor fuids). -/
structure OptState where
  g : GraphObj
  deleted_ops : List Nat := []
  deleted_tensors : List Nat := []

/-- Modelled from the spec: `OperatorObj::getOutput()`, the single output of an operator;
`none` is the failed assertion that there is exactly one. -/
def getOutput (g : GraphObj) (o : OpId) : Option TensorId :=
  match (g.opObj o).outputs with
  | [t] => some t
  | _ => none

/-- Modelled from the spec: `OperatorObj::getInputs(i)`, the bounds-checked access to input
slot `i`; `none` is the out-of-range failure. -/
def getInput (g : GraphObj) (o : OpId) (i : Nat) : Option TensorId :=
  (g.opObj o).inputs[i]?

/-- The comparison loop of Rule A over the index list, returning `(IsDiff, tranCnt)`; the
loop is left at the first index where the two permutations differ. -/
def permScan (dims fdims : List Nat) : List Nat → Nat → Bool × Nat
  | [], tranCnt => (false, tranCnt)
  | i :: rest, tranCnt =>
    if dims.getD i 0 ≠ fdims.getD i 0 then (true, tranCnt)
    else permScan dims fdims rest (tranCnt + (if i ≠ dims.getD i 0 then 1 else 0))

/-- The match test of Rule A on the permutation `dims` of the operator and `fdims` of its
predecessor: equal sizes, no difference, exactly two moved positions. -/
def ruleAMatch (dims fdims : List Nat) : Bool :=
  if dims.length ≠ fdims.length then false
  else
    match permScan dims fdims (List.range dims.length) 0 with
    | (IsDiff, tranCnt) => !(decide (tranCnt ≠ 2) || IsDiff)

/-- The splice of Rule A once the pair `fop`, `op` has matched. -/
def ruleASplice (op fop : OpId) (st : OptState) : Option OptState :=
  let ffops := (st.g.opObj fop).predecessors
  let bops := (st.g.opObj op).successors
  let deleted_ops := setAdd op (setAdd fop st.deleted_ops)
  (getOutput st.g fop).bind fun fout =>
  (getOutput st.g op).bind fun oout =>
  let deleted_tensors :=
    setAdd (st.g.tensorObj oout).fuid (setAdd (st.g.tensorObj fout).fuid st.deleted_tensors)
  (getInput st.g fop 0).bind fun SavedTensor =>
  let g1 := st.g.removeTarget SavedTensor fop
  let g2 := ffops.foldl (fun acc ffop =>
    bops.foldl (fun acc2 bop => acc2.addSuccessors ffop bop) (acc.removeSuccessors ffop fop)) g1
  let g3 := bops.foldl (fun acc bop =>
    (ffops.foldl (fun acc2 ffop => acc2.addPredecessors bop ffop)
      (acc.removePredecessors bop op)).addTarget SavedTensor bop) g2
  (bops.foldlM (fun acc bop =>
    (getInput acc bop 0).map fun input => acc.replaceInput bop input SavedTensor) g3).map
    fun g4 => { g := g4, deleted_ops := deleted_ops, deleted_tensors := deleted_tensors }

/-- Body of the loop of Rule A over the predecessors `fops` of the Transpose `op`. -/
def ruleAStep (op : OpId) (st : OptState) (fop : OpId) : Option OptState :=
  if (st.g.opObj fop).type = OpType.Transpose then
    if ruleAMatch (st.g.opObj op).permute (st.g.opObj fop).permute then ruleASplice op fop st
    else some st
  else some st

/-- Rule A for the operator `op`. -/
def ruleA (op : OpId) (st : OptState) : Option OptState :=
  if (st.g.opObj op).type = OpType.Transpose then
    (st.g.opObj op).predecessors.foldlM (ruleAStep op) st
  else some st

/-- The permutation test of Rule B. -/
def lastTwoSwapped (dims : List Nat) : Bool :=
  decide (dims.length ≥ 2) &&
    decide (dims.getD (dims.length - 1) 0 = dims.length - 2) &&
    decide (dims.getD (dims.length - 2) 0 = dims.length - 1)

/-- The fold of Rule B once the producer `fop` of operand `slot` (0 for `A`, 1 for `B`) of
the MatMul `op` has matched. -/
def ruleBFold (op fop : OpId) (slot : Nat) (st : OptState) : Option OptState :=
  let g0 := st.g.modifyOp op (fun r =>
    if slot = 0 then { r with transA := !r.transA } else { r with transB := !r.transB })
  let ffops := (g0.opObj fop).predecessors
  let deleted_ops := setAdd fop st.deleted_ops
  (getOutput g0 fop).bind fun fout =>
  let deleted_tensors := setAdd (g0.tensorObj fout).fuid st.deleted_tensors
  (getInput g0 fop 0).bind fun SavedTensor =>
  let g1 := g0.removePredecessors op fop
  let g2 := ffops.foldl (fun acc ffop =>
    ((acc.removeSuccessors ffop fop).addSuccessors ffop op).addPredecessors op ffop) g1
  let g3 := (g2.removeTarget SavedTensor fop).addTarget SavedTensor op
  (getInput g3 op slot).map fun input =>
    { g := g3.replaceInput op input SavedTensor, deleted_ops := deleted_ops,
      deleted_tensors := deleted_tensors }

/-- Rule B for the operator `op`.  `A` and `B` are references to the first two input slots,
so `B` is read again after the fold of operand `A`. -/
def ruleB (op : OpId) (st : OptState) : Option OptState :=
  if (st.g.opObj op).type = OpType.MatMul then
    ((st.g.opObj op).inputs[0]?).bind fun A =>
    ((st.g.opObj op).inputs[1]?).bind fun _ =>
    (match (st.g.tensorObj A).source with
      | some fop =>
        if fop ∉ st.deleted_ops ∧ (st.g.opObj fop).type = OpType.Transpose then
          if lastTwoSwapped (st.g.opObj fop).permute then ruleBFold op fop 0 st else some st
        else some st
      | none => some st).bind fun st1 =>
    ((st1.g.opObj op).inputs[1]?).bind fun B =>
    match (st1.g.tensorObj B).source with
    | some fop =>
      if (st1.g.opObj fop).type = OpType.Transpose then
        if lastTwoSwapped (st1.g.opObj fop).permute then ruleBFold op fop 1 st1 else some st1
      else some st1
    | none => some st1
  else some st

/-- Body of the main loop of `optimize`. -/
def optimizeStep (st : OptState) (op : OpId) : Option OptState :=
  if op ∈ st.deleted_ops then some st
  else (ruleA op st).bind (ruleB op)

/-- `GraphObj::optimize`; `none` stands for a failed assertion or an out-of-range access. -/
def optimize (g : GraphObj) : Option GraphObj :=
  (g.ops.foldlM optimizeStep { g := g }).map fun st =>
    { st.g with
      ops := g.ops.filter (fun o => decide (o ∉ st.deleted_ops))
      tensors := g.tensors.filter (fun t => decide ((st.g.tensorObj t).fuid ∉ st.deleted_tensors)) }

/-! ## Test graphs for `optimize` -/

/-- The permutation of `0 .. n-1` that swaps the axes `i` and `j` and fixes the others. -/
def swapPerm (n i j : Nat) : List Nat :=
  (List.range n).map (fun x => if x = i then j else if x = j then i else x)

/-- The objects of the chain `X --Transpose(P)--> Y --Transpose(P)--> Z --Consumer-->`
before wiring.  Tensors: `X = 0`, `Y = 1`, `Z = 2`, the consumer's output `3`, and for a
MatMul consumer its second operand `4`.  Operators: `0` and `1` are the two Transposes, `2`
is the consumer, of kind `ty` with the attributes `perm`, `tA`, `tB`, reading `Z` as its
first input. -/
def chainObjects (P : List Nat) (ty : OpType) (perm : List Nat) (tA tB : Bool) : GraphObj where
  tensors := if ty = OpType.MatMul then [0, 1, 2, 3, 4] else [0, 1, 2, 3]
  opObj := fun o =>
    if o = 0 then { type := OpType.Transpose, inputs := [0], outputs := [1], permute := P }
    else if o = 1 then { type := OpType.Transpose, inputs := [1], outputs := [2], permute := P }
    else { type := ty, inputs := if ty = OpType.MatMul then [2, 4] else [2], outputs := [3],
           permute := perm, transA := tA, transB := tB }

/-- The chain graph, its operators connected in the order `order`. -/
def chainGraph (P : List Nat) (ty : OpType) (perm : List Nat) (tA tB : Bool)
    (order : List OpId) : GraphObj :=
  addAll (chainObjects P ty perm tA tB) order

/-- The objects of `X --Transpose(P)--> Y --MatMul--> C` before wiring.  Tensors: `X = 0`,
`Y = 1`, the other operand `2`, the result `C = 3`.  Operator `0` is the Transpose, operator
`1` the MatMul with flags `tA`, `tB`; `Y` is its operand `A` when `intoB` is false and its
operand `B` when `intoB` is true. -/
def fusionObjects (P : List Nat) (tA tB intoB : Bool) : GraphObj where
  tensors := [0, 1, 2, 3]
  opObj := fun o =>
    if o = 0 then { type := OpType.Transpose, inputs := [0], outputs := [1], permute := P }
    else { type := OpType.MatMul, inputs := if intoB then [2, 1] else [1, 2], outputs := [3],
           transA := tA, transB := tB }

/-- The fusion graph, its operators connected in the order `order`. -/
def fusionGraph (P : List Nat) (tA tB intoB : Bool) (order : List OpId) : GraphObj :=
  addAll (fusionObjects P tA tB intoB) order

/-- No pattern of `optimize` matches in `g`: no listed Transpose has a Transpose predecessor
passing the test of Rule A, and every listed MatMul has two operands neither of which is
produced by a Transpose passing the test of Rule B. -/
def NoMatch (g : GraphObj) : Prop :=
  ∀ o ∈ g.ops,
    ((g.opObj o).type = OpType.Transpose → ∀ p ∈ (g.opObj o).predecessors,
      (g.opObj p).type = OpType.Transpose →
        ruleAMatch (g.opObj o).permute (g.opObj p).permute = false) ∧
    ((g.opObj o).type = OpType.MatMul → ∃ A B,
      (g.opObj o).inputs[0]? = some A ∧ (g.opObj o).inputs[1]? = some B ∧
      (∀ f, (g.tensorObj A).source = some f → (g.opObj f).type = OpType.Transpose →
        lastTwoSwapped (g.opObj f).permute = false) ∧
      (∀ f, (g.tensorObj B).source = some f → (g.opObj f).type = OpType.Transpose →
        lastTwoSwapped (g.opObj f).permute = false))

/-- The adjacent-transpose test graph of the spec (`P = [0, 2, 1]`) after `optimize`. -/
def optimizedChain : GraphObj :=
  (optimize (chainGraph [0, 2, 1] OpType.Unknown [] false false [0, 1, 2])).getD emptyGraph

/-- The objects of a valid graph in which the intermediate tensor of a Transpose pair has a
second consumer: `X = 0 --Transpose--> Y = 1 --Transpose--> Z = 2 --op 2--> 3` and
`Y --op 3--> 4`, both Transposes (operators `0`, `1`) with the permutation `[0, 2, 1]`. -/
def branchObjects : GraphObj where
  tensors := [0, 1, 2, 3, 4]
  opObj := fun o =>
    if o = 0 then
      { type := OpType.Transpose, inputs := [0], outputs := [1], permute := [0, 2, 1] }
    else if o = 1 then
      { type := OpType.Transpose, inputs := [1], outputs := [2], permute := [0, 2, 1] }
    else if o = 2 then { inputs := [2], outputs := [3] }
    else { inputs := [1], outputs := [4] }

/-- The graph of `branchObjects`, its four operators connected in topological order. -/
def branchGraph : GraphObj :=
  addAll branchObjects [0, 1, 2, 3]

/-- The objects of `X --Transpose(P)--> Y --Transpose(P)--> Z` with a consumer (operator `2`,
of kind `ty`) whose inputs are `[W, Z]`: tensors `X = 0`, `Y = 1`, `Z = 2`, the consumer's
output `3` and `W = 4`. -/
def secondInputObjects (P : List Nat) (ty : OpType) : GraphObj where
  tensors := [0, 1, 2, 3, 4]
  opObj := fun o =>
    if o = 0 then { type := OpType.Transpose, inputs := [0], outputs := [1], permute := P }
    else if o = 1 then { type := OpType.Transpose, inputs := [1], outputs := [2], permute := P }
    else { type := ty, inputs := [4, 2], outputs := [3] }

/-- The graph of `secondInputObjects`, connected in topological order. -/
def secondInputGraph (P : List Nat) (ty : OpType) : GraphObj :=
  addAll (secondInputObjects P ty) [0, 1, 2]

/-- The objects of the chain of four Transposes with the permutation `P`:
`0 --T0--> 1 --T1--> 2 --T2--> 3 --T3--> 4 --Consumer--> 5`; the consumer (operator `4`, of
kind `ty` with attributes `perm`, `tA`, `tB`) reads tensor `4` as its first input, a MatMul
consumer has the second operand `6`. -/
def fourChainObjects (P : List Nat) (ty : OpType) (perm : List Nat) (tA tB : Bool) :
    GraphObj where
  tensors := if ty = OpType.MatMul then [0, 1, 2, 3, 4, 5, 6] else [0, 1, 2, 3, 4, 5]
  opObj := fun o =>
    if o < 4 then { type := OpType.Transpose, inputs := [o], outputs := [o + 1], permute := P }
    else { type := ty, inputs := if ty = OpType.MatMul then [4, 6] else [4], outputs := [5],
           permute := perm, transA := tA, transB := tB }

/-- The chain of four Transposes, connected and listed in topological order. -/
def fourChainGraph (P : List Nat) (ty : OpType) (perm : List Nat) (tA tB : Bool) : GraphObj :=
  addAll (fourChainObjects P ty perm tA tB) [0, 1, 2, 3, 4]

/-- The graph reached by building `branchGraph`, sorting it with `topo_sort` and rewriting it
with `optimize`. -/
def staleBranchGraph : GraphObj :=
  ((topo_sort branchGraph).bind fun r => optimize r.2).getD emptyGraph

/-! ## `GraphObj::dataMalloc` -/

/-- Modelled from the spec: the allocator collaborator (`Allocator`, outside `src/`) as an
abstract state machine over the states `σ`: `alloc(bytes)` returns an offset, `getPtr()` the
base address, `info()` is the diagnostic dump. -/
structure AllocatorModel (σ : Type) where
  alloc : σ → Nat → Nat × σ
  getPtr : σ → Nat × σ
  info : σ → σ

/-- Modelled from the spec: `TensorObj::getBytes()`, the element count times the element
size. -/
def getBytes (r : TensorObj) : Nat :=
  r.dims.prod * r.dtypeSize

/-- Modelled from the spec: `TensorObj::setDataBlob`. -/
def setDataBlob (g : GraphObj) (t : TensorId) (blob : BlobObj) : GraphObj :=
  g.modifyTensor t (fun r => { r with data := some blob })

/-- The state of the first loop of `dataMalloc`: the vector `offsets`, the allocator, and
the alloc requests issued so far (kept to state what was requested). -/
structure AllocLoop (σ : Type) where
  offsets : List Nat
  allocator : σ
  requests : List Nat

/-- Body of the first loop: `offsets[i] = allocator.alloc(tensors[i]->getBytes())`. -/
def allocStep {σ : Type} (A : AllocatorModel σ) (g : GraphObj) (st : AllocLoop σ) (i : Nat) :
    AllocLoop σ :=
  let bytes := getBytes (g.tensorObj (g.tensors.getD i 0))
  let r := A.alloc st.allocator bytes
  { offsets := st.offsets.set i r.1, allocator := r.2, requests := st.requests ++ [bytes] }

/-- Body of the second loop: `tensors[i]->setDataBlob(make_ref<BlobObj>(runtime, hptr +
offsets[i]))`. -/
def bindStep (hptr : Nat) (offsets : List Nat) (tensors : List TensorId) (g : GraphObj)
    (i : Nat) : GraphObj :=
  g.setDataBlob (tensors.getD i 0) { runtime := g.runtime, ptr := hptr + offsets.getD i 0 }

/-- The outcome of `dataMalloc`: whether the `IT_ASSERT` on `topo_sort` aborted, the graph,
the allocator and the list of alloc requests issued, in order. -/
structure DataMallocResult (σ : Type) where
  aborted : Bool
  g : GraphObj
  allocator : σ
  requests : List Nat

/-- `GraphObj::dataMalloc`, the allocator given by the model `A` in the state `a`. -/
def dataMalloc {σ : Type} (A : AllocatorModel σ) (g : GraphObj) (a : σ) : DataMallocResult σ :=
  match topo_sort g with
  | some (true, g1) =>
    let n := g1.tensors.length
    let st := (List.range n).foldl (allocStep A g1)
      { offsets := List.replicate n 0, allocator := a, requests := [] }
    let p := A.getPtr st.allocator
    let g2 := (List.range n).foldl (bindStep p.1 st.offsets g1.tensors) g1
    { aborted := false, g := g2, allocator := A.info p.2, requests := st.requests }
  | _ => { aborted := true, g := g, allocator := a, requests := [] }

/-- The allocator as a state machine run on a list of requests: the offsets it returns, in
order, and its final state. -/
def allocRun {σ : Type} (A : AllocatorModel σ) : σ → List Nat → List Nat × σ
  | a, [] => ([], a)
  | a, bytes :: rest =>
    ((A.alloc a bytes).1 :: (allocRun A (A.alloc a bytes).2 rest).1,
      (allocRun A (A.alloc a bytes).2 rest).2)

/-- A bump allocator: the state is the number of bytes handed out, `alloc` returns the old
value, the base address is `1000`. -/
def bumpAllocator : AllocatorModel Nat where
  alloc := fun used bytes => (used, used + bytes)
  getPtr := fun used => (1000, used)
  info := fun used => used

/-! ## `GraphObj::getTensor` and `GraphObj::shape_infer` -/

/-- `GraphObj::getTensor(fuid)`: the first listed tensor with this fuid; `none` is
`nullptr`. -/
def getTensor (g : GraphObj) (fuid : Nat) : Option TensorId :=
  g.tensors.find? (fun tensor => decide ((g.tensorObj tensor).fuid = fuid))

/-- Modelled from the spec: `TensorObj::setShape`. -/
def setShape (g : GraphObj) (t : TensorId) (shape : Shape) : GraphObj :=
  g.modifyTensor t (fun r => { r with dims := shape })

/-- The shapes returned by `op->inferShape()` for an operator with the contents `r` on the
input shapes `ins`.  For a MatMul this is `MatmulObj::inferShape` (`none` when it has fewer
than two inputs, an out-of-range access); the shape functions of the other kinds are outside
`src/` and are given by the parameter `other`. -/
def inferShapes (other : OperatorObj → List Shape → Option (List Shape)) (r : OperatorObj)
    (ins : List Shape) : Option (List Shape) :=
  if r.type = OpType.MatMul then
    match ins with
    | A :: B :: _ => (matmulInferShape r.transA r.transB A B).shapes
    | _ => none
  else other r ins

/-- The contents of the operator after `op->inferShape()`: a MatMul has recorded `m`, `n`,
`k`. -/
def inferRecord (r : OperatorObj) (ins : List Shape) : OperatorObj :=
  if r.type = OpType.MatMul then
    match ins with
    | A :: B :: _ =>
      { r with
        m := (matmulInferShape r.transA r.transB A B).m
        n := (matmulInferShape r.transA r.transB A B).n
        k := (matmulInferShape r.transA r.transB A B).k }
    | _ => r
  else r

/-- The shapes of the tensors `ts` as currently recorded. -/
def shapesOf (g : GraphObj) (ts : List TensorId) : List Shape :=
  ts.map (fun t => (g.tensorObj t).dims)

/-- `op->inferShape()` on the current shapes of the operator's inputs: the returned
`optional` and the graph with the operator's record updated. -/
def inferShape (other : OperatorObj → List Shape → Option (List Shape)) (g : GraphObj)
    (op : OpId) : Option (List Shape) × GraphObj :=
  (inferShapes other (g.opObj op) (shapesOf g (g.opObj op).inputs),
    g.modifyOp op (fun r => inferRecord r (shapesOf g (g.opObj op).inputs)))

/-- The inner loop of `shape_infer` over the pairs `(ans[i], oldOutputs[i])`; `none` is the
use of a null `getTensor` result. -/
def shapeInferOutputs (g : GraphObj) : List (Shape × TensorId) → Option GraphObj
  | [] => some g
  | (newShape, output) :: rest =>
    if newShape ≠ (g.tensorObj output).dims then
      (getTensor g (g.tensorObj output).fuid).bind fun tensor =>
        shapeInferOutputs (g.setShape tensor newShape) rest
    else shapeInferOutputs g rest

/-- Body of the loop of `shape_infer` over the operators; `none` is a failed `IT_ASSERT`. -/
def shapeInferOp (other : OperatorObj → List Shape → Option (List Shape)) (g : GraphObj)
    (op : OpId) : Option GraphObj :=
  match inferShape other g op with
  | (none, _) => none
  | (some ans, g1) =>
    if ans.length = (g1.opObj op).outputs.length then
      shapeInferOutputs g1 (ans.zip (g1.opObj op).outputs)
    else none

/-- `GraphObj::shape_infer`. -/
def shape_infer (other : OperatorObj → List Shape → Option (List Shape)) (g : GraphObj) :
    Option GraphObj :=
  g.ops.foldlM (shapeInferOp other) g

/-- Every listed operator's `inferShape` succeeds, whatever the shapes of its inputs, with
one shape per output. -/
def InferSucceeds (other : OperatorObj → List Shape → Option (List Shape)) (g : GraphObj) :
    Prop :=
  ∀ o ∈ g.ops, ∀ ins : List Shape, ins.length = (g.opObj o).inputs.length →
    ∃ outs, inferShapes other (g.opObj o) ins = some outs ∧
      outs.length = (g.opObj o).outputs.length

/-- Every output tensor of a listed operator has this operator as its source, and no
operator lists a tensor twice among its outputs. -/
def ProducerConsistent (g : GraphObj) : Prop :=
  ∀ o ∈ g.ops, (g.opObj o).outputs.Nodup ∧
    ∀ t ∈ (g.opObj o).outputs, (g.tensorObj t).source = some o

/-- The objects of a graph in which two MatMuls write the same tensor: tensors `0` of shape
`[2, 3]`, `1` of shape `[3, 4]`, `2` of shape `[5, 3]` and the result `3`; operator `0` is
`MatMul(0, 1)` and operator `1` is `MatMul(2, 1)`, both with output `3`. -/
def twoProducerObjects : GraphObj where
  tensors := [0, 1, 2, 3]
  opObj := fun o =>
    if o = 0 then { type := OpType.MatMul, inputs := [0, 1], outputs := [3] }
    else { type := OpType.MatMul, inputs := [2, 1], outputs := [3] }
  tensorObj := fun t =>
    if t = 0 then { fuid := 0, dims := [2, 3] }
    else if t = 1 then { fuid := 1, dims := [3, 4] }
    else if t = 2 then { fuid := 2, dims := [5, 3] }
    else { fuid := t }

/-- The graph of `twoProducerObjects`, operator `0` connected before operator `1`. -/
def twoProducerGraph : GraphObj :=
  addAll twoProducerObjects [0, 1]

/-- What `shape_infer` leaves alone between the graphs `g` and `h`: the two lists, the fuid of
every tensor, kind, inputs, outputs and flags of every operator, and the whole record of
every operator that is not a MatMul. -/
structure ShapeFrame (g h : GraphObj) : Prop where
  ops : h.ops = g.ops
  tensors : h.tensors = g.tensors
  fuid : ∀ t, (h.tensorObj t).fuid = (g.tensorObj t).fuid
  type : ∀ o, (h.opObj o).type = (g.opObj o).type
  inputs : ∀ o, (h.opObj o).inputs = (g.opObj o).inputs
  outputs : ∀ o, (h.opObj o).outputs = (g.opObj o).outputs
  transA : ∀ o, (h.opObj o).transA = (g.opObj o).transA
  transB : ∀ o, (h.opObj o).transB = (g.opObj o).transB
  other : ∀ o, (g.opObj o).type ≠ OpType.MatMul → h.opObj o = g.opObj o

/-- In `h` the operator `o` agrees with its own shape inference: `inferShape` on the recorded
shapes of its inputs returns the recorded shapes of its outputs and leaves its record as it
is. -/
def InferConsistent (other : OperatorObj → List Shape → Option (List Shape)) (h : GraphObj)
    (o : OpId) : Prop :=
  inferShapes other (h.opObj o) (shapesOf h (h.opObj o).inputs) =
      some (shapesOf h (h.opObj o).outputs) ∧
    inferRecord (h.opObj o) (shapesOf h (h.opObj o).inputs) = h.opObj o

/-- The loop invariant of `shape_infer` started on `g`, when the operators `done` have been
processed and the graph is `h`. -/
structure InferInv (other : OperatorObj → List Shape → Option (List Shape)) (g : GraphObj)
    (done : List OpId) (h : GraphObj) : Prop where
  frame : ShapeFrame g h
  consistent : ∀ o ∈ done, InferConsistent other h o
  untouched : ∀ t, (∀ o ∈ done, t ∉ (g.opObj o).outputs) → h.tensorObj t = g.tensorObj t

/-- The objects of a chain of two MatMuls: tensors `0` of shape `[2, 3]`, `1` of shape
`[3, 4]`, `3` of shape `[4, 5]`, and the results `2` and `4`, created with the shapes `[1]`
and `[7, 7]`; operator `0` is `MatMul(0, 1)` with output `2` and operator `1` is
`MatMul(2, 3)` with output `4`. -/
def matmulChainObjects : GraphObj where
  tensors := [0, 1, 2, 3, 4]
  opObj := fun o =>
    if o = 0 then { type := OpType.MatMul, inputs := [0, 1], outputs := [2] }
    else { type := OpType.MatMul, inputs := [2, 3], outputs := [4] }
  tensorObj := fun t =>
    if t = 0 then { fuid := 0, dims := [2, 3] }
    else if t = 1 then { fuid := 1, dims := [3, 4] }
    else if t = 2 then { fuid := 2, dims := [1] }
    else if t = 3 then { fuid := 3, dims := [4, 5] }
    else { fuid := t, dims := [7, 7] }

/-- The graph of `matmulChainObjects`, the producer connected first. -/
def matmulChainGraph : GraphObj :=
  addAll matmulChainObjects [0, 1]

/-- The part of an operator record that Rule A never writes: everything but the inputs, the
predecessors and the successors. -/
def unwiredPart (r : OperatorObj) : OperatorObj :=
  { r with inputs := [], predecessors := [], successors := [] }

/-- The part of a tensor record that `optimize` never writes: everything but the targets. -/
def untargeted (r : TensorObj) : TensorObj :=
  { r with targets := [] }

/-- The rebinding done by `replaceInput(input, SavedTensor)` on an input list. -/
def rebind (input saved : TensorId) (l : List TensorId) : List TensorId :=
  l.map (fun t => if t = input then saved else t)

/-- What Rule A does to the record of one `ffop`: `removeSuccessors(fop)`, then
`addSuccessors(bop)` for every `bop`. -/
def spliceSuccs (fop : OpId) (bops : List OpId) (r : OperatorObj) : OperatorObj :=
  { r with successors := bops.foldl (fun l b => setAdd b l) (setRemove fop r.successors) }

/-- What Rule A does to the predecessors of one `bop`: `removePredecessors(op)`, then
`addPredecessors(ffop)` for every `ffop`. -/
def splicePreds (op : OpId) (ffops : List OpId) (r : OperatorObj) : OperatorObj :=
  { r with predecessors := ffops.foldl (fun l f => setAdd f l) (setRemove op r.predecessors) }

/-- What Rule A does to the inputs of one `bop`: `replaceInput(getInputs(0), SavedTensor)`. -/
def rebindFirst (saved : TensorId) (r : OperatorObj) : OperatorObj :=
  match r.inputs[0]? with
  | some input => { r with inputs := rebind input saved r.inputs }
  | none => r

/-- The flag toggled by Rule B for operand `slot`: `setTransA(!getTransA())` for operand `A`
(`slot = 0`), `setTransB(!getTransB())` for operand `B`. -/
def toggleFlag (slot : Nat) (r : OperatorObj) : OperatorObj :=
  if slot = 0 then { r with transA := !r.transA } else { r with transB := !r.transB }

/-- What Rule B does to the predecessors of the MatMul in its loop: `addPredecessors(ffop)`
for every `ffop`. -/
def joinPreds (ffops : List OpId) (r : OperatorObj) : OperatorObj :=
  { r with predecessors := ffops.foldl (fun l f => setAdd f l) r.predecessors }

/-- The fusion pattern `X --Transpose--> Y --MatMul--> C` inside an arbitrary graph `g`: the
graph is wired as `addOperatorAndConnect` wires it, every tensor has at most one listed
producer, every listed Transpose has one output and an input, every listed MatMul two
operands; `T` is a listed Transpose from `X` to `Y`, `M` a listed MatMul whose operand `slot`
(0 for `A`, 1 for `B`) is `Y` and whose other operand is `B`; `Y` is consumed only by `M`;
neither `X` nor `B` is produced by a Transpose. -/
structure FusePattern (g : GraphObj) (T M : OpId) (X Y B : TensorId) (slot : Nat) : Prop where
  wired : Wired g
  unique : UniqueProducer g g.ops
  transposes : ∀ o ∈ g.ops, (g.opObj o).type = OpType.Transpose →
    (∃ y, (g.opObj o).outputs = [y]) ∧ (g.opObj o).inputs ≠ []
  matmuls : ∀ o ∈ g.ops, (g.opObj o).type = OpType.MatMul → 2 ≤ (g.opObj o).inputs.length
  slot_range : slot = 0 ∨ slot = 1
  T_listed : T ∈ g.ops
  T_type : (g.opObj T).type = OpType.Transpose
  T_inputs : (g.opObj T).inputs = [X]
  T_outputs : (g.opObj T).outputs = [Y]
  M_listed : M ∈ g.ops
  M_type : (g.opObj M).type = OpType.MatMul
  M_inputs : (g.opObj M).inputs = if slot = 0 then [Y, B] else [B, Y]
  other_ne : B ≠ Y
  only_consumer : ∀ o ∈ (g.tensorObj Y).targets, o = M
  X_source : ∀ f, (g.tensorObj X).source = some f → (g.opObj f).type ≠ OpType.Transpose
  B_source : ∀ f, (g.tensorObj B).source = some f → (g.opObj f).type ≠ OpType.Transpose

/-- The invariant of the main loop of `optimize` on a graph `g` with the fusion pattern;
`folded` tells whether the MatMul `M` has been visited. -/
structure FuseInv (g : GraphObj) (T M : OpId) (X Y : TensorId) (slot : Nat) (folded : Bool)
    (st : OptState) : Prop where
  kind : ∀ o, (st.g.opObj o).type = (g.opObj o).type ∧
    (st.g.opObj o).permute = (g.opObj o).permute ∧ (st.g.opObj o).outputs = (g.opObj o).outputs ∧
    (st.g.opObj o).inputs.length = (g.opObj o).inputs.length
  tensor : ∀ t, (st.g.tensorObj t).source = (g.tensorObj t).source ∧
    (st.g.tensorObj t).fuid = (g.tensorObj t).fuid
  succ_M : ∀ o, (g.opObj o).type = OpType.Transpose → o ≠ T → M ∉ (st.g.opObj o).successors
  succ_T : ∀ o, (g.opObj o).type = OpType.Transpose → T ∉ (st.g.opObj o).successors
  pred_of_T : ∀ p ∈ (st.g.opObj T).predecessors, (g.opObj p).type ≠ OpType.Transpose
  pred_T : ∀ o, (g.opObj o).type = OpType.Transpose → T ∉ (st.g.opObj o).predecessors
  reads_Y : ∀ o ∈ g.ops, o ≠ M → Y ∉ (st.g.opObj o).inputs
  succ_inputs : ∀ o s, s ∈ (st.g.opObj o).successors → (g.opObj s).inputs ≠ []
  deleted : ∀ o ∈ st.deleted_ops, (g.opObj o).type = OpType.Transpose
  T_inputs : (st.g.opObj T).inputs = [X]
  preds_listed : ∀ o p, p ∈ (st.g.opObj o).predecessors → p ∈ g.ops
  before : folded = false → (st.g.opObj M).inputs = (g.opObj M).inputs ∧
    (st.g.opObj M).transA = (g.opObj M).transA ∧ (st.g.opObj M).transB = (g.opObj M).transB ∧
    T ∉ st.deleted_ops
  after : folded = true → (st.g.opObj M).inputs = rebind Y X (g.opObj M).inputs ∧
    (st.g.opObj M).transA = (if slot = 0 then !(g.opObj M).transA else (g.opObj M).transA) ∧
    (st.g.opObj M).transB = (if slot = 0 then (g.opObj M).transB else !(g.opObj M).transB) ∧
    T ∈ st.deleted_ops ∧ (g.tensorObj Y).fuid ∈ st.deleted_tensors ∧
    M ∈ (st.g.tensorObj X).targets

/-- The objects of a MatMul both of whose operands come from a Transpose with the permutation
`P`: tensors `0 --T0--> 1` and `2 --T1--> 3`, operator `2` is `MatMul(1, 3)` with output
`4`. -/
def bothOperandsObjects (P : List Nat) : GraphObj where
  tensors := [0, 1, 2, 3, 4]
  opObj := fun o =>
    if o = 0 then { type := OpType.Transpose, inputs := [0], outputs := [1], permute := P }
    else if o = 1 then { type := OpType.Transpose, inputs := [2], outputs := [3], permute := P }
    else { type := OpType.MatMul, inputs := [1, 3], outputs := [4] }

/-- The graph of `bothOperandsObjects`, connected in topological order. -/
def bothOperandsGraph (P : List Nat) : GraphObj :=
  addAll (bothOperandsObjects P) [0, 1, 2]

/-! ## Graphs on which `optimize` is idempotent -/

/-- Position of the operator `o` in the operator list of `g`. -/
def pos (g : GraphObj) (o : OpId) : Nat :=
  g.ops.indexOf o

/-- No input of the operator `f` is produced by a Transpose. -/
def freshInput (g : GraphObj) (f : OpId) : Prop :=
  ∀ x ∈ (g.opObj f).inputs, ∀ a, (g.tensorObj x).source = some a →
    (g.opObj a).type ≠ OpType.Transpose

/-- No Transpose passing the test of Rule B produces the tensor `t`. -/
def unfoldable (g : GraphObj) (t : TensorId) : Prop :=
  ∀ f, (g.tensorObj t).source = some f → (g.opObj f).type = OpType.Transpose →
    lastTwoSwapped (g.opObj f).permute = false

/-- The graphs on which `optimize` is shown to be idempotent.  The graph is wired as
`addOperatorAndConnect` wires it, its operators are distinct and listed in topological order,
every tensor has at most one listed producer and every predecessor list holds an operator
once; every listed Transpose has one input and one output, every listed MatMul two operands.
The three last fields exclude the patterns on which the pass misbehaves: the output of a
Transpose has one consumer (`single_reader`); that consumer reads it as its first input,
unless the input of the Transpose is not itself produced by a Transpose (`first_input`); and
two Transposes passing the test of Rule B pass the test of Rule A with each other, that is,
they carry the same permutation, which moves the last two axes only (`same_swap`). -/
structure Rewritable (g : GraphObj) : Prop where
  wired : Wired g
  unique : UniqueProducer g g.ops
  nodup : g.ops.Nodup
  ordered : TopoOrdered g g.ops
  preds_nodup : ∀ o ∈ g.ops, (g.opObj o).predecessors.Nodup
  transposes : ∀ o ∈ g.ops, (g.opObj o).type = OpType.Transpose →
    (∃ x, (g.opObj o).inputs = [x]) ∧ ∃ y, (g.opObj o).outputs = [y]
  matmuls : ∀ o ∈ g.ops, (g.opObj o).type = OpType.MatMul → 2 ≤ (g.opObj o).inputs.length
  single_reader : ∀ f ∈ g.ops, (g.opObj f).type = OpType.Transpose →
    ∀ y ∈ (g.opObj f).outputs, ∀ c ∈ g.ops, ∀ c' ∈ g.ops,
      y ∈ (g.opObj c).inputs → y ∈ (g.opObj c').inputs → c = c'
  first_input : ∀ f ∈ g.ops, (g.opObj f).type = OpType.Transpose →
    ∀ y ∈ (g.opObj f).outputs, ∀ c ∈ g.ops, y ∈ (g.opObj c).inputs →
      (g.opObj c).inputs[0]? ≠ some y → freshInput g f
  same_swap : ∀ f ∈ g.ops, ∀ f' ∈ g.ops, (g.opObj f).type = OpType.Transpose →
    (g.opObj f').type = OpType.Transpose → lastTwoSwapped (g.opObj f).permute = true →
    lastTwoSwapped (g.opObj f').permute = true →
    ruleAMatch (g.opObj f).permute (g.opObj f').permute = true

/-- The invariant of the main loop of `optimize` on a graph `g` as in `Rewritable`, in the
state `st`, while the operator at position `cur` of the list is being visited.  An operator is
live when it is listed and not deleted. -/
structure RewriteInv (g : GraphObj) (cur : Nat) (st : OptState) : Prop where
  /-- kinds, permutations and outputs are never written -/
  kind : ∀ o, (st.g.opObj o).type = (g.opObj o).type ∧
    (st.g.opObj o).permute = (g.opObj o).permute ∧ (st.g.opObj o).outputs = (g.opObj o).outputs
  /-- sources are never written -/
  tensor : ∀ t, (st.g.tensorObj t).source = (g.tensorObj t).source
  /-- a listed Transpose has one input -/
  single : ∀ f ∈ g.ops, (g.opObj f).type = OpType.Transpose → ∃ x, (st.g.opObj f).inputs = [x]
  /-- a listed MatMul has two operands -/
  pair : ∀ o ∈ g.ops, (g.opObj o).type = OpType.MatMul → 2 ≤ (st.g.opObj o).inputs.length
  /-- the deleted operators are listed Transposes up to the current position -/
  dead : ∀ d ∈ st.deleted_ops, d ∈ g.ops ∧ (g.opObj d).type = OpType.Transpose ∧ pos g d ≤ cur
  /-- the producer of an input comes earlier in the list -/
  src_before : ∀ c ∈ g.ops, ∀ t ∈ (st.g.opObj c).inputs, ∀ a,
    (g.tensorObj t).source = some a → a ∈ g.ops ∧ pos g a < pos g c
  /-- a predecessor comes earlier in the list -/
  pred_before : ∀ c ∈ g.ops, ∀ p ∈ (st.g.opObj c).predecessors, p ∈ g.ops ∧ pos g p < pos g c
  /-- a successor comes later in the list and has an input -/
  succ_after : ∀ p ∈ g.ops, ∀ s ∈ (st.g.opObj p).successors,
    s ∈ g.ops ∧ pos g p < pos g s ∧ (st.g.opObj s).inputs ≠ []
  /-- predecessor lists hold an operator once -/
  pred_nodup : ∀ o ∈ g.ops, (st.g.opObj o).predecessors.Nodup
  /-- the producer of the input of a live Transpose is among its predecessors -/
  src_pred : ∀ f ∈ g.ops, f ∉ st.deleted_ops → (g.opObj f).type = OpType.Transpose →
    ∀ x ∈ (st.g.opObj f).inputs, ∀ a, (g.tensorObj x).source = some a →
      a ∈ (st.g.opObj f).predecessors
  /-- every predecessor of a live Transpose produces its input -/
  pred_src : ∀ f ∈ g.ops, f ∉ st.deleted_ops → (g.opObj f).type = OpType.Transpose →
    ∀ p ∈ (st.g.opObj f).predecessors, ∀ x ∈ (st.g.opObj f).inputs,
      (g.tensorObj x).source = some p
  /-- a live reader of the output of a live Transpose is among its successors -/
  reader_succ : ∀ f ∈ g.ops, f ∉ st.deleted_ops → (g.opObj f).type = OpType.Transpose →
    ∀ y ∈ (g.opObj f).outputs, ∀ c ∈ g.ops, c ∉ st.deleted_ops → y ∈ (st.g.opObj c).inputs →
      c ∈ (st.g.opObj f).successors
  /-- every successor of a live Transpose reads its output -/
  succ_reader : ∀ f ∈ g.ops, f ∉ st.deleted_ops → (g.opObj f).type = OpType.Transpose →
    ∀ c ∈ (st.g.opObj f).successors, ∀ y ∈ (g.opObj f).outputs, y ∈ (st.g.opObj c).inputs
  /-- the output of a live Transpose has at most one live reader -/
  one_reader : ∀ f ∈ g.ops, f ∉ st.deleted_ops → (g.opObj f).type = OpType.Transpose →
    ∀ y ∈ (g.opObj f).outputs, ∀ c ∈ g.ops, ∀ c' ∈ g.ops, c ∉ st.deleted_ops →
      c' ∉ st.deleted_ops → y ∈ (st.g.opObj c).inputs → y ∈ (st.g.opObj c').inputs → c = c'
  /-- a live operator reads no tensor of a deleted producer -/
  live_src : ∀ c ∈ g.ops, c ∉ st.deleted_ops → ∀ t ∈ (st.g.opObj c).inputs, ∀ a,
    (g.tensorObj t).source = some a → a ∉ st.deleted_ops
  /-- a live Transpose whose input is not produced by a Transpose still has that input -/
  fresh : ∀ f ∈ g.ops, f ∉ st.deleted_ops → (g.opObj f).type = OpType.Transpose →
    freshInput g f → (st.g.opObj f).inputs = (g.opObj f).inputs
  /-- the output of any other live Transpose is read as a first input -/
  head : ∀ f ∈ g.ops, f ∉ st.deleted_ops → (g.opObj f).type = OpType.Transpose →
    ¬ freshInput g f → ∀ y ∈ (g.opObj f).outputs, ∀ c ∈ g.ops, c ∉ st.deleted_ops →
      y ∈ (st.g.opObj c).inputs → (st.g.opObj c).inputs[0]? = some y
  /-- Rule A matches at no live Transpose visited so far -/
  clean_transpose : ∀ o ∈ g.ops, pos g o < cur → o ∉ st.deleted_ops →
    (g.opObj o).type = OpType.Transpose → ∀ p ∈ (st.g.opObj o).predecessors,
      (g.opObj p).type = OpType.Transpose →
        ruleAMatch (g.opObj o).permute (g.opObj p).permute = false
  /-- Rule B matches at no MatMul visited so far -/
  clean_matmul : ∀ o ∈ g.ops, pos g o < cur → (g.opObj o).type = OpType.MatMul →
    ∃ A B, (st.g.opObj o).inputs[0]? = some A ∧ (st.g.opObj o).inputs[1]? = some B ∧
      unfoldable g A ∧ unfoldable g B

end GraphObj

/-! # Theorems -/

namespace GraphObj

theorem precedes_append_right {l : List OpId} {a b : OpId} (h : precedes l a b) (x : OpId) :
    precedes (l ++ [x]) a b := by
  obtain ⟨pre, post, rfl, ha⟩ := h
  exact ⟨pre, post ++ [x], by simp, ha⟩

theorem precedes_last {l : List OpId} {a : OpId} (h : a ∈ l) (x : OpId) :
    precedes (l ++ [x]) a x :=
  ⟨l, [], rfl, h⟩

theorem sourcePlaced_iff (g : GraphObj) (f : List OpId) (t : TensorId) :
    sourcePlaced g f t = true ↔ ∀ a, (g.tensorObj t).source = some a → a ∈ f := by
  unfold sourcePlaced
  cases h : (g.tensorObj t).source with
  | none => simp
  | some p => simp

theorem eligible_iff (g : GraphObj) (f : List OpId) (op : OpId) :
    eligible g f op = true ↔
      op ∉ f ∧ ∀ t ∈ (g.opObj op).inputs, ∀ a, (g.tensorObj t).source = some a → a ∈ f := by
  unfold eligible
  simp only [Bool.and_eq_true, decide_eq_true_eq, List.all_eq_true, sourcePlaced_iff]

theorem PassInv.step {g : GraphObj} {s f : List OpId} {op : OpId} (h : PassInv g s f)
    (hop : op ∈ g.ops) (he : eligible g f op = true) : PassInv g (s ++ [op]) (op :: f) := by
  rw [eligible_iff] at he
  obtain ⟨hnf, hsrc⟩ := he
  have hns : op ∉ s := fun hx => hnf ((h.mem_iff op).2 hx)
  refine ⟨?_, ?_, ?_, ?_⟩
  · intro x
    simp only [List.mem_cons, List.mem_append, List.mem_singleton, h.mem_iff x]
    tauto
  · rw [List.nodup_append]
    refine ⟨h.nodup, List.nodup_singleton op, ?_⟩
    intro x hx hx'
    rw [List.mem_singleton] at hx'
    subst hx'
    exact hns hx
  · intro x hx
    rw [List.mem_append, List.mem_singleton] at hx
    rcases hx with hx | rfl
    · exact h.sub x hx
    · exact hop
  · intro x hx t ht a ha
    rw [List.mem_append, List.mem_singleton] at hx
    rcases hx with hx | rfl
    · exact precedes_append_right (h.ordered x hx t ht a ha) op
    · exact precedes_last ((h.mem_iff a).1 (hsrc t ht a ha)) x

theorem topoPass_spec (g : GraphObj) :
    ∀ (l : List OpId) (s f : List OpId) (m : Bool), (∀ x ∈ l, x ∈ g.ops) → PassInv g s f →
      PassInv g (topoPass g l (s, f, m)).1 (topoPass g l (s, f, m)).2.1 ∧
      s.length ≤ (topoPass g l (s, f, m)).1.length ∧
      ((topoPass g l (s, f, m)).2.2 = true →
        m = true ∨ s.length < (topoPass g l (s, f, m)).1.length) ∧
      ((topoPass g l (s, f, m)).2.2 = false →
        m = false ∧ (topoPass g l (s, f, m)).1 = s ∧ (topoPass g l (s, f, m)).2.1 = f ∧
          ∀ op ∈ l, eligible g f op = false) := by
  intro l
  induction l with
  | nil =>
    intro s f m _ h
    simp [topoPass, h]
  | cons op rest ih =>
    intro s f m hl h
    have hrest : ∀ x ∈ rest, x ∈ g.ops := fun x hx => hl x (List.mem_cons_of_mem _ hx)
    by_cases he : eligible g f op = true
    · have hstep := h.step (hl op (List.mem_cons_self _ _)) he
      obtain ⟨i1, i2, _, i4⟩ := ih (s ++ [op]) (op :: f) true hrest hstep
      have hlen : (s ++ [op]).length = s.length + 1 := by simp
      simp only [topoPass, he, if_true]
      refine ⟨i1, by omega, fun _ => Or.inr (by omega), ?_⟩
      intro hm
      exact absurd (i4 hm).1 (by simp)
    · have he' : eligible g f op = false := by simpa using he
      obtain ⟨i1, i2, i3, i4⟩ := ih s f m hrest h
      simp only [topoPass, he', Bool.false_eq_true, if_false]
      refine ⟨i1, i2, i3, ?_⟩
      intro hm
      obtain ⟨j0, j1, j2, j3⟩ := i4 hm
      refine ⟨j0, j1, j2, ?_⟩
      intro x hx
      rw [List.mem_cons] at hx
      rcases hx with rfl | hx
      · exact he'
      · exact j3 x hx

theorem topoLoop_spec (g : GraphObj) :
    ∀ (fuel : Nat) (s f : List OpId), PassInv g s f → g.ops.length + 1 ≤ fuel + s.length →
      ∃ r, topoLoop g fuel s f = some r ∧ LoopOut g r := by
  intro fuel
  induction fuel with
  | zero =>
    intro s f h hlen
    by_cases hlt : s.length < g.ops.length
    · omega
    · exfalso
      have h1 : s.length ≤ g.ops.length :=
        (List.subperm_of_subset h.nodup (fun x hx => h.sub x hx)).length_le
      omega
  | succ fuel ih =>
    intro s f h hlen
    by_cases hlt : s.length < g.ops.length
    · obtain ⟨i1, i2, i3, i4⟩ := topoPass_spec g g.ops s f false (fun _ hx => hx) h
      rw [topoLoop, if_pos hlt]
      cases hm : (topoPass g g.ops (s, f, false)).2.2 with
      | false =>
        obtain ⟨_, j1, j2, j3⟩ := i4 hm
        refine ⟨none, ?_, s, f, h, hlt, j3⟩
        simp [hm]
      | true =>
        have hgrow : s.length < (topoPass g g.ops (s, f, false)).1.length := by
          rcases i3 hm with h0 | h0
          · exact absurd h0 (by simp)
          · exact h0
        obtain ⟨r, hr, hout⟩ := ih _ _ i1 (by omega)
        refine ⟨r, ?_, hout⟩
        simp [hm, hr]
    · refine ⟨some s, ?_, ⟨f, h⟩, by omega⟩
      rw [topoLoop, if_neg hlt]

theorem topoLoop_mono (g : GraphObj) :
    ∀ (fuel : Nat) (s f : List OpId) (r : Option (List OpId)), topoLoop g fuel s f = some r →
      ∀ fuel', fuel ≤ fuel' → topoLoop g fuel' s f = some r := by
  intro fuel
  induction fuel with
  | zero => intro s f r h; simp [topoLoop] at h
  | succ fuel ih =>
    intro s f r h fuel' hle
    obtain ⟨k, rfl⟩ : ∃ k, fuel' = k + 1 := ⟨fuel' - 1, by omega⟩
    rw [topoLoop] at h ⊢
    by_cases hlt : s.length < g.ops.length
    · rw [if_pos hlt] at h ⊢
      cases hm : (topoPass g g.ops (s, f, false)).2.2 with
      | false => simp [hm] at h ⊢; exact h
      | true =>
        simp [hm] at h ⊢
        exact ih _ _ r h k (by omega)
    · rw [if_neg hlt] at h ⊢
      exact h

theorem indexOf_lt_of_precedes {l : List OpId} (hnd : l.Nodup) {a b : OpId}
    (h : precedes l a b) : l.indexOf a < l.indexOf b := by
  obtain ⟨pre, post, rfl, ha⟩ := h
  have hb : b ∉ pre := by
    intro hb
    have := (List.nodup_append.1 hnd).2.2 hb (List.mem_cons_self _ _)
    exact this
  rw [List.indexOf_append_of_mem ha, List.indexOf_append_of_not_mem hb, List.indexOf_cons_self]
  have := List.indexOf_lt_length.2 ha
  omega

theorem index_lt_of_transGen {g : GraphObj} {s : List OpId} (hnd : s.Nodup)
    (hord : TopoOrdered g s) (hall : ∀ x ∈ g.ops, x ∈ s) {a b : OpId}
    (h : Relation.TransGen (producer g) a b) : s.indexOf a < s.indexOf b := by
  induction h with
  | single hab =>
    obtain ⟨_, hb, t, ht, hsrc⟩ := hab
    exact indexOf_lt_of_precedes hnd (hord _ (hall _ hb) t ht _ hsrc)
  | tail _ hbc ih =>
    obtain ⟨_, hb, t, ht, hsrc⟩ := hbc
    exact lt_trans ih (indexOf_lt_of_precedes hnd (hord _ (hall _ hb) t ht _ hsrc))

theorem perm_of_placed {g : GraphObj} {s f : List OpId} (h : PassInv g s f)
    (hlen : g.ops.length ≤ s.length) : s.Perm g.ops :=
  (List.subperm_of_subset h.nodup (fun x hx => h.sub x hx)).perm_of_length_le hlen

theorem no_cycle_of_placed {g : GraphObj} {s f : List OpId} (h : PassInv g s f)
    (hlen : g.ops.length ≤ s.length) : ¬ HasCycle g := by
  rintro ⟨a, ha⟩
  have hperm := perm_of_placed h hlen
  exact lt_irrefl _ (index_lt_of_transGen h.nodup h.ordered (fun x hx => hperm.mem_iff.2 hx) ha)

theorem cycle_of_stuck {g : GraphObj} {s f : List OpId} (hsrc : SourcesListed g)
    (hinv : PassInv g s f) (hnd : g.ops.Nodup) (hlen : s.length < g.ops.length)
    (hstuck : ∀ op ∈ g.ops, eligible g f op = false) : HasCycle g := by
  by_contra hno
  have hpred : ∀ op ∈ g.ops, op ∉ f → ∃ a, a ∈ g.ops ∧ a ∉ f ∧ producer g a op := by
    intro op hop hnf
    have he := hstuck op hop
    have hne : ¬ (op ∉ f ∧ ∀ t ∈ (g.opObj op).inputs, ∀ a,
        (g.tensorObj t).source = some a → a ∈ f) := by
      rw [← eligible_iff, he]
      simp
    push_neg at hne
    obtain ⟨t, ht, a, ha, haf⟩ := hne hnf
    exact ⟨a, hsrc op hop t ht a ha, haf, hsrc op hop t ht a ha, hop, t, ht, ha⟩
  have hex : ∃ op, op ∈ g.ops ∧ op ∉ f := by
    by_contra hall
    push_neg at hall
    have hsub : g.ops ⊆ s := fun x hx => (hinv.mem_iff x).1 (hall x hx)
    have := (List.subperm_of_subset hnd hsub).length_le
    omega
  let r : {x // x ∈ g.ops} → {x // x ∈ g.ops} → Prop :=
    fun x y => Relation.TransGen (producer g) x.1 y.1
  haveI : IsTrans {x // x ∈ g.ops} r := ⟨fun _ _ _ h1 h2 => Relation.TransGen.trans h1 h2⟩
  haveI : IsIrrefl {x // x ∈ g.ops} r := ⟨fun a h => hno ⟨a.1, h⟩⟩
  have wf : WellFounded r := Finite.wellFounded_of_trans_of_irrefl r
  obtain ⟨op, hop, hnf⟩ := hex
  obtain ⟨m, hm, hmin⟩ := wf.has_min {x : {x // x ∈ g.ops} | x.1 ∉ f} ⟨⟨op, hop⟩, hnf⟩
  obtain ⟨a, ha, haf, hprod⟩ := hpred m.1 m.2 hm
  exact hmin ⟨a, ha⟩ haf (Relation.TransGen.single hprod)

theorem passInv_nil (g : GraphObj) : PassInv g [] [] :=
  ⟨fun _ => Iff.rfl, List.nodup_nil, fun _ hx => absurd hx (List.not_mem_nil _),
    fun _ hx => absurd hx (List.not_mem_nil _)⟩

/-- The `while` loop of `topo_sort`, started as the code starts it, is left within
`ops.size() + 1` iterations, and a larger budget gives the same outcome. -/
theorem topoLoop_total (g : GraphObj) :
    ∃ r, LoopOut g r ∧ ∀ fuel, g.ops.length + 1 ≤ fuel → topoLoop g fuel [] [] = some r := by
  obtain ⟨r, hr, hout⟩ := topoLoop_spec g (g.ops.length + 1) [] [] (passInv_nil g) (by simp)
  exact ⟨r, hout, fun fuel hle => topoLoop_mono g _ _ _ r hr fuel hle⟩

/-- When the passes of `topo_sort` run (the sorted flag is clear) and it returns true, the new
operator list is a permutation of the old one and every operator appears strictly after the
source of each of its input tensors; the flag is set and the objects are untouched.
(Distinctness of the listed operators is not needed as a hypothesis: a list with a repeated
operator never makes `topo_sort` return true.) -/
theorem topo_sort_true_perm_ordered (g g' : GraphObj)
    (hflag : g.sorted = false) (h : topo_sort g = some (true, g')) :
    g'.ops.Perm g.ops ∧ TopoOrdered g' g'.ops ∧ g'.sorted = true ∧
      g'.opObj = g.opObj ∧ g'.tensorObj = g.tensorObj := by
  obtain ⟨r, hout, hr⟩ := topoLoop_total g
  have hrun := hr (g.ops.length + 1) le_rfl
  unfold topo_sort topo_sort_fuel at h
  rw [hrun] at h
  simp only [hflag, Bool.false_eq_true, if_false] at h
  cases r with
  | none => simp at h
  | some s =>
    simp only [Option.some.injEq, Prod.mk.injEq, true_and] at h
    subst h
    obtain ⟨⟨f, hinv⟩, hlen⟩ := hout
    exact ⟨perm_of_placed hinv hlen, hinv.ordered, rfl, rfl, rfl⟩

theorem topo_sort_true_perm_ordered_witness :
    unsortedGraph.ops.Nodup ∧ unsortedGraph.sorted = false ∧
      topo_sort unsortedGraph = some (true, { unsortedGraph with ops := [0, 1], sorted := true }) ∧
      ([0, 1] : List OpId).Perm unsortedGraph.ops ∧
      TopoOrdered unsortedGraph [0, 1] :=
  have h := topo_sort_true_perm_ordered unsortedGraph
    { unsortedGraph with ops := [0, 1], sorted := true } rfl rfl
  ⟨by decide, rfl, rfl, h.1, h.2.1⟩

/-- C2: for a graph with distinct operators in which the source of every input tensor is
listed, `topo_sort` called with the sorted flag clear terminates (within `ops.size() + 1`
iterations of its loop), returns false exactly when the producer relation among the
operators has a cycle, and on false leaves the graph, operator list and flag included,
exactly as it was. -/
theorem topo_sort_false_iff_cycle (g : GraphObj) (hnd : g.ops.Nodup) (hsrc : SourcesListed g)
    (hflag : g.sorted = false) :
    ∃ b g', topo_sort g = some (b, g') ∧
      (∀ fuel, g.ops.length + 1 ≤ fuel → topo_sort_fuel fuel g = some (b, g')) ∧
      (b = false ↔ HasCycle g) ∧ (b = false → g' = g) := by
  obtain ⟨r, hout, hr⟩ := topoLoop_total g
  cases r with
  | none =>
    obtain ⟨s, f, hinv, hlen, hstuck⟩ := hout
    have hfuel : ∀ fuel, g.ops.length + 1 ≤ fuel → topo_sort_fuel fuel g = some (false, g) := by
      intro fuel hle
      simp [topo_sort_fuel, hflag, hr fuel hle]
    exact ⟨false, g, hfuel _ le_rfl, hfuel,
      ⟨fun _ => cycle_of_stuck hsrc hinv hnd hlen hstuck, fun _ => rfl⟩, fun _ => rfl⟩
  | some s =>
    obtain ⟨⟨f, hinv⟩, hlen⟩ := hout
    have hfuel : ∀ fuel, g.ops.length + 1 ≤ fuel →
        topo_sort_fuel fuel g = some (true, { g with ops := s, sorted := true }) := by
      intro fuel hle
      simp [topo_sort_fuel, hflag, hr fuel hle]
    refine ⟨true, _, hfuel _ le_rfl, hfuel, ⟨fun h => absurd h (by simp), fun h => ?_⟩,
      fun h => absurd h (by simp)⟩
    exact absurd h (no_cycle_of_placed hinv hlen)

theorem loopGraph_sourcesListed : SourcesListed loopGraph := by
  intro op hop t ht a ha
  have hops : loopGraph.ops = [0, 1] := rfl
  rw [hops] at hop ⊢
  simp only [List.mem_cons, List.mem_singleton, List.not_mem_nil, or_false] at hop
  rcases hop with rfl | rfl
  · have : t = 1 := by simpa [loopGraph] using ht
    subst this
    have : a = 1 := by simpa [loopGraph] using ha.symm
    subst this
    decide
  · have : t = 0 := by simpa [loopGraph] using ht
    subst this
    have : a = 0 := by simpa [loopGraph] using ha.symm
    subst this
    decide

theorem topo_sort_false_iff_cycle_witness :
    loopGraph.ops.Nodup ∧ SourcesListed loopGraph ∧ loopGraph.sorted = false ∧
      topo_sort loopGraph = some (false, loopGraph) ∧
      ∃ b g', topo_sort loopGraph = some (b, g') ∧
        (∀ fuel, loopGraph.ops.length + 1 ≤ fuel → topo_sort_fuel fuel loopGraph = some (b, g')) ∧
        (b = false ↔ HasCycle loopGraph) ∧ (b = false → g' = loopGraph) :=
  ⟨by decide, loopGraph_sourcesListed, rfl, rfl,
    topo_sort_false_iff_cycle loopGraph (by decide) loopGraph_sourcesListed rfl⟩

end GraphObj

/-! ## MatMul shape inference -/

theorem swapLastTwo_length (d : Shape) : (swapLastTwo d).length = d.length := by
  simp [swapLastTwo]

theorem swapLastTwo_getD_last (d : Shape) (h : 2 ≤ d.length) :
    (swapLastTwo d).getD (d.length - 1) 0 = d.getD (d.length - 2) 0 := by
  have h1 : d.length - 2 ≠ d.length - 1 := by omega
  have h2 : d.length - 1 < d.length := by omega
  simp only [swapLastTwo, List.getD_eq_getElem?_getD, List.getElem?_set, h1, if_false, if_true,
    h2, Option.getD_some]

theorem swapLastTwo_getD_prev (d : Shape) (h : 2 ≤ d.length) :
    (swapLastTwo d).getD (d.length - 2) 0 = d.getD (d.length - 1) 0 := by
  have h2 : d.length - 2 < d.length := by omega
  simp only [swapLastTwo, List.getD_eq_getElem?_getD, List.getElem?_set, List.length_set,
    if_true, h2, Option.getD_some]

theorem swapLastTwo_dimFromEnd (d : Shape) (i : Nat) (hi : 2 ≤ i) :
    dimFromEnd (swapLastTwo d) i = dimFromEnd d i := by
  unfold dimFromEnd
  rw [swapLastTwo_length]
  by_cases h : i < d.length
  · have h1 : d.length - 2 ≠ d.length - 1 - i := by omega
    have h2 : d.length - 1 ≠ d.length - 1 - i := by omega
    simp only [h, if_true, swapLastTwo, List.getD_eq_getElem?_getD, List.getElem?_set, h1, h2,
      if_false]
  · simp [h]

/-- The value written to `result[max_rank - 1 - i]` by iteration `i`. -/
theorem inferShapeStep_eq (a b : Shape) (R : Nat) (res : Shape) (i : Nat) :
    inferShapeStep a b R res i = res.set (R - 1 - i)
      (if i = 0 then b.getD (b.length - 1) 0 else if i = 1 then a.getD (a.length - 2) 0
        else max (dimFromEnd a i) (dimFromEnd b i)) := by
  unfold inferShapeStep
  split_ifs <;> rfl

theorem inferShape_loop (a b : Shape) (R : Nat) :
    ∀ n, n ≤ R →
      ((List.range n).foldl (inferShapeStep a b R) (List.replicate R 1)).length = R ∧
      ∀ j, j < R → ((List.range n).foldl (inferShapeStep a b R) (List.replicate R 1))[R - 1 - j]? =
        some (if j < n then
          (if j = 0 then b.getD (b.length - 1) 0 else if j = 1 then a.getD (a.length - 2) 0
            else max (dimFromEnd a j) (dimFromEnd b j)) else 1) := by
  intro n
  induction n with
  | zero =>
    intro _
    refine ⟨by simp, fun j hj => ?_⟩
    have : R - 1 - j < R := by omega
    simp [List.getElem?_replicate, this]
  | succ n ih =>
    intro hn
    obtain ⟨hlen, hget⟩ := ih (by omega)
    rw [List.range_succ, List.foldl_append, List.foldl_cons, List.foldl_nil, inferShapeStep_eq]
    refine ⟨by rw [List.length_set, hlen], fun j hj => ?_⟩
    rw [List.getElem?_set, hlen]
    by_cases hjn : j = n
    · subst hjn
      have h1 : R - 1 - j < R := by omega
      simp [h1]
    · have h1 : R - 1 - n ≠ R - 1 - j := by omega
      rw [if_neg h1, hget j hj]
      by_cases hlt : j < n
      · have : j < n + 1 := by omega
        simp [hlt, this]
      · have : ¬ j < n + 1 := by omega
        simp [hlt, this]

/-- C3: for operand shapes `A`, `B` of rank at least 2 and any flags, MatMul `inferShape`
does not signal failure and returns exactly one shape; its rank is the larger operand rank,
its last two extents are `m` then `n`, every batch extent (`i` places from the end,
`i ≥ 2`) is the maximum of the operands' extents at that place with a missing axis counted
as 1, and the recorded `k`, `m`, `n` are the last and second-to-last extent of effective `A`
and the last extent of effective `B` (last two extents swapped when the flag is set). -/
theorem matmul_inferShape_spec (A B : Shape) (tA tB : Bool) (hA : 2 ≤ A.length)
    (hB : 2 ≤ B.length) :
    ∃ out, (matmulInferShape tA tB A B).shapes = some [out] ∧
      out.length = max A.length B.length ∧
      out.getD (out.length - 2) 0 = (matmulInferShape tA tB A B).m ∧
      out.getD (out.length - 1) 0 = (matmulInferShape tA tB A B).n ∧
      (∀ i, 2 ≤ i → i < out.length →
        out.getD (out.length - 1 - i) 0 =
          max (if i < A.length then A.getD (A.length - 1 - i) 0 else 1)
            (if i < B.length then B.getD (B.length - 1 - i) 0 else 1)) ∧
      (matmulInferShape tA tB A B).k =
        (if tA then A.getD (A.length - 2) 0 else A.getD (A.length - 1) 0) ∧
      (matmulInferShape tA tB A B).m =
        (if tA then A.getD (A.length - 1) 0 else A.getD (A.length - 2) 0) ∧
      (matmulInferShape tA tB A B).n =
        (if tB then B.getD (B.length - 2) 0 else B.getD (B.length - 1) 0) := by
  have hR : 2 ≤ max A.length B.length := le_trans hA (le_max_left _ _)
  have hla : (if tA then swapLastTwo A else A).length = A.length := by
    cases tA <;> simp [swapLastTwo_length]
  have hlb : (if tB then swapLastTwo B else B).length = B.length := by
    cases tB <;> simp [swapLastTwo_length]
  have hda : ∀ i, 2 ≤ i → dimFromEnd (if tA then swapLastTwo A else A) i = dimFromEnd A i := by
    intro i hi
    cases tA
    · simp
    · simpa using swapLastTwo_dimFromEnd A i hi
  have hdb : ∀ i, 2 ≤ i → dimFromEnd (if tB then swapLastTwo B else B) i = dimFromEnd B i := by
    intro i hi
    cases tB
    · simp
    · simpa using swapLastTwo_dimFromEnd B i hi
  obtain ⟨hlen, hget⟩ := inferShape_loop (if tA then swapLastTwo A else A)
    (if tB then swapLastTwo B else B) (max A.length B.length) (max A.length B.length) le_rfl
  refine ⟨_, rfl, hlen, ?_, ?_, ?_, ?_, ?_, ?_⟩
  · have h := hget 1 (by omega)
    rw [hlen, List.getD_eq_getElem?_getD]
    have e : max A.length B.length - 2 = max A.length B.length - 1 - 1 := by omega
    rw [e, h]
    have : 1 < max A.length B.length := by omega
    simp [matmulInferShape, this]
  · have h := hget 0 (by omega)
    rw [hlen, List.getD_eq_getElem?_getD]
    have e : max A.length B.length - 1 = max A.length B.length - 1 - 0 := by omega
    rw [e, h]
    have : 0 < max A.length B.length := by omega
    simp [matmulInferShape, this]
  · intro i hi hlt
    rw [hlen] at hlt
    have h := hget i hlt
    rw [hlen, List.getD_eq_getElem?_getD, h]
    have h0 : i ≠ 0 := by omega
    have h1 : i ≠ 1 := by omega
    simp only [hlt, if_true, h0, h1, if_false, Option.getD_some]
    rw [hda i hi, hdb i hi]
    rfl
  · cases tA
    · simp [matmulInferShape]
    · simpa [matmulInferShape, swapLastTwo_length, List.getD_eq_getElem?_getD] using
        swapLastTwo_getD_last A hA
  · cases tA
    · simp [matmulInferShape]
    · simpa [matmulInferShape, swapLastTwo_length, List.getD_eq_getElem?_getD] using
        swapLastTwo_getD_prev A hA
  · cases tB
    · simp [matmulInferShape]
    · simpa [matmulInferShape, swapLastTwo_length, List.getD_eq_getElem?_getD] using
        swapLastTwo_getD_last B hB

theorem matmul_inferShape_spec_witness :
    (2 ≤ ([2, 3, 4] : Shape).length ∧ 2 ≤ ([2, 4, 5] : Shape).length ∧
      ∃ out, (matmulInferShape false false [2, 3, 4] [2, 4, 5]).shapes = some [out] ∧
        out.length = 3) ∧
    matmulInferShape false false [2, 3, 4] [2, 4, 5] =
      { shapes := some [[2, 3, 5]], m := 3, n := 5, k := 4 } ∧
    (matmulInferShape true false [4, 3] [4, 5]).shapes = some [[3, 5]] ∧
    (matmulInferShape false false [2, 3, 4] [4, 5]).shapes = some [[2, 3, 5]] := by
  refine ⟨⟨by decide, by decide, ?_⟩, by decide, by decide, by decide⟩
  obtain ⟨out, h1, h2, _⟩ :=
    matmul_inferShape_spec [2, 3, 4] [2, 4, 5] false false (by decide) (by decide)
  exact ⟨out, h1, h2⟩

theorem shape_split_last_two (d : Shape) (h : 2 ≤ d.length) :
    ∃ pre x y, d = pre ++ [x, y] := by
  have h1 : (d.drop (d.length - 2)).length = 2 := by
    rw [List.length_drop]; omega
  match hd : d.drop (d.length - 2), h1 with
  | [x, y], _ =>
    refine ⟨d.take (d.length - 2), x, y, ?_⟩
    rw [← hd, List.take_append_drop]

theorem swapLastTwo_append (pre : Shape) (x y : Nat) :
    swapLastTwo (pre ++ [x, y]) = pre ++ [y, x] := by
  have h1 : (pre ++ [x, y]).length - 1 = pre.length + 1 := by simp
  have h2 : (pre ++ [x, y]).length - 2 = pre.length := by simp
  have e1 : (pre ++ [x, y]).getD (pre.length + 1) 0 = y := by
    rw [List.getD_eq_getElem?_getD, List.getElem?_append_right (by omega)]
    simp
  have e2 : (pre ++ [x, y]).getD pre.length 0 = x := by
    rw [List.getD_eq_getElem?_getD, List.getElem?_append_right (by omega)]
    simp
  unfold swapLastTwo
  rw [h1, h2, e1, e2]
  simp [List.set_append]

theorem lastTwoExtentsSwapped_append (pre : Shape) (x y : Nat) :
    lastTwoExtentsSwapped (pre ++ [x, y]) = pre ++ [y, x] := by
  have h1 : (pre ++ [x, y]).length - 1 = pre.length + 1 := by simp
  have h2 : (pre ++ [x, y]).length - 2 = pre.length := by simp
  have e1 : (pre ++ [x, y]).getD (pre.length + 1) 0 = y := by
    rw [List.getD_eq_getElem?_getD, List.getElem?_append_right (by omega)]
    simp
  have e2 : (pre ++ [x, y]).getD pre.length 0 = x := by
    rw [List.getD_eq_getElem?_getD, List.getElem?_append_right (by omega)]
    simp
  unfold lastTwoExtentsSwapped
  rw [h1, h2, e1, e2]
  simp

theorem swapLastTwo_eq_spec (d : Shape) (h : 2 ≤ d.length) :
    swapLastTwo d = lastTwoExtentsSwapped d := by
  obtain ⟨pre, x, y, rfl⟩ := shape_split_last_two d h
  rw [swapLastTwo_append, lastTwoExtentsSwapped_append]

theorem swapLastTwo_twice (d : Shape) (h : 2 ≤ d.length) : swapLastTwo (swapLastTwo d) = d := by
  obtain ⟨pre, x, y, rfl⟩ := shape_split_last_two d h
  rw [swapLastTwo_append, swapLastTwo_append]

/-- C18: a MatMul flag is equivalent to a materialised transpose of the last two axes.  For
shapes `A`, `B` of rank at least 2 and any flags, `inferShape` on (`A` with its last two
extents swapped, `B`) with flags `(tA, tB)` returns the same output and records the same
`m`, `n`, `k` as `inferShape` on `(A, B)` with flags `(not tA, tB)`; symmetrically for `B`
and `tB`. -/
theorem matmul_flag_equals_transposed_operand (A B : Shape) (tA tB : Bool) (hA : 2 ≤ A.length)
    (hB : 2 ≤ B.length) :
    matmulInferShape tA tB (lastTwoExtentsSwapped A) B = matmulInferShape (!tA) tB A B ∧
    matmulInferShape tA tB A (lastTwoExtentsSwapped B) = matmulInferShape tA (!tB) A B := by
  rw [← swapLastTwo_eq_spec A hA, ← swapLastTwo_eq_spec B hB]
  constructor
  · cases tA
    · simp [matmulInferShape, swapLastTwo_length]
    · simp [matmulInferShape, swapLastTwo_length, swapLastTwo_twice A hA]
  · cases tB
    · simp [matmulInferShape, swapLastTwo_length]
    · simp [matmulInferShape, swapLastTwo_length, swapLastTwo_twice B hB]

theorem matmul_flag_equals_transposed_operand_witness :
    2 ≤ ([2, 4, 3] : Shape).length ∧ 2 ≤ ([2, 4, 5] : Shape).length ∧
      lastTwoExtentsSwapped [2, 4, 3] = [2, 3, 4] ∧
      matmulInferShape false false [2, 3, 4] [2, 4, 5] =
        matmulInferShape true false [2, 4, 3] [2, 4, 5] ∧
      matmulInferShape true false [2, 4, 3] [2, 4, 5] =
        { shapes := some [[2, 3, 5]], m := 3, n := 5, k := 4 } :=
  have h := matmul_flag_equals_transposed_operand [2, 4, 3] [2, 4, 5] false false (by decide)
    (by decide)
  ⟨by decide, by decide, by decide, h.1, by decide⟩

namespace GraphObj

/-! ## The validator -/

theorem IT_ASSERT_eq_some (b : Bool) : IT_ASSERT b = some () ↔ b = true := by
  cases b <;> simp [IT_ASSERT]

theorem option_unit_cases (x : Option Unit) : x = none ∨ x = some () := by
  cases x with
  | none => exact Or.inl rfl
  | some u => exact Or.inr rfl

theorem bind_unit_eq_some (x : Option Unit) (y : Option Unit) :
    (x.bind fun _ => y) = some () ↔ x = some () ∧ y = some () := by
  rcases option_unit_cases x with h | h <;> simp [h]

theorem forEach_eq_some {α : Type} (l : List α) (body : α → Option Unit) :
    forEach l body = some () ↔ ∀ x ∈ l, body x = some () := by
  induction l with
  | nil => simp [forEach]
  | cons x rest ih => simp [forEach, bind_unit_eq_some, ih]

theorem checkTensor_eq_some (g : GraphObj) (t : TensorId) :
    checkTensor g t = some () ↔
      ((g.tensorObj t).source ≠ none ∨ (g.tensorObj t).targets ≠ []) ∧
      (∀ o ∈ (g.tensorObj t).targets, o ∈ g.ops) ∧
      (∀ o, (g.tensorObj t).source = some o → o ∈ g.ops) := by
  unfold checkTensor
  rw [bind_unit_eq_some, bind_unit_eq_some, IT_ASSERT_eq_some, IT_ASSERT_eq_some,
    forEach_eq_some]
  simp only [IT_ASSERT_eq_some, decide_eq_true_eq]
  cases hs : (g.tensorObj t).source with
  | none => simp [List.length_eq_zero]
  | some o => simp

theorem checkOp_eq_some (g : GraphObj) (o : OpId) :
    checkOp g o = some () ↔
      ((∀ t ∈ (g.opObj o).inputs, t ∈ g.tensors) ∧ (∀ t ∈ (g.opObj o).outputs, t ∈ g.tensors)) ∧
      ((∀ p ∈ (g.opObj o).predecessors, p ∈ g.ops) ∧
        (∀ p ∈ (g.opObj o).successors, p ∈ g.ops)) := by
  unfold checkOp
  simp only [bind_unit_eq_some, forEach_eq_some, IT_ASSERT_eq_some, decide_eq_true_eq]
  tauto

theorem checkFuids_eq_some (g : GraphObj) :
    ∀ (l : List TensorId) (s : List Nat), checkFuids g l s = some () ↔
      (l.map (fun t => (g.tensorObj t).fuid)).Nodup ∧ ∀ t ∈ l, (g.tensorObj t).fuid ∉ s := by
  intro l
  induction l with
  | nil => intro s; simp [checkFuids]
  | cons t rest ih =>
    intro s
    simp only [checkFuids, bind_unit_eq_some, IT_ASSERT_eq_some, decide_eq_true_eq,
      List.count_eq_zero, ih, List.map_cons, List.nodup_cons, List.mem_map, List.mem_cons,
      forall_eq_or_imp, not_or, not_exists, not_and]
    constructor
    · rintro ⟨h1, h2, h3⟩
      exact ⟨⟨fun x hx he => (h3 x hx).1 he, h2⟩, h1, fun x hx => (h3 x hx).2⟩
    · rintro ⟨⟨h1, h2⟩, h3, h4⟩
      exact ⟨h3, h2, fun x hx => ⟨fun he => h1 x hx he, h4 x hx⟩⟩

theorem checkValid_eq_some_true (g : GraphObj) : checkValid g = some true ↔ Valid g := by
  have key : checkValid g = some true ↔
      forEach g.tensors (checkTensor g) = some () ∧ forEach g.ops (checkOp g) = some () ∧
        checkFuids g g.tensors [] = some () := by
    unfold checkValid
    rcases option_unit_cases (forEach g.tensors (checkTensor g)) with h1 | h1 <;>
      rcases option_unit_cases (forEach g.ops (checkOp g)) with h2 | h2 <;>
      rcases option_unit_cases (checkFuids g g.tensors []) with h3 | h3 <;>
      simp [h1, h2, h3]
  rw [key, forEach_eq_some, forEach_eq_some, checkFuids_eq_some]
  simp only [checkTensor_eq_some, checkOp_eq_some, List.not_mem_nil, not_false_eq_true,
    implies_true, and_true]
  constructor
  · rintro ⟨h1, h2, h3⟩
    exact ⟨fun t ht => (h1 t ht).1, fun t ht => (h1 t ht).2, fun o ho => (h2 o ho).1,
      fun o ho => (h2 o ho).2, h3⟩
  · rintro ⟨h1, h2, h3, h4, h5⟩
    exact ⟨fun t ht => ⟨h1 t ht, h2 t ht⟩, fun o ho => ⟨h3 o ho, h4 o ho⟩, h5⟩

theorem checkValid_ne_some_false (g : GraphObj) : checkValid g ≠ some false := by
  unfold checkValid
  rcases option_unit_cases (forEach g.tensors (checkTensor g)) with h1 | h1 <;>
    rcases option_unit_cases (forEach g.ops (checkOp g)) with h2 | h2 <;>
    rcases option_unit_cases (checkFuids g g.tensors []) with h3 | h3 <;>
    simp [h1, h2, h3]

/-- C9: `checkValid` never returns false; it returns true exactly when the five conditions
hold (every listed tensor has a source or a target; targets and sources of listed tensors
are listed operators; inputs and outputs of listed operators are listed tensors;
predecessors and successors of listed operators are listed; the fuids of the listed tensors
are pairwise distinct) and aborts otherwise; a tensor list in which two positions carry
the same fuid makes it abort, as it does on `sharedFuidGraph`. -/
theorem checkValid_spec (g : GraphObj) :
    checkValid g ≠ some false ∧ (checkValid g = some true ↔ Valid g) ∧
      (¬ Valid g → checkValid g = none) ∧
      ((∃ i j, i < j ∧ j < g.tensors.length ∧
          (g.tensors.map (fun t => (g.tensorObj t).fuid))[i]? =
            (g.tensors.map (fun t => (g.tensorObj t).fuid))[j]?) → checkValid g = none) ∧
      checkValid sharedFuidGraph = none := by
  have hnf := checkValid_ne_some_false g
  have hiff := checkValid_eq_some_true g
  have habort : ¬ Valid g → checkValid g = none := by
    intro hv
    cases h : checkValid g with
    | none => rfl
    | some b =>
      cases b with
      | false => exact absurd h hnf
      | true => exact absurd (hiff.1 h) hv
  refine ⟨hnf, hiff, habort, ?_, by decide⟩
  rintro ⟨i, j, hij, hj, he⟩
  apply habort
  intro hv
  have hnd := hv.fuids
  have hjl : j < (g.tensors.map (fun t => (g.tensorObj t).fuid)).length := by simpa using hj
  have hil : i < (g.tensors.map (fun t => (g.tensorObj t).fuid)).length := by omega
  rw [List.getElem?_eq_getElem hil, List.getElem?_eq_getElem hjl] at he
  have := (List.Nodup.getElem_inj_iff hnd).1 (Option.some.inj he)
  omega

/-! ## Wiring -/

theorem mem_setAdd (x y : Nat) (l : List Nat) : y ∈ setAdd x l ↔ y ∈ l ∨ y = x := by
  unfold setAdd
  split_ifs with h
  · constructor
    · exact Or.inl
    · rintro (h1 | rfl)
      · exact h1
      · exact h
  · simp

theorem mem_setRemove (x y : Nat) (l : List Nat) : y ∈ setRemove x l ↔ y ∈ l ∧ y ≠ x := by
  simp [setRemove]

@[simp] theorem modifyTensor_tensorObj (g : GraphObj) (t : TensorId) (f : TensorObj → TensorObj)
    (u : TensorId) :
    (g.modifyTensor t f).tensorObj u = if u = t then f (g.tensorObj t) else g.tensorObj u := rfl

@[simp] theorem modifyTensor_opObj (g : GraphObj) (t : TensorId) (f : TensorObj → TensorObj) :
    (g.modifyTensor t f).opObj = g.opObj := rfl

@[simp] theorem modifyTensor_ops (g : GraphObj) (t : TensorId) (f : TensorObj → TensorObj) :
    (g.modifyTensor t f).ops = g.ops := rfl

@[simp] theorem modifyTensor_tensors (g : GraphObj) (t : TensorId) (f : TensorObj → TensorObj) :
    (g.modifyTensor t f).tensors = g.tensors := rfl

@[simp] theorem modifyTensor_sorted (g : GraphObj) (t : TensorId) (f : TensorObj → TensorObj) :
    (g.modifyTensor t f).sorted = g.sorted := rfl

@[simp] theorem modifyTensor_runtime (g : GraphObj) (t : TensorId) (f : TensorObj → TensorObj) :
    (g.modifyTensor t f).runtime = g.runtime := rfl

@[simp] theorem modifyOp_opObj (g : GraphObj) (o : OpId) (f : OperatorObj → OperatorObj)
    (u : OpId) :
    (g.modifyOp o f).opObj u = if u = o then f (g.opObj o) else g.opObj u := rfl

@[simp] theorem modifyOp_tensorObj (g : GraphObj) (o : OpId) (f : OperatorObj → OperatorObj) :
    (g.modifyOp o f).tensorObj = g.tensorObj := rfl

@[simp] theorem modifyOp_ops (g : GraphObj) (o : OpId) (f : OperatorObj → OperatorObj) :
    (g.modifyOp o f).ops = g.ops := rfl

@[simp] theorem modifyOp_tensors (g : GraphObj) (o : OpId) (f : OperatorObj → OperatorObj) :
    (g.modifyOp o f).tensors = g.tensors := rfl

@[simp] theorem modifyOp_sorted (g : GraphObj) (o : OpId) (f : OperatorObj → OperatorObj) :
    (g.modifyOp o f).sorted = g.sorted := rfl

@[simp] theorem modifyOp_runtime (g : GraphObj) (o : OpId) (f : OperatorObj → OperatorObj) :
    (g.modifyOp o f).runtime = g.runtime := rfl

theorem Frame.refl (g : GraphObj) : Frame g g :=
  ⟨rfl, fun _ => rfl, fun _ => rfl, fun _ => rfl⟩

theorem Frame.trans {g1 g2 g3 : GraphObj} (h12 : Frame g1 g2) (h23 : Frame g2 g3) :
    Frame g1 g3 :=
  ⟨h23.tensors.trans h12.tensors, fun o => (h23.inputs o).trans (h12.inputs o),
    fun o => (h23.outputs o).trans (h12.outputs o), fun t => (h23.fuid t).trans (h12.fuid t)⟩

/-- Effect of one iteration of the input loop of `addOperatorAndConnect`. -/
theorem connectInput_spec (op : OpId) (g : GraphObj) (t : TensorId) :
    Frame g (connectInput op g t) ∧ (connectInput op g t).ops = g.ops ∧
    (connectInput op g t).sorted = g.sorted ∧
    (∀ u, ((connectInput op g t).tensorObj u).source = (g.tensorObj u).source) ∧
    (∀ u x, x ∈ ((connectInput op g t).tensorObj u).targets ↔
      x ∈ (g.tensorObj u).targets ∨ (x = op ∧ u = t)) ∧
    (∀ x p, p ∈ ((connectInput op g t).opObj x).predecessors ↔
      p ∈ (g.opObj x).predecessors ∨ (x = op ∧ (g.tensorObj t).source = some p)) ∧
    (∀ x q, q ∈ ((connectInput op g t).opObj x).successors ↔
      q ∈ (g.opObj x).successors ∨ (q = op ∧ (g.tensorObj t).source = some x)) := by
  unfold connectInput
  cases hs : (g.tensorObj t).source with
  | none =>
    have e : ((g.addTarget t op).tensorObj t).source = none := by simp [addTarget, hs]
    simp only [e]
    refine ⟨⟨rfl, fun _ => rfl, fun _ => rfl, ?_⟩, rfl, rfl, ?_, ?_, ?_, ?_⟩
    · intro u; simp only [addTarget, modifyTensor_tensorObj]; split_ifs with h <;> simp [h]
    · intro u; simp only [addTarget, modifyTensor_tensorObj]; split_ifs with h <;> simp [h]
    · intro u x
      simp only [addTarget, modifyTensor_tensorObj]
      split_ifs with h
      · subst h; simp [mem_setAdd]
      · simp [h]
    · intro x p; simp [addTarget]
    · intro x q; simp [addTarget]
  | some pred =>
    have e : ((g.addTarget t op).tensorObj t).source = some pred := by simp [addTarget, hs]
    simp only [e]
    refine ⟨⟨rfl, ?_, ?_, ?_⟩, rfl, rfl, ?_, ?_, ?_, ?_⟩
    · intro o
      simp only [addPredecessors, addSuccessors, addTarget, modifyOp_opObj, modifyTensor_opObj]
      split_ifs <;> simp_all
    · intro o
      simp only [addPredecessors, addSuccessors, addTarget, modifyOp_opObj, modifyTensor_opObj]
      split_ifs <;> simp_all
    · intro u
      simp only [addPredecessors, addSuccessors, addTarget, modifyOp_tensorObj,
        modifyTensor_tensorObj]
      split_ifs with h <;> simp [h]
    · intro u
      simp only [addPredecessors, addSuccessors, addTarget, modifyOp_tensorObj,
        modifyTensor_tensorObj]
      split_ifs with h <;> simp [h]
    · intro u x
      simp only [addPredecessors, addSuccessors, addTarget, modifyOp_tensorObj,
        modifyTensor_tensorObj]
      split_ifs with h
      · subst h; simp [mem_setAdd]
      · simp [h]
    · intro x p
      simp only [addPredecessors, addSuccessors, addTarget, modifyOp_opObj, modifyTensor_opObj]
      split_ifs with h1 h2 h2
      · subst h1; subst h2
        simp [mem_setAdd, eq_comm]
      · subst h1
        simp [mem_setAdd, eq_comm]
      · subst h2
        simp [h1]
      · simp [h1]
    · intro x q
      simp only [addPredecessors, addSuccessors, addTarget, modifyOp_opObj, modifyTensor_opObj]
      split_ifs with h1 h2 h2
      · subst h1; subst h2
        simp [mem_setAdd, eq_comm]
      · subst h1
        simp [mem_setAdd, h2]
        intro h3 h4
        exact absurd h4.symm h2
      · subst h2
        simp [mem_setAdd]
      · simp [h2]
        intro _ h3
        exact absurd h3.symm h2

/-- Effect of the whole input loop of `addOperatorAndConnect` over the inputs `l`. -/
theorem connectInputs_spec (op : OpId) :
    ∀ (l : List TensorId) (g : GraphObj),
      Frame g (l.foldl (connectInput op) g) ∧ (l.foldl (connectInput op) g).ops = g.ops ∧
      (l.foldl (connectInput op) g).sorted = g.sorted ∧
      (∀ u, ((l.foldl (connectInput op) g).tensorObj u).source = (g.tensorObj u).source) ∧
      (∀ u x, x ∈ ((l.foldl (connectInput op) g).tensorObj u).targets ↔
        x ∈ (g.tensorObj u).targets ∨ (x = op ∧ u ∈ l)) ∧
      (∀ x p, p ∈ ((l.foldl (connectInput op) g).opObj x).predecessors ↔
        p ∈ (g.opObj x).predecessors ∨ (x = op ∧ ∃ t ∈ l, (g.tensorObj t).source = some p)) ∧
      (∀ x q, q ∈ ((l.foldl (connectInput op) g).opObj x).successors ↔
        q ∈ (g.opObj x).successors ∨ (q = op ∧ ∃ t ∈ l, (g.tensorObj t).source = some x)) := by
  intro l
  induction l with
  | nil =>
    intro g
    simp [Frame.refl]
  | cons t rest ih =>
    intro g
    obtain ⟨f1, o1, s1, src1, tg1, pr1, sc1⟩ := connectInput_spec op g t
    obtain ⟨f2, o2, s2, src2, tg2, pr2, sc2⟩ := ih (connectInput op g t)
    rw [List.foldl_cons]
    refine ⟨f1.trans f2, o2.trans o1, s2.trans s1, fun u => (src2 u).trans (src1 u), ?_, ?_, ?_⟩
    · intro u x
      rw [tg2, tg1, List.mem_cons]
      tauto
    · intro x p
      rw [pr2, pr1]
      simp only [src1, List.mem_cons, exists_eq_or_imp]
      tauto
    · intro x q
      rw [sc2, sc1]
      simp only [src1, List.mem_cons, exists_eq_or_imp]
      tauto

/-- Effect of one iteration of the inner loop of the output part. -/
theorem linkTarget_spec (op y : OpId) (g : GraphObj) :
    Frame g ((g.addPredecessors y op).addSuccessors op y) ∧
    (∀ x p, p ∈ (((g.addPredecessors y op).addSuccessors op y).opObj x).predecessors ↔
      p ∈ (g.opObj x).predecessors ∨ (p = op ∧ x = y)) ∧
    (∀ x q, q ∈ (((g.addPredecessors y op).addSuccessors op y).opObj x).successors ↔
      q ∈ (g.opObj x).successors ∨ (x = op ∧ q = y)) := by
  refine ⟨⟨rfl, ?_, ?_, fun _ => rfl⟩, ?_, ?_⟩
  · intro o
    simp only [addPredecessors, addSuccessors, modifyOp_opObj]
    split_ifs <;> simp_all
  · intro o
    simp only [addPredecessors, addSuccessors, modifyOp_opObj]
    split_ifs <;> simp_all
  · intro x p
    simp only [addPredecessors, addSuccessors, modifyOp_opObj]
    split_ifs with h1 h2 h2
    · subst h1; subst h2
      simp [mem_setAdd]
    · subst h1
      simp [h2]
    · subst h2
      simp [mem_setAdd]
    · simp [h2]
  · intro x q
    simp only [addPredecessors, addSuccessors, modifyOp_opObj]
    split_ifs with h1 h2 h2
    · subst h1; subst h2
      simp [mem_setAdd]
    · subst h1
      simp [mem_setAdd]
    · subst h2
      simp [h1]
    · simp [h1]

/-- Effect of the inner loop of the output part: every target `succ` of the output gets the
new operator as predecessor and the new operator gets `succ` as successor. -/
theorem linkTargets_spec (op : OpId) :
    ∀ (l : List OpId) (g : GraphObj),
      Frame g (l.foldl (fun acc succ => (acc.addPredecessors succ op).addSuccessors op succ) g) ∧
      (l.foldl (fun acc succ => (acc.addPredecessors succ op).addSuccessors op succ) g).ops
        = g.ops ∧
      (l.foldl (fun acc succ => (acc.addPredecessors succ op).addSuccessors op succ) g).sorted
        = g.sorted ∧
      (l.foldl (fun acc succ => (acc.addPredecessors succ op).addSuccessors op succ) g).tensorObj
        = g.tensorObj ∧
      (∀ x p, p ∈ ((l.foldl (fun acc succ => (acc.addPredecessors succ op).addSuccessors op succ)
          g).opObj x).predecessors ↔ p ∈ (g.opObj x).predecessors ∨ (p = op ∧ x ∈ l)) ∧
      (∀ x q, q ∈ ((l.foldl (fun acc succ => (acc.addPredecessors succ op).addSuccessors op succ)
          g).opObj x).successors ↔ q ∈ (g.opObj x).successors ∨ (x = op ∧ q ∈ l)) := by
  intro l
  induction l with
  | nil =>
    intro g
    simp [Frame.refl]
  | cons y rest ih =>
    intro g
    obtain ⟨f1, pr1, sc1⟩ := linkTarget_spec op y g
    obtain ⟨f2, o2, s2, t2, pr2, sc2⟩ := ih ((g.addPredecessors y op).addSuccessors op y)
    rw [List.foldl_cons]
    refine ⟨f1.trans f2, o2, s2, t2, ?_, ?_⟩
    · intro x p
      rw [pr2, pr1, List.mem_cons]
      tauto
    · intro x q
      rw [sc2, sc1, List.mem_cons]
      tauto

/-- Effect of one iteration of the output loop of `addOperatorAndConnect`. -/
theorem connectOutput_spec (op : OpId) (g : GraphObj) (t : TensorId) :
    Frame g (connectOutput op g t) ∧ (connectOutput op g t).ops = g.ops ∧
    (connectOutput op g t).sorted = g.sorted ∧
    (∀ u, ((connectOutput op g t).tensorObj u).targets = (g.tensorObj u).targets) ∧
    (∀ u, ((connectOutput op g t).tensorObj u).source =
      if u = t then some op else (g.tensorObj u).source) ∧
    (∀ x p, p ∈ ((connectOutput op g t).opObj x).predecessors ↔
      p ∈ (g.opObj x).predecessors ∨ (p = op ∧ x ∈ (g.tensorObj t).targets)) ∧
    (∀ x q, q ∈ ((connectOutput op g t).opObj x).successors ↔
      q ∈ (g.opObj x).successors ∨ (x = op ∧ q ∈ (g.tensorObj t).targets)) := by
  unfold connectOutput
  obtain ⟨f2, o2, s2, t2, pr2, sc2⟩ :=
    linkTargets_spec op (((g.setSource t op).tensorObj t).targets) (g.setSource t op)
  have htg : ((g.setSource t op).tensorObj t).targets = (g.tensorObj t).targets := by
    simp [setSource]
  have hfr : Frame g (g.setSource t op) := by
    refine ⟨rfl, fun _ => rfl, fun _ => rfl, fun u => ?_⟩
    simp only [setSource, modifyTensor_tensorObj]
    split_ifs with h <;> simp [h]
  refine ⟨hfr.trans f2, o2, s2, ?_, ?_, ?_, ?_⟩
  · intro u
    rw [congrFun t2 u]
    simp only [setSource, modifyTensor_tensorObj]
    split_ifs with h <;> simp [h]
  · intro u
    rw [congrFun t2 u]
    simp only [setSource, modifyTensor_tensorObj]
    split_ifs with h <;> simp [h]
  · intro x p
    rw [pr2, htg]
    simp [setSource]
  · intro x q
    rw [sc2, htg]
    simp [setSource]

/-- Effect of the whole output loop of `addOperatorAndConnect` over the outputs `l`. -/
theorem connectOutputs_spec (op : OpId) :
    ∀ (l : List TensorId) (g : GraphObj),
      Frame g (l.foldl (connectOutput op) g) ∧ (l.foldl (connectOutput op) g).ops = g.ops ∧
      (l.foldl (connectOutput op) g).sorted = g.sorted ∧
      (∀ u, ((l.foldl (connectOutput op) g).tensorObj u).targets = (g.tensorObj u).targets) ∧
      (∀ u, ((l.foldl (connectOutput op) g).tensorObj u).source =
        if u ∈ l then some op else (g.tensorObj u).source) ∧
      (∀ x p, p ∈ ((l.foldl (connectOutput op) g).opObj x).predecessors ↔
        p ∈ (g.opObj x).predecessors ∨ (p = op ∧ ∃ t ∈ l, x ∈ (g.tensorObj t).targets)) ∧
      (∀ x q, q ∈ ((l.foldl (connectOutput op) g).opObj x).successors ↔
        q ∈ (g.opObj x).successors ∨ (x = op ∧ ∃ t ∈ l, q ∈ (g.tensorObj t).targets)) := by
  intro l
  induction l with
  | nil =>
    intro g
    simp [Frame.refl]
  | cons t rest ih =>
    intro g
    obtain ⟨f1, o1, s1, tg1, src1, pr1, sc1⟩ := connectOutput_spec op g t
    obtain ⟨f2, o2, s2, tg2, src2, pr2, sc2⟩ := ih (connectOutput op g t)
    rw [List.foldl_cons]
    refine ⟨f1.trans f2, o2.trans o1, s2.trans s1, fun u => (tg2 u).trans (tg1 u), ?_, ?_, ?_⟩
    · intro u
      rw [src2, src1]
      by_cases h1 : u ∈ rest
      · simp [h1]
      · by_cases h2 : u = t
        · simp [h2]
        · simp [h1, h2]
    · intro x p
      rw [pr2, pr1]
      simp only [tg1, List.mem_cons, exists_eq_or_imp]
      tauto
    · intro x q
      rw [sc2, sc1]
      simp only [tg1, List.mem_cons, exists_eq_or_imp]
      tauto

/-- Effect of `addOperatorAndConnect` on lists, flag, targets, sources, predecessors and
successors. -/
theorem addOperatorAndConnect_spec (g : GraphObj) (op : OpId) :
    Frame g (g.addOperatorAndConnect op) ∧ (g.addOperatorAndConnect op).ops = g.ops ++ [op] ∧
    (g.addOperatorAndConnect op).sorted = false ∧
    (∀ u x, x ∈ ((g.addOperatorAndConnect op).tensorObj u).targets ↔
      x ∈ (g.tensorObj u).targets ∨ (x = op ∧ u ∈ (g.opObj op).inputs)) ∧
    (∀ u, ((g.addOperatorAndConnect op).tensorObj u).source =
      if u ∈ (g.opObj op).outputs then some op else (g.tensorObj u).source) ∧
    (∀ x p, p ∈ ((g.addOperatorAndConnect op).opObj x).predecessors ↔
      p ∈ (g.opObj x).predecessors ∨
      (x = op ∧ ∃ t ∈ (g.opObj op).inputs, (g.tensorObj t).source = some p) ∨
      (p = op ∧ ∃ t ∈ (g.opObj op).outputs,
        x ∈ (g.tensorObj t).targets ∨ (x = op ∧ t ∈ (g.opObj op).inputs))) ∧
    (∀ x q, q ∈ ((g.addOperatorAndConnect op).opObj x).successors ↔
      q ∈ (g.opObj x).successors ∨
      (q = op ∧ ∃ t ∈ (g.opObj op).inputs, (g.tensorObj t).source = some x) ∨
      (x = op ∧ ∃ t ∈ (g.opObj op).outputs,
        q ∈ (g.tensorObj t).targets ∨ (q = op ∧ t ∈ (g.opObj op).inputs))) := by
  unfold addOperatorAndConnect
  obtain ⟨f1, o1, s1, src1, tg1, pr1, sc1⟩ := connectInputs_spec op (g.opObj op).inputs
    { g with sorted := false, ops := g.ops ++ [op] }
  obtain ⟨f2, o2, s2, tg2, src2, pr2, sc2⟩ := connectOutputs_spec op
    (((g.opObj op).inputs.foldl (connectInput op)
      { g with sorted := false, ops := g.ops ++ [op] }).opObj op).outputs
    ((g.opObj op).inputs.foldl (connectInput op) { g with sorted := false, ops := g.ops ++ [op] })
  have hout : (((g.opObj op).inputs.foldl (connectInput op)
      { g with sorted := false, ops := g.ops ++ [op] }).opObj op).outputs = (g.opObj op).outputs :=
    f1.outputs op
  rw [hout] at f2 o2 s2 tg2 src2 pr2 sc2
  simp only [hout]
  refine ⟨?_, o2.trans o1, s2.trans s1, ?_, ?_, ?_, ?_⟩
  · have := f1.trans f2
    exact ⟨this.tensors, this.inputs, this.outputs, this.fuid⟩
  · intro u x
    rw [tg2, tg1]
  · intro u
    rw [src2, src1]
  · intro x p
    rw [pr2, pr1]
    simp only [tg1]
    exact or_assoc
  · intro x q
    rw [sc2, sc1]
    simp only [tg1]
    exact or_assoc

theorem Unwired.wired_init {g : GraphObj} (h : Unwired g) : Wired g := by
  refine ⟨?_, ?_, ?_, ?_, ?_, ?_⟩
  · intro t x; simp [h.targets, h.ops]
  · intro t a ha; simp [h.source] at ha
  · intro t a ha; simp [h.ops] at ha
  · intro a b; simp [h.predecessors, h.successors]
  · intro a b hab; simp [h.predecessors] at hab
  · intro _ a ha; simp [h.ops] at ha

theorem UniqueProducer.mono {g : GraphObj} {l l' : List OpId} (h : UniqueProducer g l')
    (hsub : ∀ x ∈ l, x ∈ l') : UniqueProducer g l :=
  fun a ha b hb t hta htb => h a (hsub a ha) b (hsub b hb) t hta htb

theorem UniqueProducer.frame {g g' : GraphObj} {l : List OpId} (hf : Frame g g') :
    UniqueProducer g' l ↔ UniqueProducer g l := by
  unfold UniqueProducer
  simp only [hf.outputs]

/-- One `addOperatorAndConnect` call keeps the wiring invariant. -/
theorem Wired.add {g : GraphObj} (h : Wired g) (op : OpId) : Wired (g.addOperatorAndConnect op) := by
  obtain ⟨hf, hops, _, htg, hsrc, hpr, hsc⟩ := addOperatorAndConnect_spec g op
  refine ⟨?_, ?_, ?_, ?_, ?_, ?_⟩
  · intro t x
    rw [htg, hops, hf.inputs, h.targets, List.mem_append, List.mem_singleton]
    constructor
    · rintro (⟨h1, h2⟩ | ⟨rfl, h2⟩)
      · exact ⟨Or.inl h1, h2⟩
      · exact ⟨Or.inr rfl, h2⟩
    · rintro ⟨h1 | rfl, h2⟩
      · exact Or.inl ⟨h1, h2⟩
      · exact Or.inr ⟨rfl, h2⟩
  · intro t a ha
    rw [hsrc] at ha
    rw [hops, hf.outputs, List.mem_append, List.mem_singleton]
    split_ifs at ha with ht
    · cases ha
      exact ⟨Or.inr rfl, ht⟩
    · obtain ⟨h1, h2⟩ := h.source_sound t a ha
      exact ⟨Or.inl h1, h2⟩
  · intro t a ha hta
    rw [hsrc]
    rw [hops, List.mem_append, List.mem_singleton] at ha
    rw [hf.outputs] at hta
    split_ifs with ht
    · simp
    · rcases ha with ha | rfl
      · exact h.source_complete t a ha hta
      · exact absurd hta ht
  · intro a b
    rw [hpr, hsc, h.preds_succs]
  · intro a b hab
    rw [hpr] at hab
    simp only [hops, hf.inputs, hf.outputs, List.mem_append, List.mem_singleton]
    rcases hab with hab | ⟨rfl, t, ht, hs⟩ | ⟨rfl, t, ht, hx⟩
    · obtain ⟨h1, h2, h3⟩ := h.preds_sound a b hab
      exact ⟨Or.inl h1, Or.inl h2, h3⟩
    · obtain ⟨h1, h2⟩ := h.source_sound t a hs
      exact ⟨Or.inl h1, Or.inr rfl, t, h2, ht⟩
    · rcases hx with hx | ⟨rfl, hx⟩
      · obtain ⟨h1, h2⟩ := (h.targets t b).1 hx
        exact ⟨Or.inr rfl, Or.inl h1, t, ht, h2⟩
      · exact ⟨Or.inr rfl, Or.inr rfl, t, ht, hx⟩
  · intro hu a ha b hb t hta htb
    rw [UniqueProducer.frame hf, hops] at hu
    rw [hf.outputs] at hta
    rw [hf.inputs] at htb
    rw [hops, List.mem_append, List.mem_singleton] at ha hb
    rw [hpr]
    by_cases hao : a = op
    · subst hao
      right; right
      refine ⟨rfl, t, hta, ?_⟩
      rcases hb with hb | rfl
      · exact Or.inl ((h.targets t b).2 ⟨hb, htb⟩)
      · exact Or.inr ⟨rfl, htb⟩
    · have ha' : a ∈ g.ops := ha.resolve_right hao
      by_cases hbo : b = op
      · subst hbo
        right; left
        refine ⟨rfl, t, htb, ?_⟩
        cases hs : (g.tensorObj t).source with
        | none => exact absurd hs (h.source_complete t a ha' hta)
        | some a' =>
          obtain ⟨h1, h2⟩ := h.source_sound t a' hs
          have := hu a' (List.mem_append_left _ h1) a (List.mem_append_left _ ha') t h2 hta
          rw [this]
      · have hb' : b ∈ g.ops := hb.resolve_right hbo
        left
        exact h.preds_complete (hu.mono (fun x hx => List.mem_append_left _ hx)) a ha' b hb' t
          hta htb

theorem addAll_spec : ∀ (l : List OpId) (g : GraphObj), Wired g →
    Wired (addAll g l) ∧ Frame g (addAll g l) ∧ (addAll g l).ops = g.ops ++ l := by
  intro l
  induction l with
  | nil => intro g h; exact ⟨h, Frame.refl g, by simp [addAll]⟩
  | cons op rest ih =>
    intro g h
    obtain ⟨hf, hops, _⟩ := addOperatorAndConnect_spec g op
    obtain ⟨h1, h2, h3⟩ := ih (g.addOperatorAndConnect op) (h.add op)
    refine ⟨h1, hf.trans h2, ?_⟩
    show (addAll (g.addOperatorAndConnect op) rest).ops = _
    rw [h3, hops]
    simp

/-- The state reached from an unwired graph by connecting `l`, under unique producers,
in terms of `l` alone. -/
theorem addAll_char {g : GraphObj} (h0 : Unwired g) (l : List OpId) (hu : UniqueProducer g l) :
    (∀ t a, ((addAll g l).tensorObj t).source = some a ↔ a ∈ l ∧ t ∈ (g.opObj a).outputs) ∧
    (∀ t x, x ∈ ((addAll g l).tensorObj t).targets ↔ x ∈ l ∧ t ∈ (g.opObj x).inputs) ∧
    (∀ a b, a ∈ ((addAll g l).opObj b).predecessors ↔
      a ∈ l ∧ b ∈ l ∧ ∃ t, t ∈ (g.opObj a).outputs ∧ t ∈ (g.opObj b).inputs) ∧
    (∀ a b, b ∈ ((addAll g l).opObj a).successors ↔
      a ∈ l ∧ b ∈ l ∧ ∃ t, t ∈ (g.opObj a).outputs ∧ t ∈ (g.opObj b).inputs) := by
  obtain ⟨hw, hf, hops⟩ := addAll_spec l g h0.wired_init
  rw [h0.ops, List.nil_append] at hops
  have hu' : UniqueProducer (addAll g l) (addAll g l).ops := by
    rw [UniqueProducer.frame hf, hops]
    exact hu
  have hpred : ∀ a b, a ∈ ((addAll g l).opObj b).predecessors ↔
      a ∈ l ∧ b ∈ l ∧ ∃ t, t ∈ (g.opObj a).outputs ∧ t ∈ (g.opObj b).inputs := by
    intro a b
    constructor
    · intro hab
      have := hw.preds_sound a b hab
      simpa only [hops, hf.inputs, hf.outputs] using this
    · rintro ⟨ha, hb, t, hta, htb⟩
      refine hw.preds_complete hu' a (by rw [hops]; exact ha) b (by rw [hops]; exact hb) t ?_ ?_
      · rw [hf.outputs]; exact hta
      · rw [hf.inputs]; exact htb
  refine ⟨?_, ?_, hpred, ?_⟩
  · intro t a
    constructor
    · intro hs
      have := hw.source_sound t a hs
      simpa only [hops, hf.outputs] using this
    · rintro ⟨ha, hta⟩
      cases hs : ((addAll g l).tensorObj t).source with
      | none =>
        exact absurd hs (hw.source_complete t a (by rw [hops]; exact ha)
          (by rw [hf.outputs]; exact hta))
      | some a' =>
        have h1 := hw.source_sound t a' hs
        rw [hops, hf.outputs] at h1
        rw [hu a' h1.1 a ha t h1.2 hta]
  · intro t x
    rw [hw.targets, hops, hf.inputs]
  · intro a b
    rw [← hw.preds_succs, hpred]

/-- C7: in a graph reached from a graph with no operators by `addOperatorAndConnect` calls
in which each tensor is the output of at most one added operator, for all operators `A`, `B`
of the graph: `A` is a predecessor of `B` iff `B` is a successor of `A`, and iff some output
tensor of `A` is an input tensor of `B`.  (That each operator is added once is not needed.) -/
theorem adjacency_after_connect (g0 : GraphObj) (l : List OpId) (h0 : Unwired g0)
    (hu : UniqueProducer g0 l) :
    ∀ A ∈ (addAll g0 l).ops, ∀ B ∈ (addAll g0 l).ops,
      (A ∈ ((addAll g0 l).opObj B).predecessors ↔ B ∈ ((addAll g0 l).opObj A).successors) ∧
      (A ∈ ((addAll g0 l).opObj B).predecessors ↔
        ∃ t, t ∈ ((addAll g0 l).opObj A).outputs ∧ t ∈ ((addAll g0 l).opObj B).inputs) := by
  obtain ⟨hw, hf, hops⟩ := addAll_spec l g0 h0.wired_init
  rw [h0.ops, List.nil_append] at hops
  obtain ⟨_, _, hpred, _⟩ := addAll_char h0 l hu
  intro A hA B hB
  rw [hops] at hA hB
  refine ⟨hw.preds_succs A B, ?_⟩
  rw [hpred, hf.outputs, hf.inputs]
  constructor
  · rintro ⟨_, _, h⟩
    exact h
  · intro h
    exact ⟨hA, hB, h⟩

theorem pairObjects_unwired : Unwired pairObjects := by
  refine ⟨rfl, fun _ => rfl, fun _ => rfl, fun o => ?_, fun o => ?_⟩
  · simp only [pairObjects]; split_ifs <;> rfl
  · simp only [pairObjects]; split_ifs <;> rfl

theorem pairObjects_uniqueProducer : UniqueProducer pairObjects [0, 1] := by
  intro a ha b hb t hta htb
  simp only [List.mem_cons, List.mem_singleton, List.not_mem_nil, or_false] at ha hb
  rcases ha with rfl | rfl <;> rcases hb with rfl | rfl
  · rfl
  · simp only [pairObjects, if_true, List.mem_singleton] at hta htb
    simp [hta] at htb
  · simp only [pairObjects, if_true, List.mem_singleton] at hta htb
    simp [htb] at hta
  · rfl

theorem adjacency_after_connect_witness :
    Unwired pairObjects ∧ UniqueProducer pairObjects [0, 1] ∧
      (addAll pairObjects [0, 1]).ops = [0, 1] ∧
      (0 ∈ ((addAll pairObjects [0, 1]).opObj 1).predecessors ↔
        1 ∈ ((addAll pairObjects [0, 1]).opObj 0).successors) ∧
      (0 ∈ ((addAll pairObjects [0, 1]).opObj 1).predecessors ↔
        ∃ t, t ∈ ((addAll pairObjects [0, 1]).opObj 0).outputs ∧
          t ∈ ((addAll pairObjects [0, 1]).opObj 1).inputs) :=
  ⟨pairObjects_unwired, pairObjects_uniqueProducer, rfl,
    adjacency_after_connect pairObjects [0, 1] pairObjects_unwired pairObjects_uniqueProducer
      0 (by decide) 1 (by decide)⟩

/-- C8: wiring is order-independent.  For operators among which each tensor is the output of
at most one, connecting them to an unwired graph in two orders `l1`, `l2` (permutations of
each other) gives every tensor the same source and the same set of targets, and every
operator the same set of predecessors and the same set of successors. -/
theorem wiring_order_independent (g0 : GraphObj) (l1 l2 : List OpId) (h0 : Unwired g0)
    (hp : l1.Perm l2) (hu : UniqueProducer g0 l1) :
    (∀ t, ((addAll g0 l1).tensorObj t).source = ((addAll g0 l2).tensorObj t).source ∧
      ∀ x, x ∈ ((addAll g0 l1).tensorObj t).targets ↔ x ∈ ((addAll g0 l2).tensorObj t).targets) ∧
    (∀ o, (∀ p, p ∈ ((addAll g0 l1).opObj o).predecessors ↔
        p ∈ ((addAll g0 l2).opObj o).predecessors) ∧
      (∀ q, q ∈ ((addAll g0 l1).opObj o).successors ↔
        q ∈ ((addAll g0 l2).opObj o).successors)) := by
  have hu2 : UniqueProducer g0 l2 := hu.mono (fun x hx => hp.mem_iff.2 hx)
  obtain ⟨s1, t1, p1, q1⟩ := addAll_char h0 l1 hu
  obtain ⟨s2, t2, p2, q2⟩ := addAll_char h0 l2 hu2
  refine ⟨fun t => ⟨?_, fun x => ?_⟩, fun o => ⟨fun p => ?_, fun q => ?_⟩⟩
  · apply Option.ext
    intro a
    rw [Option.mem_def, Option.mem_def, s1, s2, hp.mem_iff]
  · rw [t1, t2, hp.mem_iff]
  · rw [p1, p2, hp.mem_iff, hp.mem_iff]
  · rw [q1, q2, hp.mem_iff, hp.mem_iff]

theorem wiring_order_independent_witness :
    Unwired pairObjects ∧ ([0, 1] : List OpId).Perm [1, 0] ∧
      UniqueProducer pairObjects [0, 1] ∧
      ((addAll pairObjects [0, 1]).tensorObj 1).source =
        ((addAll pairObjects [1, 0]).tensorObj 1).source ∧
      (∀ p, p ∈ ((addAll pairObjects [0, 1]).opObj 1).predecessors ↔
        p ∈ ((addAll pairObjects [1, 0]).opObj 1).predecessors) :=
  have h := wiring_order_independent pairObjects [0, 1] [1, 0] pairObjects_unwired
    (List.Perm.swap 1 0 []) pairObjects_uniqueProducer
  ⟨pairObjects_unwired, List.Perm.swap 1 0 [], pairObjects_uniqueProducer, (h.1 1).1,
    (h.2 1).1⟩

/-! ## Construction and validation -/

theorem addTensor_eq_some {g g' : GraphObj} {t : TensorId} (h : g.addTensor t = some g') :
    g' = { g with tensors := g.tensors ++ [t] } := by
  unfold addTensor at h
  split_ifs at h
  exact (Option.some.inj h).symm

theorem Wired.of_same {g g' : GraphObj} (h : Wired g) (ho : g'.ops = g.ops)
    (hop : g'.opObj = g.opObj) (ht : g'.tensorObj = g.tensorObj) : Wired g' := by
  obtain ⟨h1, h2, h3, h4, h5, h6⟩ := h
  refine ⟨?_, ?_, ?_, ?_, ?_, ?_⟩
  · simpa only [ho, hop, ht] using h1
  · simpa only [ho, hop, ht] using h2
  · simpa only [ho, hop, ht] using h3
  · simpa only [ho, hop, ht] using h4
  · simpa only [ho, hop, ht] using h5
  · simpa only [UniqueProducer, ho, hop, ht] using h6

theorem addTensorVec_same : ∀ (ts : List TensorId) (g g' : GraphObj),
    g.addTensorVec ts = some g' →
      g'.ops = g.ops ∧ g'.opObj = g.opObj ∧ g'.tensorObj = g.tensorObj := by
  intro ts
  induction ts with
  | nil =>
    intro g g' h
    simp only [addTensorVec, List.foldlM_nil] at h
    cases h
    exact ⟨rfl, rfl, rfl⟩
  | cons t rest ih =>
    intro g g' h
    simp only [addTensorVec, List.foldlM_cons] at h
    cases h1 : g.addTensor t with
    | none => simp [h1] at h
    | some g1 =>
      rw [h1] at h
      have e := addTensor_eq_some h1
      obtain ⟨a, b, c⟩ := ih g1 g' h
      subst e
      exact ⟨a, b, c⟩

theorem Wired.addTensorNew {g : GraphObj} (h : Wired g) {t : TensorId} (hfresh : FreshAt g t)
    (fuid : Nat) (dim : Shape) : Wired (g.addTensorNew t fuid dim) := by
  obtain ⟨_, href⟩ := hfresh
  have htobj : ∀ u, (g.addTensorNew t fuid dim).tensorObj u =
      if u = t then newTensorObj fuid dim g.runtime else g.tensorObj u :=
    fun _ => rfl
  have hop : (g.addTensorNew t fuid dim).opObj = g.opObj := rfl
  have hops : (g.addTensorNew t fuid dim).ops = g.ops := rfl
  refine ⟨?_, ?_, ?_, ?_, ?_, ?_⟩
  · intro u x
    rw [htobj, hop, hops]
    split_ifs with hu
    · subst hu
      simp only [newTensorObj, List.not_mem_nil, false_iff, not_and]
      intro hx
      exact (href x hx).1
    · exact h.targets u x
  · intro u a
    rw [htobj, hop, hops]
    split_ifs with hu
    · intro ha
      simp [newTensorObj] at ha
    · exact h.source_sound u a
  · intro u a ha hua
    rw [htobj]
    rw [hops] at ha
    rw [hop] at hua
    split_ifs with hu
    · subst hu
      exact absurd hua (href a ha).2
    · exact h.source_complete u a ha hua
  · exact h.preds_succs
  · exact h.preds_sound
  · exact h.preds_complete

theorem wired_of_built {g0 g : GraphObj} (h0 : Unwired g0) (h : Built g0 g) : Wired g := by
  induction h with
  | start => exact h0.wired_init
  | newTensor g t fuid dim _ hf ih => exact ih.addTensorNew hf fuid dim
  | tensor g g' t _ he ih =>
    have e := addTensor_eq_some he
    subst e
    exact ih.of_same rfl rfl rfl
  | tensorVec g g' ts _ he ih =>
    obtain ⟨a, b, c⟩ := addTensorVec_same ts g g' he
    exact ih.of_same a b c
  | connect g op _ ih => exact ih.add op

/-- C10 (as amended): let `g0` be a graph without operators none of whose objects is wired
yet: no tensor has a source or a target, no operator a predecessor or a successor (`Unwired`;
the empty graph is the case in which no tensor is listed either).  A graph obtained from
`g0` by the construction calls (`addTensor` in any overload, `addOperatorAndConnect`) passes
`checkValid` exactly when every listed tensor is an input or output of a listed operator,
every input and output tensor of a listed operator is listed, and the fuids of the listed
tensors are pairwise distinct. -/
theorem built_checkValid_iff (g0 g : GraphObj) (h0 : Unwired g0) (hb : Built g0 g) :
    checkValid g = some true ↔
      (∀ t ∈ g.tensors, ∃ o ∈ g.ops, t ∈ (g.opObj o).inputs ∨ t ∈ (g.opObj o).outputs) ∧
      (∀ o ∈ g.ops, (∀ t ∈ (g.opObj o).inputs, t ∈ g.tensors) ∧
        (∀ t ∈ (g.opObj o).outputs, t ∈ g.tensors)) ∧
      (g.tensors.map (fun t => (g.tensorObj t).fuid)).Nodup := by
  have hw := wired_of_built h0 hb
  rw [checkValid_eq_some_true]
  constructor
  · intro hv
    refine ⟨fun t ht => ?_, hv.opTensors, hv.fuids⟩
    rcases hv.connected t ht with hs | htg
    · cases hsrc : (g.tensorObj t).source with
      | none => exact absurd hsrc hs
      | some a =>
        obtain ⟨h1, h2⟩ := hw.source_sound t a hsrc
        exact ⟨a, h1, Or.inr h2⟩
    · obtain ⟨x, hx⟩ := List.exists_mem_of_ne_nil _ htg
      obtain ⟨h1, h2⟩ := (hw.targets t x).1 hx
      exact ⟨x, h1, Or.inl h2⟩
  · rintro ⟨h1, h2, h3⟩
    refine ⟨fun t ht => ?_, fun t _ => ⟨fun o ho => ?_, fun o ho => ?_⟩, h2,
      fun o _ => ⟨fun p hp => ?_, fun p hp => ?_⟩, h3⟩
    · obtain ⟨o, ho, hin | hout⟩ := h1 t ht
      · right
        exact List.ne_nil_of_mem ((hw.targets t o).2 ⟨ho, hin⟩)
      · left
        exact hw.source_complete t o ho hout
    · exact ((hw.targets t o).1 ho).1
    · exact (hw.source_sound t o ho).1
    · exact (hw.preds_sound p o hp).1
    · exact (hw.preds_sound o p ((hw.preds_succs o p).2 hp)).2.1

theorem pairGraph_built : Built pairObjects pairGraph := by
  refine Built.connect _ 1 (Built.connect _ 0 ?_)
  exact Built.tensorVec pairObjects _ [0, 1, 2] Built.start rfl

theorem built_checkValid_iff_witness :
    Unwired pairObjects ∧ pairObjects.tensors = [] ∧ Built pairObjects pairGraph ∧
      checkValid pairGraph = some true ∧
      (pairGraph.tensors.map (fun t => (pairGraph.tensorObj t).fuid)).Nodup :=
  ⟨pairObjects_unwired, rfl, pairGraph_built, by decide,
    ((built_checkValid_iff pairObjects pairGraph pairObjects_unwired pairGraph_built).1
      (by decide)).2.2⟩

/-- C10 as stated fails: after the single construction call `addTensor(dim, dtype)` on the
empty graph, whose objects are unwired, the new tensor has neither source nor target, and
`checkValid` aborts. -/
theorem built_not_valid :
    Unwired emptyGraph ∧ emptyGraph.ops = [] ∧ emptyGraph.tensors = [] ∧
      Built emptyGraph (emptyGraph.addTensorNew 0 0 [2, 3]) ∧
      checkValid (emptyGraph.addTensorNew 0 0 [2, 3]) = none := by
  refine ⟨⟨rfl, fun _ => rfl, fun _ => rfl, fun _ => rfl, fun _ => rfl⟩, rfl, rfl,
    Built.newTensor _ 0 0 [2, 3] Built.start ?_, by decide⟩
  exact ⟨by simp [emptyGraph], by simp [emptyGraph]⟩

/-- Why the objects must be unwired when the construction starts: `addTensor(const Tensor &)`
checks the runtime only.  Over `adoptObjects`, where tensor `0` is already produced by an
operator of another graph, adopting the tensors `0`, `1` and connecting operator `0` gives a
graph in which every listed tensor is used by the listed operator, the operator's tensors
are listed and the fuids are distinct, yet `checkValid` aborts on the source of tensor `0`. -/
theorem adopted_tensor_not_valid :
    adoptObjects.ops = [] ∧ adoptObjects.tensors = [] ∧ Built adoptObjects adoptGraph ∧
      adoptGraph.ops = [0] ∧ adoptGraph.tensors = [0, 1] ∧
      (∀ t ∈ adoptGraph.tensors, ∃ o ∈ adoptGraph.ops,
        t ∈ (adoptGraph.opObj o).inputs ∨ t ∈ (adoptGraph.opObj o).outputs) ∧
      (∀ o ∈ adoptGraph.ops, (∀ t ∈ (adoptGraph.opObj o).inputs, t ∈ adoptGraph.tensors) ∧
        (∀ t ∈ (adoptGraph.opObj o).outputs, t ∈ adoptGraph.tensors)) ∧
      (adoptGraph.tensors.map (fun t => (adoptGraph.tensorObj t).fuid)).Nodup ∧
      (adoptGraph.tensorObj 0).source = some 9 ∧ checkValid adoptGraph = none := by
  refine ⟨rfl, rfl, ?_, by decide, by decide, by decide, by decide, by decide, by decide,
    by decide⟩
  exact Built.connect _ 0 (Built.tensor _ _ 1 (Built.tensor _ _ 0 Built.start rfl) rfl)

/-! ## The rewrite pass -/

theorem swapPerm_length (n i j : Nat) : (swapPerm n i j).length = n := by
  simp [swapPerm]

theorem swapPerm_getD (n i j x : Nat) (hx : x < n) :
    (swapPerm n i j).getD x 0 = if x = i then j else if x = j then i else x := by
  simp [swapPerm, List.getD_eq_getElem?_getD, hx]

theorem permScan_self (P : List Nat) :
    ∀ (l : List Nat) (c : Nat),
      permScan P P l c = (false, c + l.countP (fun x => decide (x ≠ P.getD x 0))) := by
  intro l
  induction l with
  | nil => intro c; simp [permScan]
  | cons x rest ih =>
    intro c
    rw [permScan, if_neg (by simp), ih, List.countP_cons]
    generalize P.getD x 0 = y
    by_cases h : x = y
    · subst h
      simp
    · simp [h]
      omega

theorem countP_moved (n i j : Nat) (hij : i < j) (hjn : j < n) :
    (List.range n).countP (fun x => decide (x ≠ (swapPerm n i j).getD x 0)) = 2 := by
  rw [List.countP_eq_length_filter]
  have hperm : ((List.range n).filter (fun x => decide (x ≠ (swapPerm n i j).getD x 0))).Perm
      [i, j] := by
    rw [List.perm_ext_iff_of_nodup ((List.nodup_range n).filter _) (by simp; omega)]
    intro a
    simp only [List.mem_filter, List.mem_range, decide_eq_true_eq, List.mem_cons,
      List.mem_singleton, List.not_mem_nil, or_false]
    constructor
    · rintro ⟨ha, hne⟩
      rw [swapPerm_getD n i j a ha] at hne
      by_contra hcon
      push_neg at hcon
      simp [hcon.1, hcon.2] at hne
    · rintro (rfl | rfl)
      · refine ⟨by omega, ?_⟩
        rw [swapPerm_getD n a j a (by omega)]
        simp; omega
      · refine ⟨hjn, ?_⟩
        rw [swapPerm_getD n i a a hjn]
        have : a ≠ i := by omega
        simp [this]
  simpa using hperm.length_eq

theorem ruleAMatch_swapPerm (n i j : Nat) (hij : i < j) (hjn : j < n) :
    ruleAMatch (swapPerm n i j) (swapPerm n i j) = true := by
  unfold ruleAMatch
  rw [permScan_self, swapPerm_length, countP_moved n i j hij hjn]
  simp

theorem lastTwoSwapped_swapPerm (n : Nat) (hn : 2 ≤ n) :
    lastTwoSwapped (swapPerm n (n - 2) (n - 1)) = true := by
  unfold lastTwoSwapped
  rw [swapPerm_length, swapPerm_getD n _ _ (n - 1) (by omega),
    swapPerm_getD n _ _ (n - 2) (by omega)]
  have h1 : n - 1 ≠ n - 2 := by omega
  simp [h1, hn]

set_option maxHeartbeats 1000000 in
/-- The outcome of `optimize` on the fusion graph, for either listing order. -/
theorem optimize_fusion (P : List Nat) (hP : lastTwoSwapped P = true) (tA tB intoB : Bool)
    (order : List OpId) (ho : order = [0, 1] ∨ order = [1, 0]) :
    (optimize (fusionGraph P tA tB intoB order)).map
        (fun g => (g.ops, g.tensors, (g.opObj 1).inputs, (g.opObj 1).transA, (g.opObj 1).transB,
          (g.tensorObj 0).targets)) =
      some ([1], [0, 2, 3], if intoB then [2, 0] else [0, 2],
        if intoB then tA else !tA, if intoB then !tB else tB, [1]) := by
  rcases ho with rfl | rfl <;> cases intoB <;>
  simp [optimize, optimizeStep, ruleA, ruleAStep, ruleASplice, ruleB, ruleBFold, fusionGraph,
    fusionObjects, addAll, addOperatorAndConnect, connectInput, connectOutput, addTarget,
    removeTarget, setSource, addPredecessors, addSuccessors, removePredecessors,
    removeSuccessors, replaceInput, modifyOp, modifyTensor, heapSet, setAdd, setRemove,
    getOutput, getInput, hP]

/-- The fusion test graph of the spec, made of the two operators alone: for a permutation `P`
of rank at least 2 that swaps exactly the last two axes and the graph
`X --Transpose(P)--> Y --MatMul--> C`, `Y` being operand `A` (`intoB = false`) or operand `B`
(`intoB = true`), with any initial flags and either listing order of the two operators, the
whole outcome of `optimize`. -/
theorem optimize_fusion_test_graph (n : Nat) (hn : 2 ≤ n) (tA tB intoB : Bool)
    (order : List OpId) (ho : order = [0, 1] ∨ order = [1, 0]) :
    ∃ g', optimize (fusionGraph (swapPerm n (n - 2) (n - 1)) tA tB intoB order) = some g' ∧
      (g'.opObj 1).transA = (if intoB then tA else !tA) ∧
      (g'.opObj 1).transB = (if intoB then !tB else tB) ∧
      (g'.opObj 1).inputs = (if intoB then [2, 0] else [0, 2]) ∧
      1 ∈ (g'.tensorObj 0).targets ∧ 0 ∉ g'.ops ∧ 1 ∉ g'.tensors ∧
      g'.ops = [1] ∧ g'.tensors = [0, 2, 3] := by
  have key := optimize_fusion (swapPerm n (n - 2) (n - 1)) (lastTwoSwapped_swapPerm n hn)
    tA tB intoB order ho
  cases h : optimize (fusionGraph (swapPerm n (n - 2) (n - 1)) tA tB intoB order) with
  | none => simp [h] at key
  | some g' =>
    rw [h] at key
    simp only [Option.map_some', Option.some.injEq, Prod.mk.injEq] at key
    obtain ⟨h1, h2, h3, h4, h5, h6⟩ := key
    refine ⟨g', rfl, h4, h5, h3, ?_, ?_, ?_, h1, h2⟩
    · rw [h6]; decide
    · rw [h1]; decide
    · rw [h2]; decide

theorem optimize_fusion_test_graph_witness :
    swapPerm 2 0 1 = [1, 0] ∧ 2 ≤ 2 ∧
      ∃ g', optimize (fusionGraph [1, 0] false false false [0, 1]) = some g' ∧
        (g'.opObj 1).transA = true ∧ (g'.opObj 1).transB = false ∧
        (g'.opObj 1).inputs = [0, 2] ∧ g'.ops = [1] ∧ g'.tensors = [0, 2, 3] := by
  obtain ⟨g', h, h1, h2, h3, _, _, _, h4, h5⟩ :=
    optimize_fusion_test_graph 2 (by decide) false false false [0, 1] (Or.inl rfl)
  have e : swapPerm 2 (2 - 2) (2 - 1) = [1, 0] := by decide
  rw [e] at h
  exact ⟨by decide, by decide, g', h, by simpa using h1, by simpa using h2, by simpa using h3,
    h4, h5⟩

theorem foldlM_fixed {α β : Type} (f : β → α → Option β) (st : β) :
    ∀ l : List α, (∀ x ∈ l, f st x = some st) → l.foldlM f st = some st := by
  intro l
  induction l with
  | nil => intro _; rfl
  | cons x rest ih =>
    intro h
    rw [List.foldlM_cons, h x (List.mem_cons_self _ _)]
    exact ih (fun y hy => h y (List.mem_cons_of_mem _ hy))

theorem optimizeStep_noMatch (g : GraphObj) (o : OpId)
    (hA : (g.opObj o).type = OpType.Transpose → ∀ p ∈ (g.opObj o).predecessors,
      (g.opObj p).type = OpType.Transpose →
        ruleAMatch (g.opObj o).permute (g.opObj p).permute = false)
    (hB : (g.opObj o).type = OpType.MatMul → ∃ A B,
      (g.opObj o).inputs[0]? = some A ∧ (g.opObj o).inputs[1]? = some B ∧
      (∀ f, (g.tensorObj A).source = some f → (g.opObj f).type = OpType.Transpose →
        lastTwoSwapped (g.opObj f).permute = false) ∧
      (∀ f, (g.tensorObj B).source = some f → (g.opObj f).type = OpType.Transpose →
        lastTwoSwapped (g.opObj f).permute = false)) :
    optimizeStep { g := g } o = some { g := g } := by
  have h1 : ruleA o { g := g } = some { g := g } := by
    unfold ruleA
    split_ifs with ht
    · apply foldlM_fixed
      intro p hp
      unfold ruleAStep
      split_ifs with hpt hm
      · exact absurd hm (by simp [hA ht p hp hpt])
      · rfl
      · rfl
    · rfl
  have h2 : ruleB o { g := g } = some { g := g } := by
    unfold ruleB
    split_ifs with ht
    · obtain ⟨A, B, hA0, hB1, hsa, hsb⟩ := hB ht
      have hBpart : ((g.opObj o).inputs[1]?.bind fun B =>
          match (g.tensorObj B).source with
          | some fop =>
            if (g.opObj fop).type = OpType.Transpose then
              if lastTwoSwapped (g.opObj fop).permute = true then
                ruleBFold o fop 1 { g := g } else some { g := g }
            else some { g := g }
          | none => some ({ g := g } : OptState)) = some { g := g } := by
        rw [hB1, Option.some_bind]
        cases hs : (g.tensorObj B).source with
        | none => rfl
        | some fop =>
          simp only
          split_ifs with h3 h4
          · exact absurd h4 (by simp [hsb fop hs h3])
          · rfl
          · rfl
      simp only [hA0, hB1, Option.some_bind]
      cases hs : (g.tensorObj A).source with
      | none => exact hBpart
      | some fop =>
        simp only
        split_ifs with h3 h4
        · exact absurd h4 (by simp [hsa fop hs h3.2])
        · exact hBpart
        · exact hBpart
    · rfl
  unfold optimizeStep
  rw [if_neg (by simp), h1, Option.some_bind, h2]

/-- On a graph in which no pattern matches (no listed Transpose has a Transpose predecessor
passing Rule A's test, no operand of a listed MatMul is produced by a Transpose passing Rule
B's test) `optimize` returns the graph exactly as it was. -/
theorem optimize_fixed_of_noMatch (g : GraphObj) (h : NoMatch g) : optimize g = some g := by
  unfold optimize
  rw [foldlM_fixed optimizeStep { g := g } g.ops
    (fun o ho => optimizeStep_noMatch g o (h o ho).1 (h o ho).2)]
  simp

theorem optimizedChain_noMatch : NoMatch optimizedChain := by
  intro o ho
  have hops : optimizedChain.ops = [2] := by decide
  rw [hops, List.mem_singleton] at ho
  subst ho
  have ht : (optimizedChain.opObj 2).type = OpType.Unknown := by decide
  rw [ht]
  exact ⟨fun hc => absurd hc (by decide), fun hc => absurd hc (by decide)⟩

theorem optimize_fixed_of_noMatch_witness :
    (optimize (chainGraph [0, 2, 1] OpType.Unknown [] false false [0, 1, 2])).isSome = true ∧
      NoMatch optimizedChain ∧ optimize optimizedChain = some optimizedChain :=
  ⟨by decide, optimizedChain_noMatch, optimize_fixed_of_noMatch optimizedChain optimizedChain_noMatch⟩

/-! ## Defects of the rewrite pass -/

theorem mem_of_precedes {l : List OpId} {a b : OpId} (h : precedes l a b) : a ∈ l := by
  obtain ⟨pre, post, he, ha⟩ := h
  rw [he]
  exact List.mem_append_left _ ha

/-- C1 at its failing input: the valid graph `branchGraph`, whose operators are distinct, is
sorted by `topo_sort` and rewritten by `optimize`, which removes the Transposes `0` and `1`
and leaves the `sorted` flag set.  On the graph reached, `topo_sort` returns true and leaves
the list `[2, 3]`, although operator `3` reads tensor `1`, whose source, operator `0`, does
not come before it: the list is not in topological order. -/
theorem topo_sort_true_on_unordered_list :
    checkValid branchGraph = some true ∧ branchGraph.ops.Nodup ∧
    ((topo_sort branchGraph).bind fun r => optimize r.2).isSome = true ∧
    staleBranchGraph.ops.Nodup ∧
    (topo_sort staleBranchGraph).map (fun r => (r.1, r.2.ops)) = some (true, [2, 3]) ∧
    1 ∈ (staleBranchGraph.opObj 3).inputs ∧ (staleBranchGraph.tensorObj 1).source = some 0 ∧
    ¬ precedes staleBranchGraph.ops 0 3 ∧
    ∃ g', topo_sort staleBranchGraph = some (true, g') ∧ g'.ops.Perm staleBranchGraph.ops ∧
      ¬ TopoOrdered g' g'.ops := by
  have hnp : ¬ precedes staleBranchGraph.ops 0 3 := fun h =>
    absurd (mem_of_precedes h) (by decide)
  have hts : topo_sort staleBranchGraph = some (true, staleBranchGraph) := by
    have hs : staleBranchGraph.sorted = true := by decide
    simp [topo_sort, topo_sort_fuel, hs]
  refine ⟨by decide, by decide, by decide, by decide, ?_, by decide, by decide, hnp, ?_⟩
  · decide
  · exact ⟨staleBranchGraph, hts, List.Perm.refl _,
      fun hord => hnp (hord 3 (by decide) 1 (by decide) 0 (by decide))⟩

/-- C13 at its failing input: the valid graph `branchGraph` is sorted (flag set), then
optimized.  The flag is still set, but the listed operator `3` reads tensor `1` whose source,
operator `0`, is no longer listed, and a `topo_sort` that actually runs (flag cleared)
returns false on this graph. -/
theorem optimize_leaves_stale_flag :
    checkValid branchGraph = some true ∧
    (topo_sort branchGraph).map (fun r => (r.1, r.2.ops, r.2.sorted)) =
      some (true, [0, 1, 2, 3], true) ∧
    ((topo_sort branchGraph).bind fun r => optimize r.2).map
        (fun g => (g.sorted, g.ops, (g.opObj 3).inputs, (g.tensorObj 1).source)) =
      some (true, [2, 3], [1], some 0) ∧
    (((topo_sort branchGraph).bind fun r => optimize r.2).bind
        fun g => topo_sort { g with sorted := false }).map (fun r => r.1) = some false := by
  decide

/-- C14 at its failing input: `branchGraph` passes `checkValid`; after `optimize` the
surviving operator `3` still reads the removed tensor `1` and still has the removed operator
`0` as predecessor, and `checkValid` aborts. -/
theorem optimize_breaks_validity :
    checkValid branchGraph = some true ∧
    (optimize branchGraph).map
        (fun g => (g.ops, g.tensors, (g.opObj 3).inputs, (g.opObj 3).predecessors)) =
      some ([2, 3], [0, 3, 4], [1], [0]) ∧
    (optimize branchGraph).bind checkValid = none := by
  decide

/-- C15 at its failing input: for a consumer with inputs `[W, Z]`, Rule A replaces the first
input `W` by `X` and leaves `Z` in place (kind `Unknown`: `[X, Z]`); for a MatMul consumer
Rule B then folds the already cancelled Transpose into operand `B`, giving `[X, Y]` with
`transB` toggled.  The claim asks for `[W, X]`. -/
theorem ruleA_rebinds_first_input :
    checkValid (secondInputGraph [0, 2, 1] OpType.MatMul) = some true ∧
    ((secondInputGraph [0, 2, 1] OpType.MatMul).opObj 2).inputs = [4, 2] ∧
    (optimize (secondInputGraph [0, 2, 1] OpType.Unknown)).map
        (fun g => (g.ops, g.tensors, (g.opObj 2).inputs)) = some ([2], [0, 3, 4], [0, 2]) ∧
    (optimize (secondInputGraph [0, 2, 1] OpType.MatMul)).map
        (fun g => (g.ops, g.tensors, (g.opObj 2).inputs, (g.opObj 2).transB)) =
      some ([2], [0, 3, 4], [0, 1], true) := by
  decide

/-- C16 at its failing input: the producer Transpose has the permutation `[1, 0, 3, 2]`,
which also swaps the two batch axes; it passes the test of Rule B, and `optimize` toggles
`transA`, rebinds the operand to `X` and removes the Transpose. -/
theorem ruleB_folds_batch_permuting_transpose :
    lastTwoSwapped [1, 0, 3, 2] = true ∧
    checkValid (fusionGraph [1, 0, 3, 2] false false false [0, 1]) = some true ∧
    ((fusionGraph [1, 0, 3, 2] false false false [0, 1]).opObj 1).inputs = [1, 2] ∧
    (optimize (fusionGraph [1, 0, 3, 2] false false false [0, 1])).map
        (fun g => (g.ops, g.tensors, (g.opObj 1).inputs, (g.opObj 1).transA, (g.opObj 1).transB))
      = some ([1], [0, 2, 3], [0, 2], true, false) := by
  decide

set_option maxHeartbeats 4000000 in
/-- The outcome of `optimize` on the chain of four Transposes. -/
theorem optimize_fourChain (P : List Nat) (hP : ruleAMatch P P = true) (ty : OpType)
    (perm : List Nat) (tA tB : Bool) :
    (optimize (fourChainGraph P ty perm tA tB)).map
        (fun g => (g.ops, g.tensors, (g.opObj 4).inputs, (g.opObj 4).type,
          (g.opObj 4).predecessors, (g.tensorObj 0).source, (g.tensorObj 6).source)) =
      some ([4], if ty = OpType.MatMul then [0, 5, 6] else [0, 5],
        if ty = OpType.MatMul then [0, 6] else [0], ty, [], none, none) := by
  cases ty <;>
  simp [optimize, optimizeStep, ruleA, ruleAStep, ruleASplice, ruleB, fourChainGraph,
    fourChainObjects, addAll, addOperatorAndConnect, connectInput, connectOutput, addTarget,
    removeTarget, setSource, addPredecessors, addSuccessors, removePredecessors,
    removeSuccessors, replaceInput, modifyOp, modifyTensor, heapSet, setAdd, setRemove,
    getOutput, getInput, hP]

/-- C20 (as amended): for the linear chain of four Transposes carrying the same two-axis swap
(operator list in topological order, any kind of consumer), a single `optimize` call removes
both matching pairs: no Transpose of the chain is left, the consumer reads `X`, and a second
`optimize` call changes nothing. -/
theorem optimize_cancels_four_chain (n i j : Nat) (hij : i < j) (hjn : j < n) (ty : OpType)
    (perm : List Nat) (tA tB : Bool) :
    ∃ g', optimize (fourChainGraph (swapPerm n i j) ty perm tA tB) = some g' ∧
      g'.ops = [4] ∧ (g'.opObj 4).inputs = (if ty = OpType.MatMul then [0, 6] else [0]) ∧
      g'.tensors = (if ty = OpType.MatMul then [0, 5, 6] else [0, 5]) ∧
      optimize g' = some g' := by
  have key := optimize_fourChain (swapPerm n i j) (ruleAMatch_swapPerm n i j hij hjn) ty perm
    tA tB
  cases h : optimize (fourChainGraph (swapPerm n i j) ty perm tA tB) with
  | none => simp [h] at key
  | some g' =>
    rw [h] at key
    simp only [Option.map_some', Option.some.injEq, Prod.mk.injEq] at key
    obtain ⟨h1, h2, h3, h4, h5, h6, h7⟩ := key
    have hnm : NoMatch g' := by
      intro o ho
      rw [h1, List.mem_singleton] at ho
      subst ho
      refine ⟨fun _ p hp => ?_, fun hm => ?_⟩
      · rw [h5] at hp
        exact absurd hp (List.not_mem_nil p)
      · rw [h4] at hm
        subst hm
        rw [h3]
        refine ⟨0, 6, rfl, rfl, fun f hf => ?_, fun f hf => ?_⟩
        · rw [h6] at hf
          exact absurd hf (by simp)
        · rw [h7] at hf
          exact absurd hf (by simp)
    refine ⟨g', rfl, h1, h3, h2, ?_⟩
    unfold optimize
    rw [foldlM_fixed optimizeStep { g := g' } g'.ops
      (fun o ho => optimizeStep_noMatch g' o (hnm o ho).1 (hnm o ho).2)]
    simp

theorem optimize_cancels_four_chain_witness :
    swapPerm 3 1 2 = [0, 2, 1] ∧ 1 < 2 ∧ 2 < 3 ∧
      ∃ g', optimize (fourChainGraph [0, 2, 1] OpType.Unknown [] false false) = some g' ∧
        g'.ops = [4] ∧ (g'.opObj 4).inputs = [0] ∧ optimize g' = some g' := by
  obtain ⟨g', h, h1, h2, _, h4⟩ :=
    optimize_cancels_four_chain 3 1 2 (by decide) (by decide) OpType.Unknown [] false false
  have e : swapPerm 3 1 2 = [0, 2, 1] := by decide
  rw [e] at h
  exact ⟨e, by decide, by decide, g', h, h1, by simpa using h2, h4⟩

/-- C20 as stated fails: on the chain of four Transposes with `P = [0, 2, 1]`, listed in
topological order, one `optimize` call already removes all four Transposes (none is left,
where the claim expects two). -/
theorem optimize_four_chain_single_call :
    (fourChainGraph [0, 2, 1] OpType.Unknown [] false false).ops = [0, 1, 2, 3, 4] ∧
    checkValid (fourChainGraph [0, 2, 1] OpType.Unknown [] false false) = some true ∧
    (optimize (fourChainGraph [0, 2, 1] OpType.Unknown [] false false)).map
        (fun g => (g.ops, g.tensors, (g.opObj 4).inputs)) = some ([4], [0, 5], [0]) := by
  decide

/-! ## Soundness of the match test of Rule A -/

theorem permScan_false (P Q : List Nat) :
    ∀ (l : List Nat) (c c' : Nat), permScan P Q l c = (false, c') →
      (∀ x ∈ l, P.getD x 0 = Q.getD x 0) ∧
        c' = c + l.countP (fun x => decide (x ≠ P.getD x 0)) := by
  intro l
  induction l with
  | nil =>
    intro c c' h
    simp only [permScan, Prod.mk.injEq, true_and] at h
    simp [h]
  | cons x rest ih =>
    intro c c' h
    rw [permScan] at h
    by_cases hd : P.getD x 0 = Q.getD x 0
    · rw [if_neg (by simpa using hd)] at h
      obtain ⟨h1, h2⟩ := ih _ _ h
      refine ⟨?_, ?_⟩
      · intro y hy
        rw [List.mem_cons] at hy
        rcases hy with rfl | hy
        · exact hd
        · exact h1 y hy
      · rw [h2, List.countP_cons]
        generalize P.getD x 0 = y
        by_cases hxy : x = y
        · subst hxy
          simp
        · simp [hxy]
          omega
    · rw [if_pos hd] at h
      simp at h

theorem ruleAMatch_true (P Q : List Nat) (h : ruleAMatch P Q = true) :
    Q = P ∧ (List.range P.length).countP (fun x => decide (x ≠ P.getD x 0)) = 2 := by
  unfold ruleAMatch at h
  by_cases hlen : P.length = Q.length
  · rw [if_neg (by simpa using hlen)] at h
    cases hs : permScan P Q (List.range P.length) 0 with
    | mk d c =>
      rw [hs] at h
      simp only [Bool.not_eq_true', Bool.or_eq_false_iff, decide_eq_false_iff_not, ne_eq,
        not_not] at h
      obtain ⟨hc, hd⟩ := h
      subst hd
      obtain ⟨h1, h2⟩ := permScan_false P Q _ 0 c hs
      refine ⟨?_, ?_⟩
      · apply List.ext_getElem hlen.symm
        intro k hk1 hk2
        have := h1 k (List.mem_range.2 hk2)
        simp only [List.getD_eq_getElem?_getD, List.getElem?_eq_getElem hk1,
          List.getElem?_eq_getElem hk2, Option.getD_some] at this
        exact this.symm
      · rw [hc] at h2
        omega
  · rw [if_pos hlen] at h
    simp at h

/-- A permutation of `0 .. n-1` with exactly two moved positions swaps these two. -/
theorem swap_of_two_moved (n : Nat) (P : List Nat) (hP : P.Perm (List.range n))
    (hc : (List.range n).countP (fun x => decide (x ≠ P.getD x 0)) = 2) :
    ∃ i j, i < j ∧ j < n ∧ P = swapPerm n i j := by
  have hlen : P.length = n := by simpa using hP.length_eq
  have hnd : P.Nodup := hP.nodup_iff.2 (List.nodup_range n)
  have hget : ∀ k, k < n → ∃ hk : k < P.length, P.getD k 0 = P[k] := by
    intro k hk
    have hk' : k < P.length := by omega
    exact ⟨hk', by simp [List.getD_eq_getElem?_getD, List.getElem?_eq_getElem hk']⟩
  have hlt : ∀ k, k < n → P.getD k 0 < n := by
    intro k hk
    obtain ⟨hk', e⟩ := hget k hk
    rw [e]
    exact List.mem_range.1 (hP.mem_iff.1 (List.getElem_mem hk'))
  have hinj : ∀ k k', k < n → k' < n → P.getD k 0 = P.getD k' 0 → k = k' := by
    intro k k' hk hk' he
    obtain ⟨h1, e1⟩ := hget k hk
    obtain ⟨h2, e2⟩ := hget k' hk'
    rw [e1, e2] at he
    exact (List.Nodup.getElem_inj_iff hnd).1 he
  -- the list of moved positions
  have hF : ((List.range n).filter (fun x => decide (x ≠ P.getD x 0))).length = 2 := by
    rw [← List.countP_eq_length_filter]
    exact hc
  have hsorted : ((List.range n).filter (fun x => decide (x ≠ P.getD x 0))).Pairwise (· < ·) :=
    List.Pairwise.filter _ (List.pairwise_lt_range n)
  have hmem : ∀ x, x ∈ (List.range n).filter (fun x => decide (x ≠ P.getD x 0)) ↔
      x < n ∧ x ≠ P.getD x 0 := by
    intro x
    simp [List.mem_filter]
  obtain ⟨a, b, hab⟩ : ∃ a b,
      (List.range n).filter (fun x => decide (x ≠ P.getD x 0)) = [a, b] := by
    match hl : (List.range n).filter (fun x => decide (x ≠ P.getD x 0)), hF with
    | [a, b], _ => exact ⟨a, b, rfl⟩
  rw [hab] at hsorted hmem
  have hablt : a < b := by simpa using hsorted
  have ha := (hmem a).1 (by simp)
  have hb := (hmem b).1 (by simp)
  have hmoved : ∀ x, x < n → x ≠ P.getD x 0 → x = a ∨ x = b := by
    intro x hx hne
    have := (hmem x).2 ⟨hx, hne⟩
    simpa using this
  have himg : ∀ x, x < n → x ≠ P.getD x 0 → P.getD x 0 = a ∨ P.getD x 0 = b := by
    intro x hx hne
    apply hmoved _ (hlt x hx)
    intro he
    exact hne (hinj _ _ hx (hlt x hx) he)
  have hPa : P.getD a 0 = b := by
    rcases himg a ha.1 ha.2 with h | h
    · exact absurd h.symm ha.2
    · exact h
  have hPb : P.getD b 0 = a := by
    rcases himg b hb.1 hb.2 with h | h
    · exact h
    · exact absurd h.symm hb.2
  refine ⟨a, b, hablt, hb.1, ?_⟩
  apply List.ext_getElem (by rw [hlen, swapPerm_length])
  intro k hk1 hk2
  have hk : k < n := by omega
  have e1 : P[k] = P.getD k 0 := by
    simp [List.getD_eq_getElem?_getD, List.getElem?_eq_getElem hk1]
  have e2 : (swapPerm n a b)[k] = (swapPerm n a b).getD k 0 := by
    simp [List.getD_eq_getElem?_getD, List.getElem?_eq_getElem hk2]
  rw [e1, e2, swapPerm_getD n a b k hk]
  by_cases hka : k = a
  · rw [if_pos hka, hka, hPa]
  · by_cases hkb : k = b
    · rw [if_neg hka, if_pos hkb, hkb, hPb]
    · rw [if_neg hka, if_neg hkb]
      by_contra hne
      rcases hmoved k hk (fun he => hne he.symm) with h | h
      · exact hka h
      · exact hkb h

/-- C17: the match test of Rule A is sound.  If `P` is a permutation of `0 .. n-1` and the
test computed by `optimize` succeeds on `P` and `Q` (same length, `Q` element-wise equal to
`P`, exactly two positions moved), then `Q = P`, `P` is a two-axis swap, and applying `Q`
then `P` is the identity: `P[Q[k]] = k` for every `k < n`. -/
theorem ruleAMatch_sound (n : Nat) (P Q : List Nat) (hP : P.Perm (List.range n))
    (h : ruleAMatch P Q = true) :
    Q = P ∧ (∃ i j, i < j ∧ j < n ∧ P = swapPerm n i j) ∧
      ∀ k, k < n → P.getD (Q.getD k 0) 0 = k := by
  obtain ⟨hQ, hc⟩ := ruleAMatch_true P Q h
  have hlen : P.length = n := by simpa using hP.length_eq
  rw [hlen] at hc
  obtain ⟨i, j, hij, hjn, hsw⟩ := swap_of_two_moved n P hP hc
  refine ⟨hQ, ⟨i, j, hij, hjn, hsw⟩, ?_⟩
  intro k hk
  rw [hQ, hsw, swapPerm_getD n i j k hk]
  by_cases hki : k = i
  · rw [if_pos hki, swapPerm_getD n i j j hjn, hki]
    have : j ≠ i := by omega
    simp [this]
  · by_cases hkj : k = j
    · rw [if_neg hki, if_pos hkj, swapPerm_getD n i j i (by omega), hkj]
      simp
    · rw [if_neg hki, if_neg hkj, swapPerm_getD n i j k hk, if_neg hki, if_neg hkj]

theorem ruleAMatch_sound_witness :
    ([0, 2, 1] : List Nat).Perm (List.range 3) ∧ ruleAMatch [0, 2, 1] [0, 2, 1] = true ∧
      (∃ i j, i < j ∧ j < 3 ∧ ([0, 2, 1] : List Nat) = swapPerm 3 i j) ∧
      ∀ k, k < 3 → ([0, 2, 1] : List Nat).getD (([0, 2, 1] : List Nat).getD k 0) 0 = k :=
  have h := ruleAMatch_sound 3 [0, 2, 1] [0, 2, 1] (by decide) (by decide)
  ⟨by decide, by decide, h.2.1, h.2.2⟩

/-! ## Idempotence of the sort -/

theorem mem_prefix_of_precedes {pre rest : List OpId} {op a : OpId}
    (hnd : (pre ++ op :: rest).Nodup) (h : precedes (pre ++ op :: rest) a op) : a ∈ pre := by
  obtain ⟨pre2, post2, he, ha⟩ := h
  have hop : op ∉ pre := fun hx =>
    (List.nodup_append.1 hnd).2.2 hx (List.mem_cons_self _ _)
  have hop2 : op ∉ pre2 := by
    rw [he] at hnd
    exact fun hx => (List.nodup_append.1 hnd).2.2 hx (List.mem_cons_self _ _)
  have hlen : pre.length = pre2.length := by
    have h1 : (pre ++ op :: rest).indexOf op = pre.length := by
      rw [List.indexOf_append_of_not_mem hop, List.indexOf_cons_self]; rfl
    have h2 : (pre ++ op :: rest).indexOf op = pre2.length := by
      rw [he, List.indexOf_append_of_not_mem hop2, List.indexOf_cons_self]; rfl
    omega
  have := List.append_inj_left he hlen
  rw [this]
  exact ha

theorem allocRun_append {σ : Type} (A : AllocatorModel σ) :
    ∀ (l1 l2 : List Nat) (a : σ),
      allocRun A a (l1 ++ l2) =
        ((allocRun A a l1).1 ++ (allocRun A (allocRun A a l1).2 l2).1,
          (allocRun A (allocRun A a l1).2 l2).2) := by
  intro l1
  induction l1 with
  | nil => intro l2 a; simp [allocRun]
  | cons b rest ih =>
    intro l2 a
    simp [allocRun, ih]

theorem allocRun_length {σ : Type} (A : AllocatorModel σ) :
    ∀ (l : List Nat) (a : σ), (allocRun A a l).1.length = l.length := by
  intro l
  induction l with
  | nil => intro a; simp [allocRun]
  | cons b rest ih => intro a; simp [allocRun, ih]

/-- The first loop of `dataMalloc` after `k` iterations. -/
theorem allocLoop_spec {σ : Type} (A : AllocatorModel σ) (g : GraphObj) (a : σ) :
    ∀ k, k ≤ g.tensors.length →
      ((List.range k).foldl (allocStep A g)
        { offsets := List.replicate g.tensors.length 0, allocator := a, requests := [] }) =
      { offsets := (allocRun A a
            ((g.tensors.map (fun t => getBytes (g.tensorObj t))).take k)).1 ++
          List.replicate (g.tensors.length - k) 0
        allocator := (allocRun A a
            ((g.tensors.map (fun t => getBytes (g.tensorObj t))).take k)).2
        requests := (g.tensors.map (fun t => getBytes (g.tensorObj t))).take k } := by
  intro k
  induction k with
  | zero => intro _; simp [allocRun]
  | succ k ih =>
    intro hk
    have hk' : k < g.tensors.length := by omega
    rw [List.range_succ, List.foldl_append, ih (by omega), List.foldl_cons, List.foldl_nil]
    have hsz : (g.tensors.map (fun t => getBytes (g.tensorObj t))).take (k + 1) =
        (g.tensors.map (fun t => getBytes (g.tensorObj t))).take k ++
          [getBytes (g.tensorObj (g.tensors.getD k 0))] := by
      rw [List.take_succ]
      congr 1
      simp [List.getD_eq_getElem?_getD, List.getElem?_eq_getElem hk']
    have hlen : (allocRun A a
        ((g.tensors.map (fun t => getBytes (g.tensorObj t))).take k)).1.length = k := by
      rw [allocRun_length]
      simp
      omega
    have hrep : List.replicate (g.tensors.length - k) 0 =
        0 :: List.replicate (g.tensors.length - (k + 1)) 0 := by
      have : g.tensors.length - k = (g.tensors.length - (k + 1)) + 1 := by omega
      rw [this, List.replicate_succ]
    rw [hsz, allocRun_append]
    simp only [allocStep, allocRun]
    congr 1
    rw [List.set_append, hlen, if_neg (by omega), hrep]
    simp

/-- The second loop of `dataMalloc` after `k` iterations: only `data` fields change, and a
tensor listed at an index below `k` holds the blob of one of its indices. -/
theorem bindLoop_spec (hptr : Nat) (offsets : List Nat) (g : GraphObj) :
    ∀ k, k ≤ g.tensors.length →
      ((List.range k).foldl (bindStep hptr offsets g.tensors) g).ops = g.ops ∧
      ((List.range k).foldl (bindStep hptr offsets g.tensors) g).tensors = g.tensors ∧
      ((List.range k).foldl (bindStep hptr offsets g.tensors) g).sorted = g.sorted ∧
      ((List.range k).foldl (bindStep hptr offsets g.tensors) g).runtime = g.runtime ∧
      ((List.range k).foldl (bindStep hptr offsets g.tensors) g).opObj = g.opObj ∧
      ∀ t, ((∃ i, i < k ∧ g.tensors[i]? = some t ∧
            (((List.range k).foldl (bindStep hptr offsets g.tensors) g).tensorObj t).data =
              some { runtime := g.runtime, ptr := hptr + offsets.getD i 0 }) ∨
          ((∀ i, i < k → g.tensors[i]? ≠ some t) ∧
            ((List.range k).foldl (bindStep hptr offsets g.tensors) g).tensorObj t =
              g.tensorObj t)) := by
  intro k
  induction k with
  | zero =>
    intro _
    refine ⟨rfl, rfl, rfl, rfl, rfl, fun t => Or.inr ⟨fun i hi => absurd hi (by omega), rfl⟩⟩
  | succ k ih =>
    intro hk
    have hk' : k < g.tensors.length := by omega
    obtain ⟨h1, h2, h3, h4, h5, h6⟩ := ih (by omega)
    rw [List.range_succ, List.foldl_append, List.foldl_cons, List.foldl_nil]
    have hgk : g.tensors.getD k 0 = g.tensors[k] := by
      simp [List.getD_eq_getElem?_getD, List.getElem?_eq_getElem hk']
    refine ⟨h1, h2, h3, h4, h5, fun t => ?_⟩
    simp only [bindStep, setDataBlob, modifyTensor_tensorObj, modifyTensor_runtime, h4]
    by_cases ht : t = g.tensors.getD k 0
    · left
      refine ⟨k, by omega, ?_, ?_⟩
      · rw [ht, hgk, List.getElem?_eq_getElem hk']
      · rw [if_pos ht]
    · rw [if_neg ht]
      rcases h6 t with ⟨i, hi, he, hd⟩ | ⟨hn, he⟩
      · exact Or.inl ⟨i, by omega, he, hd⟩
      · right
        refine ⟨fun i hi => ?_, he⟩
        by_cases hik : i = k
        · subst hik
          rw [List.getElem?_eq_getElem hk', ← hgk]
          intro hc
          exact ht (Option.some.inj hc).symm
        · exact hn i (by omega)

/-- C11: with the allocator as an abstract state machine.  When `topo_sort` succeeds,
`dataMalloc` issues exactly one `alloc` request per tensor of the tensor list, in list order,
the `i`-th request being the `i`-th tensor's byte size, and afterwards every listed tensor
holds a storage handle whose address is the base pointer plus the offset returned for one of
that tensor's own requests (its only one when it is listed once).  When `topo_sort` fails,
`dataMalloc` aborts with no request issued, the graph and the allocator untouched. -/
theorem dataMalloc_spec {σ : Type} (A : AllocatorModel σ) (g : GraphObj) (a : σ) :
    (∀ g1, topo_sort g = some (true, g1) →
      (dataMalloc A g a).aborted = false ∧
      (dataMalloc A g a).requests = g1.tensors.map (fun t => getBytes (g1.tensorObj t)) ∧
      (dataMalloc A g a).g.tensors = g1.tensors ∧ (dataMalloc A g a).g.ops = g1.ops ∧
      ∀ t ∈ g1.tensors, ∃ i, g1.tensors[i]? = some t ∧
        (((dataMalloc A g a).g.tensorObj t).data = some
          { runtime := g1.runtime
            ptr := (A.getPtr (allocRun A a
                (g1.tensors.map (fun t => getBytes (g1.tensorObj t)))).2).1 +
              (allocRun A a (g1.tensors.map (fun t => getBytes (g1.tensorObj t)))).1.getD i 0 })) ∧
    (∀ g', topo_sort g = some (false, g') →
      (dataMalloc A g a).aborted = true ∧ (dataMalloc A g a).requests = [] ∧
      (dataMalloc A g a).g = g ∧ (dataMalloc A g a).allocator = a) := by
  refine ⟨fun g1 h => ?_, fun g' h => ?_⟩
  · have hloop := allocLoop_spec A g1 a g1.tensors.length le_rfl
    have htake : (g1.tensors.map (fun t => getBytes (g1.tensorObj t))).take g1.tensors.length =
        g1.tensors.map (fun t => getBytes (g1.tensorObj t)) := by
      apply List.take_of_length_le
      simp
    rw [htake] at hloop
    simp only [Nat.sub_self, List.replicate_zero, List.append_nil] at hloop
    unfold dataMalloc
    rw [h]
    simp only [hloop]
    obtain ⟨h1, h2, _, _, _, h6⟩ := bindLoop_spec
      (A.getPtr (allocRun A a (g1.tensors.map (fun t => getBytes (g1.tensorObj t)))).2).1
      (allocRun A a (g1.tensors.map (fun t => getBytes (g1.tensorObj t)))).1 g1
      g1.tensors.length le_rfl
    refine ⟨trivial, trivial, h2, h1, fun t ht => ?_⟩
    rcases h6 t with ⟨i, _, he, hd⟩ | ⟨hn, _⟩
    · exact ⟨i, he, hd⟩
    · exfalso
      obtain ⟨i, hi, hget⟩ := List.getElem_of_mem ht
      exact hn i hi (by rw [List.getElem?_eq_getElem hi, hget])
  · unfold dataMalloc
    rw [h]
    exact ⟨rfl, rfl, rfl, rfl⟩

theorem dataMalloc_spec_witness :
    topo_sort pairGraph = some (true, { pairGraph with sorted := true }) ∧
      (dataMalloc bumpAllocator pairGraph 0).aborted = false ∧
      (dataMalloc bumpAllocator pairGraph 0).requests = [4, 4, 4] ∧
      (((dataMalloc bumpAllocator pairGraph 0).g.tensorObj 1).data =
        some { runtime := 0, ptr := 1004 }) ∧
      (dataMalloc bumpAllocator loopGraph 0).aborted = true ∧
      (dataMalloc bumpAllocator loopGraph 0).requests = [] := by
  have h := (dataMalloc_spec bumpAllocator pairGraph 0).1 { pairGraph with sorted := true } rfl
  have h2 := (dataMalloc_spec bumpAllocator loopGraph 0).2 loopGraph rfl
  exact ⟨rfl, h.1, by rw [h.2.1]; decide, by decide, h2.1, h2.2.1⟩

/-! ## Shape propagation -/

theorem inferShapes_congr (other : OperatorObj → List Shape → Option (List Shape))
    (r r' : OperatorObj) (ins : List Shape) (ht : r'.type = r.type) (hA : r'.transA = r.transA)
    (hB : r'.transB = r.transB) (ho : r.type ≠ OpType.MatMul → r' = r) :
    inferShapes other r' ins = inferShapes other r ins := by
  unfold inferShapes
  by_cases hm : r.type = OpType.MatMul
  · rw [if_pos hm, if_pos (ht.trans hm), hA, hB]
  · rw [ho hm]

theorem inferRecord_fields (r : OperatorObj) (ins : List Shape) :
    (inferRecord r ins).type = r.type ∧ (inferRecord r ins).inputs = r.inputs ∧
      (inferRecord r ins).outputs = r.outputs ∧ (inferRecord r ins).transA = r.transA ∧
      (inferRecord r ins).transB = r.transB ∧
      (r.type ≠ OpType.MatMul → inferRecord r ins = r) := by
  unfold inferRecord
  by_cases hm : r.type = OpType.MatMul
  · rw [if_pos hm]
    refine ⟨?_, ?_, ?_, ?_, ?_, fun h => absurd hm h⟩ <;> split <;> rfl
  · rw [if_neg hm]
    exact ⟨rfl, rfl, rfl, rfl, rfl, fun _ => rfl⟩

theorem inferRecord_twice (r : OperatorObj) (ins : List Shape) :
    inferRecord (inferRecord r ins) ins = inferRecord r ins := by
  by_cases hm : r.type = OpType.MatMul
  · match ins with
    | [] => simp [inferRecord, hm]
    | [_] => simp [inferRecord, hm]
    | A :: B :: rest => simp [inferRecord, hm]
  · rw [(inferRecord_fields r ins).2.2.2.2.2 hm, (inferRecord_fields r ins).2.2.2.2.2 hm]

theorem modifyOp_self (g : GraphObj) (o : OpId) (f : OperatorObj → OperatorObj)
    (h : f (g.opObj o) = g.opObj o) : g.modifyOp o f = g := by
  have e : heapSet g.opObj o (f (g.opObj o)) = g.opObj := by
    funext j
    unfold heapSet
    split_ifs with hj
    · rw [h, hj]
    · rfl
  unfold modifyOp
  rw [e]

theorem find_fuid (f : TensorId → Nat) :
    ∀ (l : List TensorId) (t : TensorId), (l.map f).Nodup → t ∈ l →
      l.find? (fun x => decide (f x = f t)) = some t := by
  intro l
  induction l with
  | nil => intro t _ ht; simp at ht
  | cons x rest ih =>
    intro t hnd ht
    rw [List.map_cons, List.nodup_cons] at hnd
    rw [List.mem_cons] at ht
    by_cases hx : x = t
    · subst hx
      simp
    · have hne : f x ≠ f t := by
        intro he
        apply hnd.1
        rw [he]
        exact List.mem_map_of_mem f (ht.resolve_left (fun h => hx h.symm))
      rw [List.find?_cons_of_neg _ (by simpa using hne)]
      exact ih t hnd.2 (ht.resolve_left (fun h => hx h.symm))

theorem getTensor_of_listed (h : GraphObj) (t : TensorId)
    (hnd : (h.tensors.map (fun t => (h.tensorObj t).fuid)).Nodup) (ht : t ∈ h.tensors) :
    getTensor h (h.tensorObj t).fuid = some t :=
  find_fuid (fun t => (h.tensorObj t).fuid) h.tensors t hnd ht

theorem shapesOf_congr (h h' : GraphObj) (ts : List TensorId)
    (he : ∀ t ∈ ts, h'.tensorObj t = h.tensorObj t) : shapesOf h' ts = shapesOf h ts := by
  unfold shapesOf
  apply List.map_congr_left
  intro t ht
  rw [he t ht]

/-- The inner loop of `shape_infer` on distinct listed outputs: it does not abort, every
output ends with its new shape, and nothing else changes. -/
theorem shapeInferOutputs_spec :
    ∀ (pairs : List (Shape × TensorId)) (h : GraphObj),
      (h.tensors.map (fun t => (h.tensorObj t).fuid)).Nodup →
      (∀ p ∈ pairs, p.2 ∈ h.tensors) → (pairs.map Prod.snd).Nodup →
      ∃ h', shapeInferOutputs h pairs = some h' ∧ h'.ops = h.ops ∧ h'.tensors = h.tensors ∧
        h'.opObj = h.opObj ∧ (∀ t, (h'.tensorObj t).fuid = (h.tensorObj t).fuid) ∧
        (∀ p ∈ pairs, (h'.tensorObj p.2).dims = p.1) ∧
        (∀ t, t ∉ pairs.map Prod.snd → h'.tensorObj t = h.tensorObj t) := by
  intro pairs
  induction pairs with
  | nil =>
    intro h _ _ _
    exact ⟨h, rfl, rfl, rfl, rfl, fun _ => rfl, fun p hp => absurd hp (List.not_mem_nil p),
      fun _ _ => rfl⟩
  | cons p rest ih =>
    intro h hfu hl hnd
    obtain ⟨s, t⟩ := p
    rw [List.map_cons, List.nodup_cons] at hnd
    have ht : t ∈ h.tensors := hl (s, t) (List.mem_cons_self _ _)
    have hrest : ∀ p ∈ rest, p.2 ∈ h.tensors := fun p hp => hl p (List.mem_cons_of_mem _ hp)
    by_cases hs : s = (h.tensorObj t).dims
    · obtain ⟨h', e, h1, h2, h3, h4, h5, h6⟩ := ih h hfu hrest hnd.2
      refine ⟨h', ?_, h1, h2, h3, h4, ?_, ?_⟩
      · rw [shapeInferOutputs, if_neg (by simpa using hs)]
        exact e
      · intro p hp
        rw [List.mem_cons] at hp
        rcases hp with rfl | hp
        · show (h'.tensorObj t).dims = s
          rw [h6 t hnd.1, hs]
        · exact h5 p hp
      · intro u hu
        exact h6 u (fun hc => hu (List.mem_cons_of_mem _ hc))
    · have hfu' : ((h.setShape t s).tensors.map
          (fun u => ((h.setShape t s).tensorObj u).fuid)).Nodup := by
        have : (fun u => ((h.setShape t s).tensorObj u).fuid) =
            (fun u => (h.tensorObj u).fuid) := by
          funext u
          simp only [setShape, modifyTensor_tensorObj]
          split_ifs with hu
          · rw [hu]
          · rfl
        rw [this]
        exact hfu
      obtain ⟨h', e, h1, h2, h3, h4, h5, h6⟩ := ih (h.setShape t s) hfu' hrest hnd.2
      refine ⟨h', ?_, h1, h2, h3, ?_, ?_, ?_⟩
      · rw [shapeInferOutputs, if_pos hs, getTensor_of_listed h t hfu ht]
        exact e
      · intro u
        rw [h4 u]
        simp only [setShape, modifyTensor_tensorObj]
        split_ifs with hu
        · rw [hu]
        · rfl
      · intro p hp
        rw [List.mem_cons] at hp
        rcases hp with rfl | hp
        · show (h'.tensorObj t).dims = s
          rw [h6 t hnd.1]
          simp [setShape]
        · exact h5 p hp
      · intro u hu
        rw [h6 u (fun hc => hu (List.mem_cons_of_mem _ hc))]
        have hut : u ≠ t := fun hc => hu (by rw [hc]; exact List.mem_cons_self _ _)
        simp [setShape, hut]

/-- The inner loop of `shape_infer` changes nothing when every output already has its new
shape. -/
theorem shapeInferOutputs_fixed :
    ∀ (pairs : List (Shape × TensorId)) (h : GraphObj),
      (∀ p ∈ pairs, (h.tensorObj p.2).dims = p.1) → shapeInferOutputs h pairs = some h := by
  intro pairs
  induction pairs with
  | nil => intro h _; rfl
  | cons p rest ih =>
    intro h hp
    obtain ⟨s, t⟩ := p
    rw [shapeInferOutputs, if_neg (by simpa using (hp (s, t) (List.mem_cons_self _ _)).symm)]
    exact ih h (fun q hq => hp q (List.mem_cons_of_mem _ hq))

theorem zip_map_self {α β : Type} (f : β → α) :
    ∀ (l : List β) (p : α × β), p ∈ (l.map f).zip l → f p.2 = p.1 := by
  intro l
  induction l with
  | nil => intro p hp; simp at hp
  | cons x rest ih =>
    intro p hp
    simp only [List.map_cons, List.zip_cons_cons, List.mem_cons] at hp
    rcases hp with rfl | hp
    · rfl
    · exact ih p hp

theorem map_eq_of_zip {α β : Type} (f : β → α) :
    ∀ (a : List α) (b : List β), a.length = b.length → (∀ p ∈ a.zip b, f p.2 = p.1) →
      b.map f = a := by
  intro a
  induction a with
  | nil =>
    intro b hl _
    have : b = [] := List.length_eq_zero.1 (by simpa using hl.symm)
    rw [this]
    rfl
  | cons x rest ih =>
    intro b hl hp
    cases b with
    | nil => simp at hl
    | cons y rest' =>
      simp only [List.length_cons, Nat.add_right_cancel_iff] at hl
      rw [List.map_cons, ih rest' hl (fun p hq => hp p (by
        rw [List.zip_cons_cons]; exact List.mem_cons_of_mem _ hq))]
      have := hp (x, y) (by rw [List.zip_cons_cons]; exact List.mem_cons_self _ _)
      simp only at this
      rw [this]

theorem shapeFrame_refl (g : GraphObj) : ShapeFrame g g :=
  ⟨rfl, rfl, fun _ => rfl, fun _ => rfl, fun _ => rfl, fun _ => rfl, fun _ => rfl,
    fun _ => rfl, fun _ _ => rfl⟩

theorem shapeInferOp_fixed (other : OperatorObj → List Shape → Option (List Shape))
    (h : GraphObj) (o : OpId) (hc : InferConsistent other h o) :
    shapeInferOp other h o = some h := by
  obtain ⟨h1, h2⟩ := hc
  unfold shapeInferOp inferShape
  rw [h1, modifyOp_self h o (fun r => inferRecord r (shapesOf h (h.opObj o).inputs)) h2]
  simp only
  rw [if_pos (by simp [shapesOf])]
  exact shapeInferOutputs_fixed _ h (fun p hp => zip_map_self _ _ p hp)

/-- One iteration of the loop of `shape_infer` on a listed operator `o` whose `inferShape`
returns `outs`, one shape per output: the iteration does not abort, records `outs` on the
outputs of `o` and touches no other tensor and no other operator. -/
theorem shapeInferOp_spec (other : OperatorObj → List Shape → Option (List Shape))
    (g h : GraphObj) (o : OpId) (hf : ShapeFrame g h) (hv : Valid g)
    (hpc : ProducerConsistent g) (ho : o ∈ g.ops) (outs : List Shape)
    (hinf : inferShapes other (h.opObj o) (shapesOf h (h.opObj o).inputs) = some outs)
    (hlen : outs.length = (h.opObj o).outputs.length) :
    ∃ h', shapeInferOp other h o = some h' ∧ ShapeFrame g h' ∧
      h'.opObj o = inferRecord (h.opObj o) (shapesOf h (h.opObj o).inputs) ∧
      (∀ o', o' ≠ o → h'.opObj o' = h.opObj o') ∧
      shapesOf h' (g.opObj o).outputs = outs ∧
      (∀ t, t ∉ (g.opObj o).outputs → h'.tensorObj t = h.tensorObj t) := by
  rw [hf.outputs o] at hlen
  obtain ⟨r1, r2, r3, r4, r5, r6⟩ :=
    inferRecord_fields (h.opObj o) (shapesOf h (h.opObj o).inputs)
  have hout1 : ((h.modifyOp o (fun r => inferRecord r (shapesOf h (h.opObj o).inputs))).opObj
      o).outputs = (g.opObj o).outputs := by
    simp only [modifyOp_opObj, if_true]
    rw [r3, hf.outputs]
  have hfu : ((h.modifyOp o (fun r => inferRecord r (shapesOf h (h.opObj o).inputs))).tensors.map
      (fun t => ((h.modifyOp o
        (fun r => inferRecord r (shapesOf h (h.opObj o).inputs))).tensorObj t).fuid)).Nodup := by
    simp only [modifyOp_tensors, modifyOp_tensorObj, hf.tensors, hf.fuid]
    exact hv.fuids
  have hzip : ((outs.zip (g.opObj o).outputs).map Prod.snd) = (g.opObj o).outputs :=
    List.map_snd_zip _ _ (by omega)
  obtain ⟨h', e, q1, q2, q3, q4, q5, q6⟩ := shapeInferOutputs_spec
    (outs.zip (g.opObj o).outputs)
    (h.modifyOp o (fun r => inferRecord r (shapesOf h (h.opObj o).inputs))) hfu
    (by
      intro p hp
      simp only [modifyOp_tensors, hf.tensors]
      exact (hv.opTensors o ho).2 p.2 (by
        rw [← hzip]
        exact List.mem_map_of_mem Prod.snd hp))
    (by rw [hzip]; exact (hpc o ho).1)
  have hopo : h'.opObj o = inferRecord (h.opObj o) (shapesOf h (h.opObj o).inputs) := by
    rw [q3]
    simp
  have hopo' : ∀ o', o' ≠ o → h'.opObj o' = h.opObj o' := by
    intro o' hne
    rw [q3]
    simp [hne]
  refine ⟨h', ?_, ?_, hopo, hopo', ?_, ?_⟩
  · unfold shapeInferOp inferShape
    rw [hinf]
    simp only
    rw [hout1, if_pos hlen]
    exact e
  · refine ⟨?_, ?_, ?_, ?_, ?_, ?_, ?_, ?_, ?_⟩
    · rw [q1]; exact hf.ops
    · rw [q2]; exact hf.tensors
    · intro t; rw [q4 t]; exact hf.fuid t
    · intro o'
      by_cases hne : o' = o
      · rw [hne, hopo, r1]; exact hf.type o
      · rw [hopo' o' hne]; exact hf.type o'
    · intro o'
      by_cases hne : o' = o
      · rw [hne, hopo, r2]; exact hf.inputs o
      · rw [hopo' o' hne]; exact hf.inputs o'
    · intro o'
      by_cases hne : o' = o
      · rw [hne, hopo, r3]; exact hf.outputs o
      · rw [hopo' o' hne]; exact hf.outputs o'
    · intro o'
      by_cases hne : o' = o
      · rw [hne, hopo, r4]; exact hf.transA o
      · rw [hopo' o' hne]; exact hf.transA o'
    · intro o'
      by_cases hne : o' = o
      · rw [hne, hopo, r5]; exact hf.transB o
      · rw [hopo' o' hne]; exact hf.transB o'
    · intro o' hm
      by_cases hne : o' = o
      · rw [hne, hopo, r6 (by rw [hf.type o]; exact hne ▸ hm)]
        exact hf.other o (hne ▸ hm)
      · rw [hopo' o' hne]; exact hf.other o' hm
  · exact map_eq_of_zip (fun t => (h'.tensorObj t).dims) outs (g.opObj o).outputs hlen q5
  · intro t ht
    rw [q6 t (by rw [hzip]; exact ht)]
    rfl

/-- An iteration that does not abort had a successful `inferShape` with one shape per
output. -/
theorem shapeInferOp_some (other : OperatorObj → List Shape → Option (List Shape))
    (h h' : GraphObj) (o : OpId) (hs : shapeInferOp other h o = some h') :
    ∃ outs, inferShapes other (h.opObj o) (shapesOf h (h.opObj o).inputs) = some outs ∧
      outs.length = (h.opObj o).outputs.length := by
  unfold shapeInferOp inferShape at hs
  cases hi : inferShapes other (h.opObj o) (shapesOf h (h.opObj o).inputs) with
  | none => rw [hi] at hs; simp at hs
  | some outs =>
    rw [hi] at hs
    simp only at hs
    refine ⟨outs, rfl, ?_⟩
    by_contra hne
    have e : ((h.modifyOp o (fun r => inferRecord r (shapesOf h (h.opObj o).inputs))).opObj
        o).outputs = (h.opObj o).outputs := by
      simp only [modifyOp_opObj, if_true]
      exact (inferRecord_fields _ _).2.2.1
    rw [e, if_neg hne] at hs
    exact Option.noConfusion hs

/-- Under `InferSucceeds` the `inferShape` of a listed operator succeeds in every graph that
`shape_infer` can reach. -/
theorem inferSucceeds_at (other : OperatorObj → List Shape → Option (List Shape))
    (g h : GraphObj) (o : OpId) (hf : ShapeFrame g h) (hok : InferSucceeds other g)
    (ho : o ∈ g.ops) :
    ∃ outs, inferShapes other (h.opObj o) (shapesOf h (h.opObj o).inputs) = some outs ∧
      outs.length = (h.opObj o).outputs.length := by
  obtain ⟨outs, hinf, hlen⟩ := hok o ho (shapesOf h (h.opObj o).inputs)
    (by simp [shapesOf, hf.inputs o])
  refine ⟨outs, ?_, by rw [hf.outputs o]; exact hlen⟩
  rw [inferShapes_congr other (g.opObj o) (h.opObj o) _ (hf.type o) (hf.transA o)
    (hf.transB o) (hf.other o)]
  exact hinf

/-- In a duplicate-free list an operator does not come before anything listed up to its own
position. -/
theorem not_precedes_later {done rest : List OpId} {o o' : OpId}
    (hnd : (done ++ o :: rest).Nodup) (ho' : o' ∈ done ++ [o]) :
    ¬ precedes (done ++ o :: rest) o o' := by
  intro hp
  have hod : o ∉ done := fun hx => (List.nodup_append.1 hnd).2.2 hx (List.mem_cons_self _ _)
  rcases List.mem_append.1 ho' with hd | hd
  · obtain ⟨p1, p2, rfl⟩ := List.append_of_mem hd
    have hnd2 : (p1 ++ o' :: (p2 ++ o :: rest)).Nodup := by simpa using hnd
    have hp2 : precedes (p1 ++ o' :: (p2 ++ o :: rest)) o o' := by simpa using hp
    have := mem_prefix_of_precedes hnd2 hp2
    exact hod (List.mem_append_left _ this)
  · rw [List.mem_singleton] at hd
    subst hd
    exact hod (mem_prefix_of_precedes hnd hp)

/-- The invariant of `shape_infer` is kept by one iteration whose `inferShape` succeeds. -/
theorem inferInv_step (other : OperatorObj → List Shape → Option (List Shape))
    (g : GraphObj) (hv : Valid g) (hnd : g.ops.Nodup) (hord : TopoOrdered g g.ops)
    (hpc : ProducerConsistent g) (done rest : List OpId) (o : OpId)
    (hops : g.ops = done ++ o :: rest) (h : GraphObj) (hinv : InferInv other g done h)
    (outs : List Shape)
    (hinf : inferShapes other (h.opObj o) (shapesOf h (h.opObj o).inputs) = some outs)
    (hlen : outs.length = (h.opObj o).outputs.length) :
    ∃ h', shapeInferOp other h o = some h' ∧ InferInv other g (done ++ [o]) h' := by
  have ho : o ∈ g.ops := by rw [hops]; simp
  have hdone : ∀ o' ∈ done, o' ∈ g.ops := fun o' hd => by
    rw [hops]; exact List.mem_append_left _ hd
  have hnd' : (done ++ o :: rest).Nodup := hops ▸ hnd
  have hod : o ∉ done := fun hx => (List.nodup_append.1 hnd').2.2 hx (List.mem_cons_self _ _)
  obtain ⟨h', hs, hf', hopo, hopo', houts, hkeep⟩ :=
    shapeInferOp_spec other g h o hinv.frame hv hpc ho outs hinf hlen
  -- no operator processed so far, `o` included, reads an output of `o`
  have hD1 : ∀ o' ∈ done ++ [o], ∀ t ∈ (g.opObj o').inputs, t ∉ (g.opObj o).outputs := by
    intro o' ho' t ht hto
    have ho'g : o' ∈ g.ops := by
      rcases List.mem_append.1 ho' with hd | hd
      · exact hdone o' hd
      · rw [List.mem_singleton] at hd; rw [hd]; exact ho
    have hp := hord o' ho'g t ht o ((hpc o ho).2 t hto)
    rw [hops] at hp
    exact not_precedes_later hnd' ho' hp
  -- no operator processed before `o` writes an output of `o`
  have hD2 : ∀ o' ∈ done, ∀ t ∈ (g.opObj o').outputs, t ∉ (g.opObj o).outputs := by
    intro o' ho' t ht hto
    have e1 := (hpc o' (hdone o' ho')).2 t ht
    have e2 := (hpc o ho).2 t hto
    rw [e1] at e2
    exact hod (Option.some.inj e2 ▸ ho')
  have hins : ∀ o' ∈ done ++ [o], shapesOf h' (h'.opObj o').inputs =
      shapesOf h (h.opObj o').inputs := by
    intro o' ho'
    rw [hf'.inputs o', hinv.frame.inputs o']
    exact shapesOf_congr h h' _ (fun t ht => hkeep t (hD1 o' ho' t ht))
  refine ⟨h', hs, hf', ?_, ?_⟩
  · intro o' ho'
    rcases List.mem_append.1 ho' with hd | hd
    · have hne : o' ≠ o := fun e => hod (e ▸ hd)
      obtain ⟨c1, c2⟩ := hinv.consistent o' hd
      have houts' : shapesOf h' (h'.opObj o').outputs = shapesOf h (h.opObj o').outputs := by
        rw [hf'.outputs o', hinv.frame.outputs o']
        exact shapesOf_congr h h' _ (fun t ht => hkeep t (hD2 o' hd t ht))
      unfold InferConsistent
      rw [hins o' ho', houts', hopo' o' hne]
      exact ⟨c1, c2⟩
    · rw [List.mem_singleton] at hd
      subst hd
      obtain ⟨r1, r2, r3, r4, r5, r6⟩ :=
        inferRecord_fields (h.opObj o') (shapesOf h (h.opObj o').inputs)
      unfold InferConsistent
      rw [hins o' ho', hf'.outputs o', houts, hopo]
      refine ⟨?_, inferRecord_twice _ _⟩
      rw [inferShapes_congr other (h.opObj o') _ _ r1 r4 r5 r6]
      exact hinf
  · intro t ht
    rw [hkeep t (ht o (by simp))]
    exact hinv.untouched t (fun o' ho' => ht o' (List.mem_append_left _ ho'))

/-- The loop of `shape_infer` does not abort when every `inferShape` succeeds. -/
theorem shape_infer_loop_returns (other : OperatorObj → List Shape → Option (List Shape))
    (g : GraphObj) (hv : Valid g) (hnd : g.ops.Nodup) (hord : TopoOrdered g g.ops)
    (hpc : ProducerConsistent g) (hok : InferSucceeds other g) :
    ∀ (rest done : List OpId) (h : GraphObj), g.ops = done ++ rest → InferInv other g done h →
      ∃ h', rest.foldlM (shapeInferOp other) h = some h' := by
  intro rest
  induction rest with
  | nil => intro done h _ _; exact ⟨h, rfl⟩
  | cons o rest ih =>
    intro done h hops hinv
    have ho : o ∈ g.ops := by rw [hops]; simp
    obtain ⟨outs, hinf, hlen⟩ := inferSucceeds_at other g h o hinv.frame hok ho
    obtain ⟨h1, hs, hinv1⟩ :=
      inferInv_step other g hv hnd hord hpc done rest o hops h hinv outs hinf hlen
    obtain ⟨h', hr⟩ := ih (done ++ [o]) h1 (by rw [hops]; simp) hinv1
    refine ⟨h', ?_⟩
    rw [List.foldlM_cons, hs]
    exact hr

/-- When the loop of `shape_infer` returns, the invariant holds of the whole list. -/
theorem shape_infer_loop_inv (other : OperatorObj → List Shape → Option (List Shape))
    (g : GraphObj) (hv : Valid g) (hnd : g.ops.Nodup) (hord : TopoOrdered g g.ops)
    (hpc : ProducerConsistent g) :
    ∀ (rest done : List OpId) (h h' : GraphObj), g.ops = done ++ rest →
      InferInv other g done h → rest.foldlM (shapeInferOp other) h = some h' →
      InferInv other g g.ops h' := by
  intro rest
  induction rest with
  | nil =>
    intro done h h' hops hinv hr
    have e : h' = h := (Option.some.inj hr).symm
    have e2 : g.ops = done := by simpa using hops
    rw [e, e2]
    exact hinv
  | cons o rest ih =>
    intro done h h' hops hinv hr
    rw [List.foldlM_cons] at hr
    cases hs : shapeInferOp other h o with
    | none => rw [hs] at hr; exact Option.noConfusion hr
    | some h1 =>
      rw [hs] at hr
      obtain ⟨outs, hinf, hlen⟩ := shapeInferOp_some other h h1 o hs
      obtain ⟨h1', hs', hinv1⟩ :=
        inferInv_step other g hv hnd hord hpc done rest o hops h hinv outs hinf hlen
      have e : h1' = h1 := Option.some.inj (hs'.symm.trans hs)
      rw [e] at hinv1
      exact ih (done ++ [o]) h1 h' (by rw [hops]; simp) hinv1 hr

theorem inferInv_init (other : OperatorObj → List Shape → Option (List Shape))
    (g : GraphObj) : InferInv other g [] g :=
  ⟨shapeFrame_refl g, fun _ ho => absurd ho (List.not_mem_nil _), fun _ _ => rfl⟩

/-- The `inferShape` of a MatMul with two inputs returns one shape. -/
theorem inferShapes_matmul (other : OperatorObj → List Shape → Option (List Shape))
    (r : OperatorObj) (ins : List Shape) (ht : r.type = OpType.MatMul) (hl : ins.length = 2) :
    ∃ outs, inferShapes other r ins = some outs ∧ outs.length = 1 := by
  match ins, hl with
  | [A, B], _ =>
    unfold inferShapes
    rw [if_pos ht]
    exact ⟨_, rfl, rfl⟩

/-- C19, amended: let `g` pass `checkValid`, let its operator list be duplicate-free and in
topological order, and let every output tensor of a listed operator have that operator as
its source, no operator listing an output twice.  If every `inferShape` succeeds,
`shape_infer` returns; and whenever it returns, in the graph it leaves the `inferShape` of
every listed operator, on the final shapes of its inputs, returns the recorded shapes of its
outputs, every tensor that is not an output of a listed operator is as before, and a second
`shape_infer` returns the same graph.  (The claim as worded asks only for validity, which
admits two operators writing one tensor.) -/
theorem shape_infer_consistent (other : OperatorObj → List Shape → Option (List Shape))
    (g : GraphObj) (hv : checkValid g = some true) (hnd : g.ops.Nodup)
    (hord : TopoOrdered g g.ops) (hpc : ProducerConsistent g) :
    (InferSucceeds other g → ∃ g', shape_infer other g = some g') ∧
    ∀ g', shape_infer other g = some g' →
      (∀ o ∈ g.ops, inferShapes other (g'.opObj o) (shapesOf g' (g'.opObj o).inputs) =
        some (shapesOf g' (g'.opObj o).outputs)) ∧
      (∀ t, (∀ o ∈ g.ops, t ∉ (g.opObj o).outputs) → g'.tensorObj t = g.tensorObj t) ∧
      shape_infer other g' = some g' := by
  have hval : Valid g := (checkValid_eq_some_true g).1 hv
  refine ⟨fun hok => shape_infer_loop_returns other g hval hnd hord hpc hok g.ops [] g rfl
    (inferInv_init other g), ?_⟩
  intro g' hs
  have hinv : InferInv other g g.ops g' :=
    shape_infer_loop_inv other g hval hnd hord hpc g.ops [] g g' rfl (inferInv_init other g) hs
  refine ⟨fun o ho => (hinv.consistent o ho).1, hinv.untouched, ?_⟩
  unfold shape_infer
  rw [hinv.frame.ops]
  have hfix : ∀ o ∈ g.ops, shapeInferOp other g' o = some g' := fun o ho =>
    shapeInferOp_fixed other g' o (hinv.consistent o ho)
  have : ∀ l : List OpId, (∀ o ∈ l, o ∈ g.ops) → l.foldlM (shapeInferOp other) g' = some g' := by
    intro l
    induction l with
    | nil => intro _; rfl
    | cons o rest ih =>
      intro hl
      rw [List.foldlM_cons, hfix o (hl o (List.mem_cons_self _ _))]
      exact ih (fun o' ho' => hl o' (List.mem_cons_of_mem _ ho'))
  exact this g.ops (fun _ ho => ho)

theorem shape_infer_consistent_witness :
    checkValid matmulChainGraph = some true ∧ matmulChainGraph.ops = [0, 1] ∧
      ((matmulChainGraph.tensorObj 2).dims, (matmulChainGraph.tensorObj 4).dims) =
        ([1], [7, 7]) ∧
      ∃ g', shape_infer (fun _ _ => none) matmulChainGraph = some g' ∧
        (∀ o ∈ matmulChainGraph.ops,
          inferShapes (fun _ _ => none) (g'.opObj o) (shapesOf g' (g'.opObj o).inputs) =
            some (shapesOf g' (g'.opObj o).outputs)) ∧
        ((g'.tensorObj 2).dims, (g'.tensorObj 4).dims) = ([2, 4], [2, 5]) ∧
        (g'.tensorObj 0, g'.tensorObj 1, g'.tensorObj 3) =
          (matmulChainGraph.tensorObj 0, matmulChainGraph.tensorObj 1,
            matmulChainGraph.tensorObj 3) ∧
        shape_infer (fun _ _ => none) g' = some g' := by
  have hv : checkValid matmulChainGraph = some true := by decide
  have hops : matmulChainGraph.ops = [0, 1] := by decide
  have hnd : matmulChainGraph.ops.Nodup := by decide
  have hpc : ProducerConsistent matmulChainGraph := by unfold ProducerConsistent; decide
  have hord : TopoOrdered matmulChainGraph matmulChainGraph.ops := by
    intro op hop t ht a ha
    rw [hops] at hop ⊢
    have h0 : ∀ t ∈ (matmulChainGraph.opObj 0).inputs,
        (matmulChainGraph.tensorObj t).source = none := by decide
    have h1 : ∀ t ∈ (matmulChainGraph.opObj 1).inputs, ∀ a,
        (matmulChainGraph.tensorObj t).source = some a → a = 0 := by decide
    rcases List.mem_cons.1 hop with rfl | hop
    · rw [h0 t ht] at ha
      exact Option.noConfusion ha
    · rw [List.mem_singleton] at hop
      subst hop
      rw [h1 t ht a ha]
      exact ⟨[0], [], rfl, List.mem_cons_self _ _⟩
  have hok : InferSucceeds (fun _ _ => none) matmulChainGraph := by
    intro o ho ins hl
    have hk : ∀ o ∈ matmulChainGraph.ops, (matmulChainGraph.opObj o).type = OpType.MatMul ∧
        (matmulChainGraph.opObj o).inputs.length = 2 ∧
        (matmulChainGraph.opObj o).outputs.length = 1 := by decide
    obtain ⟨k1, k2, k3⟩ := hk o ho
    rw [k3]
    exact inferShapes_matmul _ _ ins k1 (hl.trans k2)
  obtain ⟨hret, hspec⟩ :=
    shape_infer_consistent (fun _ _ => none) matmulChainGraph hv hnd hord hpc
  obtain ⟨g', hs⟩ := hret hok
  obtain ⟨h1, h2, h3⟩ := hspec g' hs
  have hd : (shape_infer (fun _ _ => none) matmulChainGraph).map
      (fun g => ((g.tensorObj 2).dims, (g.tensorObj 4).dims)) = some ([2, 4], [2, 5]) := by
    decide
  rw [hs] at hd
  have hu : ∀ t ∈ [0, 1, 3], ∀ o ∈ matmulChainGraph.ops,
      t ∉ (matmulChainGraph.opObj o).outputs := by decide
  refine ⟨hv, hops, by decide, g', hs, h1, Option.some.inj hd, ?_, h3⟩
  rw [h2 0 (hu 0 (by decide)), h2 1 (hu 1 (by decide)), h2 3 (hu 3 (by decide))]

/-- The claim as worded fails on `twoProducerGraph`: the graph passes `checkValid`, its
operator list `[0, 1]` is duplicate-free and in topological order (no input tensor has a
source) and every `inferShape` succeeds; `shape_infer` returns, and afterwards the output
tensor `3` of operator `0` has the shape `[5, 4]` written by operator `1`, while the
`inferShape` of operator `0` on the final shapes of its inputs returns `[2, 4]`. -/
theorem shape_infer_two_producers :
    checkValid twoProducerGraph = some true ∧ twoProducerGraph.ops = [0, 1] ∧
      twoProducerGraph.ops.Nodup ∧ TopoOrdered twoProducerGraph twoProducerGraph.ops ∧
      InferSucceeds (fun _ _ => none) twoProducerGraph ∧
      ∃ g', shape_infer (fun _ _ => none) twoProducerGraph = some g' ∧
        (g'.opObj 0).outputs = [3] ∧ shapesOf g' (g'.opObj 0).outputs = [[5, 4]] ∧
        inferShapes (fun _ _ => none) (g'.opObj 0) (shapesOf g' (g'.opObj 0).inputs) =
          some [[2, 4]] := by
  have hops : twoProducerGraph.ops = [0, 1] := by decide
  refine ⟨by decide, hops, by decide, ?_, ?_, ?_⟩
  · intro op hop t ht a ha
    have h0 : ∀ op ∈ twoProducerGraph.ops, ∀ t ∈ (twoProducerGraph.opObj op).inputs,
        (twoProducerGraph.tensorObj t).source = none := by decide
    rw [h0 op hop t ht] at ha
    exact Option.noConfusion ha
  · intro o ho ins hl
    have hk : ∀ o ∈ twoProducerGraph.ops, (twoProducerGraph.opObj o).type = OpType.MatMul ∧
        (twoProducerGraph.opObj o).inputs.length = 2 ∧
        (twoProducerGraph.opObj o).outputs.length = 1 := by decide
    obtain ⟨k1, k2, k3⟩ := hk o ho
    rw [k3]
    exact inferShapes_matmul _ _ ins k1 (hl.trans k2)
  · have hd : (shape_infer (fun _ _ => none) twoProducerGraph).map
        (fun g => ((g.opObj 0).outputs, shapesOf g (g.opObj 0).outputs,
          inferShapes (fun _ _ => none) (g.opObj 0) (shapesOf g (g.opObj 0).inputs))) =
        some ([3], [[5, 4]], some [[2, 4]]) := by decide
    cases hs : shape_infer (fun _ _ => none) twoProducerGraph with
    | none => rw [hs] at hd; exact Option.noConfusion hd
    | some g' =>
      rw [hs] at hd
      have e := Option.some.inj hd
      simp only [Prod.mk.injEq] at e
      exact ⟨g', rfl, e.1, e.2.1, e.2.2⟩

/-! ## The effect of the two rewrite rules, field by field -/

theorem foldl_setAdd_mem (xs : List Nat) :
    ∀ (l : List Nat) (y : Nat), y ∈ xs.foldl (fun l b => setAdd b l) l ↔ y ∈ l ∨ y ∈ xs := by
  induction xs with
  | nil => intro l y; simp
  | cons x rest ih =>
    intro l y
    rw [List.foldl_cons, ih, mem_setAdd, List.mem_cons]
    tauto

/-- The graph after `acc.modifyOp o F` has been applied for every `o` of a list. -/
theorem foldl_modifyOp_spec (F : OperatorObj → OperatorObj) :
    ∀ (L : List OpId) (g : GraphObj),
      (L.foldl (fun acc o => acc.modifyOp o F) g).tensorObj = g.tensorObj ∧
      (L.foldl (fun acc o => acc.modifyOp o F) g).ops = g.ops ∧
      (L.foldl (fun acc o => acc.modifyOp o F) g).tensors = g.tensors ∧
      (L.foldl (fun acc o => acc.modifyOp o F) g).sorted = g.sorted ∧
      (L.foldl (fun acc o => acc.modifyOp o F) g).runtime = g.runtime ∧
      ∀ o, (o ∉ L → (L.foldl (fun acc o => acc.modifyOp o F) g).opObj o = g.opObj o) ∧
        (o ∈ L → ∃ n, (L.foldl (fun acc o => acc.modifyOp o F) g).opObj o =
          F^[n + 1] (g.opObj o)) := by
  intro L
  induction L with
  | nil => intro g; simp
  | cons x rest ih =>
    intro g
    obtain ⟨h1, h2, h3, h4, h5, h6⟩ := ih (g.modifyOp x F)
    rw [List.foldl_cons]
    refine ⟨h1, h2, h3, h4, h5, fun o => ⟨fun ho => ?_, fun ho => ?_⟩⟩
    · have hne : o ≠ x := fun e => ho (e ▸ List.mem_cons_self _ _)
      rw [(h6 o).1 (fun hm => ho (List.mem_cons_of_mem _ hm))]
      simp [hne]
    · by_cases hr : o ∈ rest
      · obtain ⟨n, hn⟩ := (h6 o).2 hr
        rw [hn]
        by_cases hx : o = x
        · subst hx
          refine ⟨n + 1, ?_⟩
          simp only [modifyOp_opObj, if_true]
          rw [Function.iterate_succ_apply (n := n + 1)]
        · exact ⟨n, by simp [hx]⟩
      · have hx : o = x := by
          rcases List.mem_cons.1 ho with h | h
          · exact h
          · exact absurd h hr
        subst hx
        rw [(h6 o).1 hr]
        exact ⟨0, by simp⟩

theorem modifyOp_modifyOp (g : GraphObj) (o : OpId) (f f' : OperatorObj → OperatorObj) :
    (g.modifyOp o f).modifyOp o f' = g.modifyOp o (fun r => f' (f r)) := by
  have e : heapSet (heapSet g.opObj o (f (g.opObj o))) o
      (f' (heapSet g.opObj o (f (g.opObj o)) o)) = heapSet g.opObj o (f' (f (g.opObj o))) := by
    funext j
    by_cases h : j = o <;> simp [heapSet, h]
  unfold modifyOp
  simp only [e]

theorem modifyOp_modifyTensor_comm (g : GraphObj) (o : OpId) (t : TensorId)
    (f : OperatorObj → OperatorObj) (f' : TensorObj → TensorObj) :
    (g.modifyTensor t f').modifyOp o f = (g.modifyOp o f).modifyTensor t f' := rfl

/-- The inner loop `for (auto &bop : bops) ffop->addSuccessors(bop)` as one update. -/
theorem foldl_addSuccessors (ffop : OpId) :
    ∀ (bops : List OpId) (g : GraphObj),
      bops.foldl (fun acc2 bop => acc2.addSuccessors ffop bop) g =
        g.modifyOp ffop (fun r =>
          { r with successors := bops.foldl (fun l b => setAdd b l) r.successors }) := by
  intro bops
  induction bops with
  | nil =>
    intro g
    exact (modifyOp_self g ffop _ rfl).symm
  | cons b rest ih =>
    intro g
    rw [List.foldl_cons, ih, addSuccessors, modifyOp_modifyOp]
    rfl

/-- The inner loop `for (auto &ffop : ffops) bop->addPredecessors(ffop)` as one update. -/
theorem foldl_addPredecessors (bop : OpId) :
    ∀ (ffops : List OpId) (g : GraphObj),
      ffops.foldl (fun acc2 ffop => acc2.addPredecessors bop ffop) g =
        g.modifyOp bop (fun r =>
          { r with predecessors := ffops.foldl (fun l f => setAdd f l) r.predecessors }) := by
  intro ffops
  induction ffops with
  | nil =>
    intro g
    exact (modifyOp_self g bop _ rfl).symm
  | cons b rest ih =>
    intro g
    rw [List.foldl_cons, ih, addPredecessors, modifyOp_modifyOp]
    rfl

theorem setAdd_nodup (x : Nat) (l : List Nat) (h : l.Nodup) : (setAdd x l).Nodup := by
  unfold setAdd
  split_ifs with hx
  · exact h
  · exact List.nodup_append.2 ⟨h, List.nodup_singleton x, by
      intro a ha hb
      rw [List.mem_singleton] at hb
      exact hx (hb ▸ ha)⟩

theorem setRemove_nodup (x : Nat) (l : List Nat) (h : l.Nodup) : (setRemove x l).Nodup :=
  h.filter _

theorem foldl_setAdd_nodup (xs : List Nat) :
    ∀ l : List Nat, l.Nodup → (xs.foldl (fun l b => setAdd b l) l).Nodup := by
  induction xs with
  | nil => intro l h; exact h
  | cons x rest ih => intro l h; exact ih _ (setAdd_nodup x l h)

theorem spliceSuccs_iterate (fop : OpId) (bops : List OpId) (r : OperatorObj) :
    ∀ n, unwiredPart ((spliceSuccs fop bops)^[n + 1] r) = unwiredPart r ∧
      ((spliceSuccs fop bops)^[n + 1] r).inputs = r.inputs ∧
      ((spliceSuccs fop bops)^[n + 1] r).predecessors = r.predecessors ∧
      ∀ x, x ∈ ((spliceSuccs fop bops)^[n + 1] r).successors ↔
        (x ∈ r.successors ∧ x ≠ fop) ∨ x ∈ bops := by
  intro n
  induction n with
  | zero =>
    refine ⟨rfl, rfl, rfl, fun x => ?_⟩
    simp only [Function.iterate_succ, Function.iterate_zero, Function.comp_apply, id_eq,
      spliceSuccs, foldl_setAdd_mem, mem_setRemove]
  | succ n ih =>
    obtain ⟨h1, h2, h3, h4⟩ := ih
    rw [Function.iterate_succ_apply']
    refine ⟨h1, h2, h3, fun x => ?_⟩
    simp only [spliceSuccs, foldl_setAdd_mem, mem_setRemove, h4]
    tauto

theorem splicePreds_iterate (op : OpId) (ffops : List OpId) (r : OperatorObj) :
    ∀ n, unwiredPart ((splicePreds op ffops)^[n + 1] r) = unwiredPart r ∧
      ((splicePreds op ffops)^[n + 1] r).inputs = r.inputs ∧
      ((splicePreds op ffops)^[n + 1] r).successors = r.successors ∧
      (∀ x, x ∈ ((splicePreds op ffops)^[n + 1] r).predecessors ↔
        (x ∈ r.predecessors ∧ x ≠ op) ∨ x ∈ ffops) ∧
      (r.predecessors.Nodup → ((splicePreds op ffops)^[n + 1] r).predecessors.Nodup) := by
  intro n
  induction n with
  | zero =>
    refine ⟨rfl, rfl, rfl, fun x => ?_, fun hn => ?_⟩
    · simp only [Function.iterate_succ, Function.iterate_zero, Function.comp_apply, id_eq,
        splicePreds, foldl_setAdd_mem, mem_setRemove]
    · exact foldl_setAdd_nodup _ _ (setRemove_nodup _ _ hn)
  | succ n ih =>
    obtain ⟨h1, h2, h3, h4, h5⟩ := ih
    rw [Function.iterate_succ_apply']
    refine ⟨h1, h2, h3, fun x => ?_, fun hn => ?_⟩
    · simp only [splicePreds, foldl_setAdd_mem, mem_setRemove, h4]
      tauto
    · exact foldl_setAdd_nodup _ _ (setRemove_nodup _ _ (h5 hn))

theorem rebind_saved (saved : TensorId) (l : List TensorId) : rebind saved saved l = l := by
  unfold rebind
  conv_rhs => rw [← List.map_id l]
  apply List.map_congr_left
  intro t _
  by_cases h : t = saved <;> simp [h]

theorem rebindFirst_twice (saved : TensorId) (r : OperatorObj) :
    rebindFirst saved (rebindFirst saved r) = rebindFirst saved r := by
  cases hl : r.inputs with
  | nil => simp [rebindFirst, hl]
  | cons a rest =>
    have e1 : rebindFirst saved r = { r with inputs := rebind a saved r.inputs } := by
      simp [rebindFirst, hl]
    have e2 : (rebind a saved r.inputs)[0]? = some saved := by
      simp [rebind, hl]
    rw [e1]
    simp only [rebindFirst, e2, rebind_saved]

theorem rebindFirst_iterate (saved : TensorId) (r : OperatorObj) :
    ∀ n, (rebindFirst saved)^[n + 1] r = rebindFirst saved r := by
  intro n
  induction n with
  | zero => rfl
  | succ n ih => rw [Function.iterate_succ_apply', ih, rebindFirst_twice]

theorem rebindFirst_fields (saved : TensorId) (r : OperatorObj) :
    unwiredPart (rebindFirst saved r) = unwiredPart r ∧
      (rebindFirst saved r).predecessors = r.predecessors ∧
      (rebindFirst saved r).successors = r.successors ∧
      (rebindFirst saved r).inputs.length = r.inputs.length ∧
      (∀ input, r.inputs[0]? = some input →
        (rebindFirst saved r).inputs = rebind input saved r.inputs) := by
  unfold rebindFirst
  cases h : r.inputs[0]? with
  | none => simp
  | some a => simp [unwiredPart, rebind]

theorem modifyTensor_self (g : GraphObj) (t : TensorId) (f : TensorObj → TensorObj)
    (h : f (g.tensorObj t) = g.tensorObj t) : g.modifyTensor t f = g := by
  have e : heapSet g.tensorObj t (f (g.tensorObj t)) = g.tensorObj := by
    funext j
    unfold heapSet
    split_ifs with hj
    · rw [h, hj]
    · rfl
  unfold modifyTensor
  rw [e]

theorem modifyTensor_modifyTensor (g : GraphObj) (t : TensorId) (f f' : TensorObj → TensorObj) :
    (g.modifyTensor t f).modifyTensor t f' = g.modifyTensor t (fun r => f' (f r)) := by
  have e : heapSet (heapSet g.tensorObj t (f (g.tensorObj t))) t
      (f' (heapSet g.tensorObj t (f (g.tensorObj t)) t)) =
      heapSet g.tensorObj t (f' (f (g.tensorObj t))) := by
    funext j
    by_cases h : j = t <;> simp [heapSet, h]
  unfold modifyTensor
  simp only [e]

theorem foldl_modifyOp_modifyTensor (F : OperatorObj → OperatorObj) (t : TensorId)
    (f : TensorObj → TensorObj) :
    ∀ (L : List OpId) (g : GraphObj),
      L.foldl (fun acc o => acc.modifyOp o F) (g.modifyTensor t f) =
        (L.foldl (fun acc o => acc.modifyOp o F) g).modifyTensor t f := by
  intro L
  induction L with
  | nil => intro g; rfl
  | cons x rest ih =>
    intro g
    rw [List.foldl_cons, List.foldl_cons, modifyOp_modifyTensor_comm, ih]

/-- The first loop of the splice of Rule A, over `ffops`. -/
theorem spliceLoop_succs (fop : OpId) (bops : List OpId) (ffops : List OpId) (g : GraphObj) :
    ffops.foldl (fun acc ffop =>
      bops.foldl (fun acc2 bop => acc2.addSuccessors ffop bop) (acc.removeSuccessors ffop fop)) g =
      ffops.foldl (fun acc o => acc.modifyOp o (spliceSuccs fop bops)) g := by
  have e : (fun (acc : GraphObj) (ffop : OpId) =>
      bops.foldl (fun acc2 bop => acc2.addSuccessors ffop bop) (acc.removeSuccessors ffop fop)) =
      fun acc o => acc.modifyOp o (spliceSuccs fop bops) := by
    funext acc ffop
    rw [foldl_addSuccessors, removeSuccessors, modifyOp_modifyOp]
    rfl
  rw [e]

/-- The second loop of the splice of Rule A, over `bops`. -/
theorem spliceLoop_preds (op : OpId) (ffops : List OpId) (saved : TensorId) :
    ∀ (bops : List OpId) (g : GraphObj),
      bops.foldl (fun acc bop =>
        (ffops.foldl (fun acc2 ffop => acc2.addPredecessors bop ffop)
          (acc.removePredecessors bop op)).addTarget saved bop) g =
      (bops.foldl (fun acc o => acc.modifyOp o (splicePreds op ffops)) g).modifyTensor saved
        (fun r => { r with targets := bops.foldl (fun l b => setAdd b l) r.targets }) := by
  intro bops
  induction bops with
  | nil =>
    intro g
    exact (modifyTensor_self g saved _ rfl).symm
  | cons b rest ih =>
    intro g
    rw [List.foldl_cons, ih, foldl_addPredecessors, removePredecessors, modifyOp_modifyOp,
      addTarget, foldl_modifyOp_modifyTensor, modifyTensor_modifyTensor]
    rfl

/-- The third loop of the splice of Rule A, which rebinds the first input of every `bop`; it
does not fail when every `bop` has an input. -/
theorem spliceLoop_inputs (saved : TensorId) :
    ∀ (bops : List OpId) (g : GraphObj), (∀ b ∈ bops, (g.opObj b).inputs ≠ []) →
      bops.foldlM (fun acc bop =>
        (getInput acc bop 0).map fun input => acc.replaceInput bop input saved) g =
      some (bops.foldl (fun acc o => acc.modifyOp o (rebindFirst saved)) g) := by
  intro bops
  induction bops with
  | nil => intro g _; rfl
  | cons b rest ih =>
    intro g hne
    have hb := hne b (List.mem_cons_self _ _)
    obtain ⟨a, l, hl⟩ := List.exists_cons_of_ne_nil hb
    have hstep : (getInput g b 0).map (fun input => g.replaceInput b input saved) =
        some (g.modifyOp b (rebindFirst saved)) := by
      simp [getInput, hl, replaceInput, modifyOp, rebindFirst, rebind]
    rw [List.foldlM_cons, hstep, List.foldl_cons]
    apply ih
    intro b' hb'
    have h0 := hne b' (List.mem_cons_of_mem _ hb')
    simp only [modifyOp_opObj]
    split_ifs with e
    · intro hnil
      have := (rebindFirst_fields saved (g.opObj b)).2.2.2.1
      rw [hnil] at this
      exact hb (List.length_eq_zero.1 this.symm)
    · exact h0

theorem rebindFirst_inputs_congr (saved : TensorId) (r r' : OperatorObj)
    (h : r'.inputs = r.inputs) : (rebindFirst saved r').inputs = (rebindFirst saved r).inputs := by
  unfold rebindFirst
  rw [h]
  cases r.inputs[0]? with
  | none => exact h
  | some a => simp [h]

/-- The splice of Rule A, field by field.  It does not fail when `fop` and `op` have one
output each, `fop` has an input and every successor of `op` has an input. -/
theorem ruleASplice_spec (op fop : OpId) (st : OptState) (fout oout saved : TensorId)
    (hfo : (st.g.opObj fop).outputs = [fout]) (hoo : (st.g.opObj op).outputs = [oout])
    (hsv : (st.g.opObj fop).inputs[0]? = some saved)
    (hb : ∀ b ∈ (st.g.opObj op).successors, (st.g.opObj b).inputs ≠ []) :
    ∃ st', ruleASplice op fop st = some st' ∧
      st'.deleted_ops = setAdd op (setAdd fop st.deleted_ops) ∧
      st'.deleted_tensors = setAdd (st.g.tensorObj oout).fuid
        (setAdd (st.g.tensorObj fout).fuid st.deleted_tensors) ∧
      st'.g.ops = st.g.ops ∧ st'.g.tensors = st.g.tensors ∧
      (∀ t, untargeted (st'.g.tensorObj t) = untargeted (st.g.tensorObj t)) ∧
      (∀ t x, x ∈ (st'.g.tensorObj t).targets ↔
        if t = saved then (x ∈ (st.g.tensorObj t).targets ∧ x ≠ fop) ∨
          x ∈ (st.g.opObj op).successors
        else x ∈ (st.g.tensorObj t).targets) ∧
      (∀ o, unwiredPart (st'.g.opObj o) = unwiredPart (st.g.opObj o)) ∧
      (∀ o, (st'.g.opObj o).inputs =
        if o ∈ (st.g.opObj op).successors then (rebindFirst saved (st.g.opObj o)).inputs
        else (st.g.opObj o).inputs) ∧
      (∀ o x, x ∈ (st'.g.opObj o).predecessors ↔
        if o ∈ (st.g.opObj op).successors then
          (x ∈ (st.g.opObj o).predecessors ∧ x ≠ op) ∨ x ∈ (st.g.opObj fop).predecessors
        else x ∈ (st.g.opObj o).predecessors) ∧
      (∀ o x, x ∈ (st'.g.opObj o).successors ↔
        if o ∈ (st.g.opObj fop).predecessors then
          (x ∈ (st.g.opObj o).successors ∧ x ≠ fop) ∨ x ∈ (st.g.opObj op).successors
        else x ∈ (st.g.opObj o).successors) ∧
      (∀ o, (st.g.opObj o).predecessors.Nodup → (st'.g.opObj o).predecessors.Nodup) := by
  obtain ⟨a1, a2, a3, a4, a5, a6⟩ := foldl_modifyOp_spec
    (spliceSuccs fop (st.g.opObj op).successors) (st.g.opObj fop).predecessors
    (st.g.removeTarget saved fop)
  obtain ⟨b1, b2, b3, b4, b5, b6⟩ := foldl_modifyOp_spec
    (splicePreds op (st.g.opObj fop).predecessors) (st.g.opObj op).successors
    ((st.g.opObj fop).predecessors.foldl
      (fun acc o => acc.modifyOp o (spliceSuccs fop (st.g.opObj op).successors))
      (st.g.removeTarget saved fop))
  obtain ⟨c1, c2, c3, c4, c5, c6⟩ := foldl_modifyOp_spec (rebindFirst saved)
    (st.g.opObj op).successors
    (((st.g.opObj op).successors.foldl
      (fun acc o => acc.modifyOp o (splicePreds op (st.g.opObj fop).predecessors))
      ((st.g.opObj fop).predecessors.foldl
        (fun acc o => acc.modifyOp o (spliceSuccs fop (st.g.opObj op).successors))
        (st.g.removeTarget saved fop))).modifyTensor saved
      (fun r => { r with
        targets := (st.g.opObj op).successors.foldl (fun l b => setAdd b l) r.targets }))
  -- the record of `o` after the first loop, after the second, and at the end
  have s2 : ∀ o, unwiredPart (((st.g.opObj fop).predecessors.foldl
        (fun acc o => acc.modifyOp o (spliceSuccs fop (st.g.opObj op).successors))
        (st.g.removeTarget saved fop)).opObj o) = unwiredPart (st.g.opObj o) ∧
      (((st.g.opObj fop).predecessors.foldl
        (fun acc o => acc.modifyOp o (spliceSuccs fop (st.g.opObj op).successors))
        (st.g.removeTarget saved fop)).opObj o).inputs = (st.g.opObj o).inputs ∧
      (((st.g.opObj fop).predecessors.foldl
        (fun acc o => acc.modifyOp o (spliceSuccs fop (st.g.opObj op).successors))
        (st.g.removeTarget saved fop)).opObj o).predecessors = (st.g.opObj o).predecessors ∧
      ∀ x, x ∈ (((st.g.opObj fop).predecessors.foldl
        (fun acc o => acc.modifyOp o (spliceSuccs fop (st.g.opObj op).successors))
        (st.g.removeTarget saved fop)).opObj o).successors ↔
        if o ∈ (st.g.opObj fop).predecessors then
          (x ∈ (st.g.opObj o).successors ∧ x ≠ fop) ∨ x ∈ (st.g.opObj op).successors
        else x ∈ (st.g.opObj o).successors := by
    intro o
    by_cases ho : o ∈ (st.g.opObj fop).predecessors
    · obtain ⟨n, hn⟩ := (a6 o).2 ho
      obtain ⟨i1, i2, i3, i4⟩ := spliceSuccs_iterate fop (st.g.opObj op).successors
        ((st.g.removeTarget saved fop).opObj o) n
      rw [hn]
      exact ⟨i1, i2, i3, fun x => by rw [i4 x, if_pos ho]; rfl⟩
    · rw [(a6 o).1 ho]
      exact ⟨rfl, rfl, rfl, fun x => by rw [if_neg ho]; rfl⟩
  have s3 : ∀ o, unwiredPart (((st.g.opObj op).successors.foldl
        (fun acc o => acc.modifyOp o (splicePreds op (st.g.opObj fop).predecessors))
        ((st.g.opObj fop).predecessors.foldl
          (fun acc o => acc.modifyOp o (spliceSuccs fop (st.g.opObj op).successors))
          (st.g.removeTarget saved fop))).opObj o) = unwiredPart (st.g.opObj o) ∧
      (((st.g.opObj op).successors.foldl
        (fun acc o => acc.modifyOp o (splicePreds op (st.g.opObj fop).predecessors))
        ((st.g.opObj fop).predecessors.foldl
          (fun acc o => acc.modifyOp o (spliceSuccs fop (st.g.opObj op).successors))
          (st.g.removeTarget saved fop))).opObj o).inputs = (st.g.opObj o).inputs ∧
      (∀ x, x ∈ (((st.g.opObj op).successors.foldl
        (fun acc o => acc.modifyOp o (splicePreds op (st.g.opObj fop).predecessors))
        ((st.g.opObj fop).predecessors.foldl
          (fun acc o => acc.modifyOp o (spliceSuccs fop (st.g.opObj op).successors))
          (st.g.removeTarget saved fop))).opObj o).predecessors ↔
        if o ∈ (st.g.opObj op).successors then
          (x ∈ (st.g.opObj o).predecessors ∧ x ≠ op) ∨ x ∈ (st.g.opObj fop).predecessors
        else x ∈ (st.g.opObj o).predecessors) ∧
      (∀ x, x ∈ (((st.g.opObj op).successors.foldl
        (fun acc o => acc.modifyOp o (splicePreds op (st.g.opObj fop).predecessors))
        ((st.g.opObj fop).predecessors.foldl
          (fun acc o => acc.modifyOp o (spliceSuccs fop (st.g.opObj op).successors))
          (st.g.removeTarget saved fop))).opObj o).successors ↔
        if o ∈ (st.g.opObj fop).predecessors then
          (x ∈ (st.g.opObj o).successors ∧ x ≠ fop) ∨ x ∈ (st.g.opObj op).successors
        else x ∈ (st.g.opObj o).successors) ∧
      ((st.g.opObj o).predecessors.Nodup → (((st.g.opObj op).successors.foldl
        (fun acc o => acc.modifyOp o (splicePreds op (st.g.opObj fop).predecessors))
        ((st.g.opObj fop).predecessors.foldl
          (fun acc o => acc.modifyOp o (spliceSuccs fop (st.g.opObj op).successors))
          (st.g.removeTarget saved fop))).opObj o).predecessors.Nodup) := by
    intro o
    obtain ⟨p1, p2, p3, p4⟩ := s2 o
    by_cases ho : o ∈ (st.g.opObj op).successors
    · obtain ⟨n, hn⟩ := (b6 o).2 ho
      obtain ⟨i1, i2, i3, i4, i5⟩ := splicePreds_iterate op (st.g.opObj fop).predecessors
        (((st.g.opObj fop).predecessors.foldl
          (fun acc o => acc.modifyOp o (spliceSuccs fop (st.g.opObj op).successors))
          (st.g.removeTarget saved fop)).opObj o) n
      rw [hn]
      refine ⟨i1.trans p1, i2.trans p2, fun x => ?_, fun x => ?_, fun hn' => ?_⟩
      · rw [i4 x, if_pos ho, p3]
      · rw [i3]; exact p4 x
      · exact i5 (p3 ▸ hn')
    · rw [(b6 o).1 ho]
      exact ⟨p1, p2, fun x => by rw [if_neg ho, p3], p4, fun hn' => p3 ▸ hn'⟩
  have hb3 : ∀ b ∈ (st.g.opObj op).successors,
      ((((st.g.opObj op).successors.foldl
        (fun acc o => acc.modifyOp o (splicePreds op (st.g.opObj fop).predecessors))
        ((st.g.opObj fop).predecessors.foldl
          (fun acc o => acc.modifyOp o (spliceSuccs fop (st.g.opObj op).successors))
          (st.g.removeTarget saved fop))).modifyTensor saved
        (fun r => { r with
          targets := (st.g.opObj op).successors.foldl (fun l b => setAdd b l) r.targets })).opObj
        b).inputs ≠ [] := by
    intro b hbm
    rw [modifyTensor_opObj, (s3 b).2.1]
    exact hb b hbm
  refine ⟨OptState.mk ((st.g.opObj op).successors.foldl
      (fun acc o => acc.modifyOp o (rebindFirst saved))
      (((st.g.opObj op).successors.foldl
        (fun acc o => acc.modifyOp o (splicePreds op (st.g.opObj fop).predecessors))
        ((st.g.opObj fop).predecessors.foldl
          (fun acc o => acc.modifyOp o (spliceSuccs fop (st.g.opObj op).successors))
          (st.g.removeTarget saved fop))).modifyTensor saved
        (fun r => { r with
          targets := (st.g.opObj op).successors.foldl (fun l b => setAdd b l) r.targets })))
    (setAdd op (setAdd fop st.deleted_ops))
    (setAdd (st.g.tensorObj oout).fuid (setAdd (st.g.tensorObj fout).fuid st.deleted_tensors)),
    ?_, rfl, rfl, ?_, ?_, ?_, ?_, ?_, ?_, ?_, ?_, ?_⟩
  · have hfo' : getOutput st.g fop = some fout := by simp [getOutput, hfo]
    have hoo' : getOutput st.g op = some oout := by simp [getOutput, hoo]
    have hsv' : getInput st.g fop 0 = some saved := hsv
    unfold ruleASplice
    simp only [hfo', hoo', hsv', Option.some_bind]
    rw [spliceLoop_succs, spliceLoop_preds, spliceLoop_inputs saved _ _ hb3]
    rfl
  · rw [c2]; simp only [modifyTensor_ops]; rw [b2, a2]; rfl
  · rw [c3]; simp only [modifyTensor_tensors]; rw [b3, a3]; rfl
  · intro t
    rw [c1]
    simp only [modifyTensor_tensorObj]
    rw [b1, a1]
    simp only [removeTarget, modifyTensor_tensorObj]
    by_cases ht : t = saved
    · subst ht
      simp [untargeted]
    · simp [ht]
  · intro t x
    rw [c1]
    simp only [modifyTensor_tensorObj]
    rw [b1, a1]
    simp only [removeTarget, modifyTensor_tensorObj]
    by_cases ht : t = saved
    · simp only [ht, if_true, foldl_setAdd_mem, mem_setRemove]
    · simp only [ht, if_false]
  · intro o
    by_cases ho : o ∈ (st.g.opObj op).successors
    · obtain ⟨n, hn⟩ := (c6 o).2 ho
      rw [hn, rebindFirst_iterate, (rebindFirst_fields saved _).1, modifyTensor_opObj]
      exact (s3 o).1
    · rw [(c6 o).1 ho, modifyTensor_opObj]
      exact (s3 o).1
  · intro o
    by_cases ho : o ∈ (st.g.opObj op).successors
    · obtain ⟨n, hn⟩ := (c6 o).2 ho
      rw [hn, rebindFirst_iterate, if_pos ho, modifyTensor_opObj]
      exact rebindFirst_inputs_congr saved _ _ (s3 o).2.1
    · rw [(c6 o).1 ho, if_neg ho, modifyTensor_opObj]
      exact (s3 o).2.1
  · intro o x
    by_cases ho : o ∈ (st.g.opObj op).successors
    · obtain ⟨n, hn⟩ := (c6 o).2 ho
      rw [hn, rebindFirst_iterate, (rebindFirst_fields saved _).2.1, modifyTensor_opObj]
      exact (s3 o).2.2.1 x
    · rw [(c6 o).1 ho, modifyTensor_opObj]
      exact (s3 o).2.2.1 x
  · intro o x
    by_cases ho : o ∈ (st.g.opObj op).successors
    · obtain ⟨n, hn⟩ := (c6 o).2 ho
      rw [hn, rebindFirst_iterate, (rebindFirst_fields saved _).2.2.1, modifyTensor_opObj]
      exact (s3 o).2.2.2.1 x
    · rw [(c6 o).1 ho, modifyTensor_opObj]
      exact (s3 o).2.2.2.1 x
  · intro o hn
    by_cases ho : o ∈ (st.g.opObj op).successors
    · obtain ⟨n, hn'⟩ := (c6 o).2 ho
      rw [hn', rebindFirst_iterate, (rebindFirst_fields saved _).2.1, modifyTensor_opObj]
      exact (s3 o).2.2.2.2 hn
    · rw [(c6 o).1 ho, modifyTensor_opObj]
      exact (s3 o).2.2.2.2 hn

theorem modifyOp_comm (g : GraphObj) (a b : OpId) (F G : OperatorObj → OperatorObj)
    (h : ∀ r, F (G r) = G (F r)) :
    (g.modifyOp a F).modifyOp b G = (g.modifyOp b G).modifyOp a F := by
  have e : heapSet (heapSet g.opObj a (F (g.opObj a))) b (G (heapSet g.opObj a (F (g.opObj a)) b)) =
      heapSet (heapSet g.opObj b (G (g.opObj b))) a (F (heapSet g.opObj b (G (g.opObj b)) a)) := by
    funext j
    by_cases hab : a = b
    · subst hab
      by_cases hj : j = a <;> simp [heapSet, hj, h]
    · have hba : ¬ b = a := fun e => hab e.symm
      by_cases hj : j = a
      · subst hj
        simp [heapSet, hab, hba]
      · by_cases hj2 : j = b
        · subst hj2
          simp [heapSet, hab, hba]
        · simp [heapSet, hj, hj2]
  unfold modifyOp
  simp only [e]

theorem foldl_modifyOp_comm (F G : OperatorObj → OperatorObj) (b : OpId)
    (h : ∀ r, F (G r) = G (F r)) :
    ∀ (L : List OpId) (g : GraphObj),
      L.foldl (fun acc o => acc.modifyOp o F) (g.modifyOp b G) =
        (L.foldl (fun acc o => acc.modifyOp o F) g).modifyOp b G := by
  intro L
  induction L with
  | nil => intro g; rfl
  | cons x rest ih =>
    intro g
    rw [List.foldl_cons, List.foldl_cons, ← modifyOp_comm g x b F G h, ih]

/-- The loop of Rule B over `ffops`. -/
theorem foldLoop_eq (op fop : OpId) :
    ∀ (ffops : List OpId) (g : GraphObj),
      ffops.foldl (fun acc ffop =>
        ((acc.removeSuccessors ffop fop).addSuccessors ffop op).addPredecessors op ffop) g =
      (ffops.foldl (fun acc o => acc.modifyOp o (spliceSuccs fop [op])) g).modifyOp op
        (joinPreds ffops) := by
  intro ffops
  induction ffops with
  | nil =>
    intro g
    exact (modifyOp_self g op _ rfl).symm
  | cons f rest ih =>
    intro g
    have hstep : ((g.removeSuccessors f fop).addSuccessors f op).addPredecessors op f =
        (g.modifyOp f (spliceSuccs fop [op])).modifyOp op
          (fun r => { r with predecessors := setAdd f r.predecessors }) := by
      rw [removeSuccessors, addSuccessors, modifyOp_modifyOp, addPredecessors]
      rfl
    rw [List.foldl_cons, ih, hstep,
      foldl_modifyOp_comm (spliceSuccs fop [op])
        (fun r => { r with predecessors := setAdd f r.predecessors }) op (fun r => rfl),
      modifyOp_modifyOp]
    rfl

theorem unwiredPart_toggleFlag_ne (slot : Nat) (r : OperatorObj) :
    (toggleFlag slot r).inputs = r.inputs ∧ (toggleFlag slot r).predecessors = r.predecessors ∧
      (toggleFlag slot r).successors = r.successors ∧ (toggleFlag slot r).outputs = r.outputs ∧
      (toggleFlag slot r).type = r.type ∧ (toggleFlag slot r).permute = r.permute := by
  unfold toggleFlag
  split_ifs <;> exact ⟨rfl, rfl, rfl, rfl, rfl, rfl⟩

/-- The fold of Rule B, field by field, for a producer `fop` other than the MatMul `op`.  It
does not fail when `fop` has one output and an input and `op` has an input in slot `slot`. -/
theorem ruleBFold_spec (op fop : OpId) (slot : Nat) (st : OptState) (fout saved input : TensorId)
    (hne : fop ≠ op) (hfo : (st.g.opObj fop).outputs = [fout])
    (hsv : (st.g.opObj fop).inputs[0]? = some saved)
    (hin : (st.g.opObj op).inputs[slot]? = some input) :
    ∃ st', ruleBFold op fop slot st = some st' ∧
      st'.deleted_ops = setAdd fop st.deleted_ops ∧
      st'.deleted_tensors = setAdd (st.g.tensorObj fout).fuid st.deleted_tensors ∧
      st'.g.ops = st.g.ops ∧ st'.g.tensors = st.g.tensors ∧
      (∀ t, untargeted (st'.g.tensorObj t) = untargeted (st.g.tensorObj t)) ∧
      (∀ t x, x ∈ (st'.g.tensorObj t).targets ↔
        if t = saved then (x ∈ (st.g.tensorObj t).targets ∧ x ≠ fop) ∨ x = op
        else x ∈ (st.g.tensorObj t).targets) ∧
      (∀ o, unwiredPart (st'.g.opObj o) =
        if o = op then unwiredPart (toggleFlag slot (st.g.opObj o))
        else unwiredPart (st.g.opObj o)) ∧
      (∀ o, (st'.g.opObj o).inputs =
        if o = op then rebind input saved (st.g.opObj o).inputs else (st.g.opObj o).inputs) ∧
      (∀ o x, x ∈ (st'.g.opObj o).predecessors ↔
        if o = op then
          (x ∈ (st.g.opObj o).predecessors ∧ x ≠ fop) ∨ x ∈ (st.g.opObj fop).predecessors
        else x ∈ (st.g.opObj o).predecessors) ∧
      (∀ o x, x ∈ (st'.g.opObj o).successors ↔
        if o ∈ (st.g.opObj fop).predecessors then
          (x ∈ (st.g.opObj o).successors ∧ x ≠ fop) ∨ x = op
        else x ∈ (st.g.opObj o).successors) ∧
      (∀ o, (st.g.opObj o).predecessors.Nodup → (st'.g.opObj o).predecessors.Nodup) := by
  obtain ⟨t1, t2, t3, t4, t5, t6⟩ := unwiredPart_toggleFlag_ne slot (st.g.opObj op)
  -- the graph before the loop over `ffops`
  obtain ⟨g1, hg1⟩ : ∃ g1 : GraphObj,
      g1 = (st.g.modifyOp op (toggleFlag slot)).removePredecessors op fop := ⟨_, rfl⟩
  have hg1o : ∀ o, g1.opObj o = if o = op then
      { toggleFlag slot (st.g.opObj op) with
        predecessors := setRemove fop (st.g.opObj op).predecessors }
      else st.g.opObj o := by
    intro o
    rw [hg1]
    by_cases ho : o = op
    · subst ho
      simp [removePredecessors, t2]
    · simp [removePredecessors, ho]
  have hg1t : g1.tensorObj = st.g.tensorObj := by rw [hg1]; rfl
  obtain ⟨a1, a2, a3, a4, a5, a6⟩ := foldl_modifyOp_spec (spliceSuccs fop [op])
    (st.g.opObj fop).predecessors g1
  have s2 : ∀ o, unwiredPart (((st.g.opObj fop).predecessors.foldl
        (fun acc o => acc.modifyOp o (spliceSuccs fop [op])) g1).opObj o) =
        unwiredPart (g1.opObj o) ∧
      (((st.g.opObj fop).predecessors.foldl
        (fun acc o => acc.modifyOp o (spliceSuccs fop [op])) g1).opObj o).inputs =
        (g1.opObj o).inputs ∧
      (((st.g.opObj fop).predecessors.foldl
        (fun acc o => acc.modifyOp o (spliceSuccs fop [op])) g1).opObj o).predecessors =
        (g1.opObj o).predecessors ∧
      ∀ x, x ∈ (((st.g.opObj fop).predecessors.foldl
        (fun acc o => acc.modifyOp o (spliceSuccs fop [op])) g1).opObj o).successors ↔
        if o ∈ (st.g.opObj fop).predecessors then
          (x ∈ (g1.opObj o).successors ∧ x ≠ fop) ∨ x = op
        else x ∈ (g1.opObj o).successors := by
    intro o
    by_cases ho : o ∈ (st.g.opObj fop).predecessors
    · obtain ⟨n, hn⟩ := (a6 o).2 ho
      obtain ⟨i1, i2, i3, i4⟩ := spliceSuccs_iterate fop [op] (g1.opObj o) n
      rw [hn]
      exact ⟨i1, i2, i3, fun x => by rw [i4 x, if_pos ho, List.mem_singleton]⟩
    · rw [(a6 o).1 ho]
      exact ⟨rfl, rfl, rfl, fun x => by rw [if_neg ho]⟩
  have hfo' : getOutput (st.g.modifyOp op (toggleFlag slot)) fop = some fout := by
    simp [getOutput, hne, hfo]
  have hsv' : getInput (st.g.modifyOp op (toggleFlag slot)) fop 0 = some saved := by
    simp [getInput, hne, hsv]
  have hff : ((st.g.modifyOp op (toggleFlag slot)).opObj fop).predecessors =
      (st.g.opObj fop).predecessors := by simp [hne]
  have hin3 : getInput (((((st.g.opObj fop).predecessors.foldl
      (fun acc o => acc.modifyOp o (spliceSuccs fop [op])) g1).modifyOp op
      (joinPreds (st.g.opObj fop).predecessors)).removeTarget saved fop).addTarget saved op)
      op slot = some input := by
    simp only [getInput, addTarget, removeTarget, modifyTensor_opObj, modifyOp_opObj, if_true,
      joinPreds]
    rw [(s2 op).2.1, hg1o op, if_pos rfl]
    simpa [t1] using hin
  refine ⟨OptState.mk ((((((st.g.opObj fop).predecessors.foldl
      (fun acc o => acc.modifyOp o (spliceSuccs fop [op])) g1).modifyOp op
      (joinPreds (st.g.opObj fop).predecessors)).removeTarget saved fop).addTarget saved
        op).replaceInput op input saved)
    (setAdd fop st.deleted_ops) (setAdd (st.g.tensorObj fout).fuid st.deleted_tensors),
    ?_, rfl, rfl, ?_, ?_, ?_, ?_, ?_, ?_, ?_, ?_, ?_⟩
  · have htog : (fun r : OperatorObj =>
        if slot = 0 then { r with transA := !r.transA } else { r with transB := !r.transB }) =
        toggleFlag slot := rfl
    unfold ruleBFold
    simp only [htog, hfo', hsv', hff, Option.some_bind]
    rw [← hg1, foldLoop_eq, hin3]
    rfl
  · simp only [replaceInput, addTarget, removeTarget, modifyOp_ops, modifyTensor_ops]
    rw [a2, hg1]
    rfl
  · simp only [replaceInput, addTarget, removeTarget, modifyOp_tensors, modifyTensor_tensors]
    rw [a3, hg1]
    rfl
  · intro t
    simp only [replaceInput, addTarget, removeTarget, modifyOp_tensorObj, modifyTensor_tensorObj]
    rw [a1, hg1t]
    by_cases ht : t = saved
    · subst ht
      simp [untargeted]
    · simp [ht]
  · intro t x
    simp only [replaceInput, addTarget, removeTarget, modifyOp_tensorObj, modifyTensor_tensorObj]
    rw [a1, hg1t]
    by_cases ht : t = saved
    · subst ht
      simp [mem_setAdd, mem_setRemove]
    · simp [ht]
  · intro o
    simp only [replaceInput, addTarget, removeTarget, modifyOp_opObj, modifyTensor_opObj,
      joinPreds]
    by_cases ho : o = op
    · subst ho
      simp only [if_true]
      have := (s2 o).1
      rw [hg1o o, if_pos rfl] at this
      simp only [unwiredPart] at this ⊢
      simpa using this
    · simp only [ho, if_false]
      rw [(s2 o).1, hg1o o, if_neg ho]
  · intro o
    simp only [replaceInput, addTarget, removeTarget, modifyOp_opObj, modifyTensor_opObj,
      joinPreds]
    by_cases ho : o = op
    · subst ho
      simp only [if_true]
      rw [(s2 o).2.1, hg1o o, if_pos rfl]
      simp [rebind, t1]
    · simp only [ho, if_false]
      rw [(s2 o).2.1, hg1o o, if_neg ho]
  · intro o x
    simp only [replaceInput, addTarget, removeTarget, modifyOp_opObj, modifyTensor_opObj,
      joinPreds]
    by_cases ho : o = op
    · subst ho
      simp only [if_true, foldl_setAdd_mem]
      rw [(s2 o).2.2.1, hg1o o, if_pos rfl]
      simp [mem_setRemove]
    · simp only [ho, if_false]
      rw [(s2 o).2.2.1, hg1o o, if_neg ho]
  · intro o x
    simp only [replaceInput, addTarget, removeTarget, modifyOp_opObj, modifyTensor_opObj,
      joinPreds]
    by_cases ho : o = op
    · subst ho
      simp only [if_true]
      rw [(s2 o).2.2.2 x, hg1o o, if_pos rfl]
      simp [t3]
    · simp only [ho, if_false]
      rw [(s2 o).2.2.2 x, hg1o o, if_neg ho]
  · intro o hn
    simp only [replaceInput, addTarget, removeTarget, modifyOp_opObj, modifyTensor_opObj,
      joinPreds]
    by_cases ho : o = op
    · subst ho
      simp only [if_true]
      apply foldl_setAdd_nodup
      rw [(s2 o).2.2.1, hg1o o, if_pos rfl]
      exact setRemove_nodup _ _ hn
    · simp only [ho, if_false]
      rw [(s2 o).2.2.1, hg1o o, if_neg ho]
      exact hn

/-! ## Rule B inside an arbitrary graph -/

theorem unwiredPart_fields {r r' : OperatorObj} (h : unwiredPart r' = unwiredPart r) :
    r'.type = r.type ∧ r'.permute = r.permute ∧ r'.outputs = r.outputs ∧
      r'.transA = r.transA ∧ r'.transB = r.transB := by
  have h1 := congrArg OperatorObj.type h
  have h2 := congrArg OperatorObj.permute h
  have h3 := congrArg OperatorObj.outputs h
  have h4 := congrArg OperatorObj.transA h
  have h5 := congrArg OperatorObj.transB h
  exact ⟨h1, h2, h3, h4, h5⟩

theorem untargeted_fields {r r' : TensorObj} (h : untargeted r' = untargeted r) :
    r'.source = r.source ∧ r'.fuid = r.fuid := by
  have h1 := congrArg TensorObj.source h
  have h2 := congrArg TensorObj.fuid h
  exact ⟨h1, h2⟩

theorem mem_rebind {input saved t : TensorId} {l : List TensorId} (h : t ∈ rebind input saved l) :
    t ∈ l ∨ t = saved := by
  unfold rebind at h
  obtain ⟨a, ha, e⟩ := List.mem_map.1 h
  by_cases hc : a = input
  · right
    simpa [hc] using e.symm
  · left
    rw [if_neg hc] at e
    exact e ▸ ha

theorem rebind_length (input saved : TensorId) (l : List TensorId) :
    (rebind input saved l).length = l.length := by
  simp [rebind]

theorem mem_rebindFirst {saved t : TensorId} {r : OperatorObj}
    (h : t ∈ (rebindFirst saved r).inputs) : t ∈ r.inputs ∨ t = saved := by
  unfold rebindFirst at h
  cases h0 : r.inputs[0]? with
  | none => rw [h0] at h; exact Or.inl h
  | some a => rw [h0] at h; exact mem_rebind h

/-- The facts about the wiring of `g` that the pattern gives. -/
theorem FusePattern.facts {g : GraphObj} {T M : OpId} {X Y B : TensorId} {slot : Nat}
    (hp : FusePattern g T M X Y B slot) :
    (g.tensorObj Y).source = some T ∧
    (∀ t, (g.tensorObj t).source = some T → t = Y) ∧
    (∀ o ∈ g.ops, o ≠ M → Y ∉ (g.opObj o).inputs) ∧
    (∀ p ∈ (g.opObj T).predecessors, (g.opObj p).type ≠ OpType.Transpose) ∧
    (∀ o, (g.opObj o).type = OpType.Transpose → T ∉ (g.opObj o).predecessors) ∧
    (∀ o, (g.opObj o).type = OpType.Transpose → o ≠ T → M ∉ (g.opObj o).successors) ∧
    (∀ o, (g.opObj o).type = OpType.Transpose → T ∉ (g.opObj o).successors) ∧
    (∀ o s, s ∈ (g.opObj o).successors → (g.opObj s).inputs ≠ []) ∧
    T ≠ M := by
  have hw := hp.wired
  have hTM : T ≠ M := by
    intro e
    have := hp.T_type
    rw [e, hp.M_type] at this
    exact absurd this (by decide)
  have hYout : Y ∈ (g.opObj T).outputs := by rw [hp.T_outputs]; exact List.mem_singleton_self _
  have hsrcY : (g.tensorObj Y).source = some T := by
    cases hs : (g.tensorObj Y).source with
    | none => exact absurd hs (hw.source_complete Y T hp.T_listed hYout)
    | some a =>
      obtain ⟨ha, hya⟩ := hw.source_sound Y a hs
      rw [hp.unique a ha T hp.T_listed Y hya hYout]
  have hreads : ∀ o ∈ g.ops, o ≠ M → Y ∉ (g.opObj o).inputs := by
    intro o ho hne hy
    exact hne (hp.only_consumer o ((hw.targets Y o).2 ⟨ho, hy⟩))
  have hsrc : ∀ t a, a ∈ g.ops → t ∈ (g.opObj a).outputs → (g.tensorObj t).source = some a := by
    intro t a ha hta
    cases hs : (g.tensorObj t).source with
    | none => exact absurd hs (hw.source_complete t a ha hta)
    | some b =>
      obtain ⟨hb, htb⟩ := hw.source_sound t b hs
      rw [hp.unique b hb a ha t htb hta]
  have hpT : ∀ p ∈ (g.opObj T).predecessors, (g.opObj p).type ≠ OpType.Transpose := by
    intro p hpm
    obtain ⟨hpl, _, t, htp, htT⟩ := hw.preds_sound p T hpm
    rw [hp.T_inputs, List.mem_singleton] at htT
    subst htT
    exact hp.X_source p (hsrc _ p hpl htp)
  have hTp : ∀ o, (g.opObj o).type = OpType.Transpose → T ∉ (g.opObj o).predecessors := by
    intro o hty hm
    obtain ⟨_, hol, t, htT, hto⟩ := hw.preds_sound T o hm
    rw [hp.T_outputs, List.mem_singleton] at htT
    subst htT
    by_cases hoM : o = M
    · rw [hoM, hp.M_type] at hty
      exact absurd hty (by decide)
    · exact hreads o hol hoM hto
  refine ⟨hsrcY, ?_, hreads, hpT, hTp, ?_, ?_, ?_, hTM⟩
  · intro t ht
    have := (hw.source_sound t T ht).2
    rw [hp.T_outputs, List.mem_singleton] at this
    exact this
  · intro o hty hne hm
    obtain ⟨hol, _, t, hto, htM⟩ := hw.preds_sound o M ((hw.preds_succs o M).2 hm)
    have hcases : t = Y ∨ t = B := by
      rw [hp.M_inputs] at htM
      split_ifs at htM <;> simp at htM <;> tauto
    rcases hcases with rfl | rfl
    · exact hne (hp.unique o hol T hp.T_listed _ hto hYout)
    · exact hp.B_source o (hsrc _ o hol hto) hty
  · intro o hty hm
    exact hpT o ((hw.preds_succs o T).2 hm) hty
  · intro o s hs
    obtain ⟨_, _, t, _, hts⟩ := hw.preds_sound o s ((hw.preds_succs o s).2 hs)
    exact List.ne_nil_of_mem hts

/-- The invariant holds when the loop starts. -/
theorem FuseInv.init {g : GraphObj} {T M : OpId} {X Y B : TensorId} {slot : Nat}
    (hp : FusePattern g T M X Y B slot) : FuseInv g T M X Y slot false { g := g } := by
  obtain ⟨_, _, f3, f4, f5, f6, f7, f8, _⟩ := hp.facts
  exact ⟨fun _ => ⟨rfl, rfl, rfl, rfl⟩, fun _ => ⟨rfl, rfl⟩, f6, f7, f4, f5, f3, f8,
    fun o ho => absurd ho (List.not_mem_nil _), hp.T_inputs,
    fun o p hpm => (hp.wired.preds_sound p o hpm).1,
    fun _ => ⟨rfl, rfl, rfl, List.not_mem_nil _⟩, fun h => absurd h (by decide)⟩

theorem inputs_ne_nil_of_length {l l' : List TensorId} (h : l'.length = l.length) (hl : l ≠ []) :
    l' ≠ [] := by
  intro e
  rw [e] at h
  exact hl (List.length_eq_zero.1 h.symm)

theorem exists_head_of_ne_nil {l : List TensorId} (hl : l ≠ []) : ∃ a, l[0]? = some a := by
  obtain ⟨a, rest, e⟩ := List.exists_cons_of_ne_nil hl
  exact ⟨a, by rw [e]; simp⟩

theorem mem_of_head {l : List TensorId} {a : TensorId} (h : l[0]? = some a) : a ∈ l := by
  cases l with
  | nil => simp at h
  | cons x rest =>
    simp only [List.getElem?_cons_zero, Option.some.injEq] at h
    rw [h]
    exact List.mem_cons_self _ _

/-- A splice of Rule A on a pair of Transposes other than `T` keeps the invariant. -/
theorem FuseInv.splice {g : GraphObj} {T M : OpId} {X Y B : TensorId} {slot : Nat} {b : Bool}
    {st : OptState} (hp : FusePattern g T M X Y B slot) (hi : FuseInv g T M X Y slot b st)
    (op fop : OpId) (hfop : fop ∈ g.ops) (hop : op ∈ g.ops)
    (hoT : (g.opObj op).type = OpType.Transpose) (hfT : (g.opObj fop).type = OpType.Transpose)
    (hne1 : op ≠ T) (hne2 : fop ≠ T) :
    ∃ st', ruleASplice op fop st = some st' ∧ FuseInv g T M X Y slot b st' := by
  have hMo : M ≠ op := fun e => by
    rw [← e, hp.M_type] at hoT; exact absurd hoT (by decide)
  have hMf : M ≠ fop := fun e => by
    rw [← e, hp.M_type] at hfT; exact absurd hfT (by decide)
  obtain ⟨fout, hfo⟩ := (hp.transposes fop hfop hfT).1
  obtain ⟨oout, hoo⟩ := (hp.transposes op hop hoT).1
  rw [← (hi.kind fop).2.2.1] at hfo
  rw [← (hi.kind op).2.2.1] at hoo
  obtain ⟨saved, hsv⟩ := exists_head_of_ne_nil
    (inputs_ne_nil_of_length (hi.kind fop).2.2.2 (hp.transposes fop hfop hfT).2)
  have hb : ∀ s ∈ (st.g.opObj op).successors, (st.g.opObj s).inputs ≠ [] := fun s hs =>
    inputs_ne_nil_of_length (hi.kind s).2.2.2 (hi.succ_inputs op s hs)
  obtain ⟨st', hrun, hdo, hdt, _, _, htu, htt, hou, hoi, hopr, hosu, _⟩ :=
    ruleASplice_spec op fop st fout oout saved hfo hoo hsv hb
  have hMb : M ∉ (st.g.opObj op).successors := hi.succ_M op hoT hne1
  have hTb : T ∉ (st.g.opObj op).successors := hi.succ_T op hoT
  have hsY : saved ≠ Y := fun e =>
    hi.reads_Y fop hfop (Ne.symm hMf) (e ▸ mem_of_head hsv)
  have hinM : (st'.g.opObj M).inputs = (st.g.opObj M).inputs := by rw [hoi M, if_neg hMb]
  have hinT : (st'.g.opObj T).inputs = (st.g.opObj T).inputs := by rw [hoi T, if_neg hTb]
  refine ⟨st', hrun, ?_, ?_, ?_, ?_, ?_, ?_, ?_, ?_, ?_, ?_, ?_, ?_, ?_⟩
  · intro o
    obtain ⟨u1, u2, u3, _, _⟩ := unwiredPart_fields (hou o)
    refine ⟨u1.trans (hi.kind o).1, u2.trans (hi.kind o).2.1, u3.trans (hi.kind o).2.2.1, ?_⟩
    rw [hoi o]
    split_ifs
    · rw [(rebindFirst_fields saved _).2.2.2.1]; exact (hi.kind o).2.2.2
    · exact (hi.kind o).2.2.2
  · intro t
    obtain ⟨u1, u2⟩ := untargeted_fields (htu t)
    exact ⟨u1.trans (hi.tensor t).1, u2.trans (hi.tensor t).2⟩
  · intro o hty hne hm
    rw [hosu o M] at hm
    split_ifs at hm
    · rcases hm with hm | hm
      · exact hi.succ_M o hty hne hm.1
      · exact hMb hm
    · exact hi.succ_M o hty hne hm
  · intro o hty hm
    rw [hosu o T] at hm
    split_ifs at hm
    · rcases hm with hm | hm
      · exact hi.succ_T o hty hm.1
      · exact hTb hm
    · exact hi.succ_T o hty hm
  · intro p hpm
    rw [hopr T p, if_neg hTb] at hpm
    exact hi.pred_of_T p hpm
  · intro o hty hm
    rw [hopr o T] at hm
    split_ifs at hm
    · rcases hm with hm | hm
      · exact hi.pred_T o hty hm.1
      · exact hi.pred_T fop hfT hm
    · exact hi.pred_T o hty hm
  · intro o ho hne hy
    rw [hoi o] at hy
    split_ifs at hy
    · rcases mem_rebindFirst hy with h | h
      · exact hi.reads_Y o ho hne h
      · exact hsY h.symm
    · exact hi.reads_Y o ho hne hy
  · intro o s hs
    rw [hosu o s] at hs
    split_ifs at hs
    · rcases hs with hs | hs
      · exact hi.succ_inputs o s hs.1
      · exact hi.succ_inputs op s hs
    · exact hi.succ_inputs o s hs
  · intro o ho
    rw [hdo, mem_setAdd, mem_setAdd] at ho
    rcases ho with (ho | ho) | ho
    · exact hi.deleted o ho
    · rw [ho]; exact hfT
    · rw [ho]; exact hoT
  · rw [hinT]; exact hi.T_inputs
  · intro o p hpm
    rw [hopr o p] at hpm
    split_ifs at hpm
    · rcases hpm with hpm | hpm
      · exact hi.preds_listed o p hpm.1
      · exact hi.preds_listed fop p hpm
    · exact hi.preds_listed o p hpm
  · intro hb0
    obtain ⟨q1, q2, q3, q4⟩ := hi.before hb0
    obtain ⟨_, _, _, u4, u5⟩ := unwiredPart_fields (hou M)
    refine ⟨hinM.trans q1, u4.trans q2, u5.trans q3, ?_⟩
    rw [hdo, mem_setAdd, mem_setAdd]
    rintro ((h | h) | h)
    · exact q4 h
    · exact hne2 h.symm
    · exact hne1 h.symm
  · intro hb1
    obtain ⟨q1, q2, q3, q4, q5, q6⟩ := hi.after hb1
    obtain ⟨_, _, _, u4, u5⟩ := unwiredPart_fields (hou M)
    refine ⟨hinM.trans q1, u4.trans q2, u5.trans q3, ?_, ?_, ?_⟩
    · rw [hdo, mem_setAdd, mem_setAdd]
      exact Or.inl (Or.inl q4)
    · rw [hdt, mem_setAdd, mem_setAdd]
      exact Or.inl (Or.inl q5)
    · rw [htt X M]
      split_ifs
      · exact Or.inl ⟨q6, hMf⟩
      · exact q6

/-- Rule A at any listed operator keeps the invariant. -/
theorem FuseInv.ruleA {g : GraphObj} {T M : OpId} {X Y B : TensorId} {slot : Nat} {b : Bool}
    {st : OptState} (hp : FusePattern g T M X Y B slot) (hi : FuseInv g T M X Y slot b st)
    (op : OpId) (hop : op ∈ g.ops) :
    ∃ st', ruleA op st = some st' ∧ FuseInv g T M X Y slot b st' := by
  have loop : ∀ (L : List OpId) (st : OptState), FuseInv g T M X Y slot b st →
      (g.opObj op).type = OpType.Transpose →
      (∀ p ∈ L, (g.opObj p).type = OpType.Transpose → op ≠ T ∧ p ≠ T ∧ p ∈ g.ops) →
      ∃ st', L.foldlM (ruleAStep op) st = some st' ∧ FuseInv g T M X Y slot b st' := by
    intro L
    induction L with
    | nil => intro st hi _ _; exact ⟨st, rfl, hi⟩
    | cons p rest ih =>
      intro st hi hoT hL
      have hstep : ∃ st1, ruleAStep op st p = some st1 ∧ FuseInv g T M X Y slot b st1 := by
        unfold ruleAStep
        split_ifs with h1 h2
        · rw [(hi.kind p).1] at h1
          obtain ⟨n1, n2, n3⟩ := hL p (List.mem_cons_self _ _) h1
          exact hi.splice hp op p n3 hop hoT h1 n1 n2
        · exact ⟨st, rfl, hi⟩
        · exact ⟨st, rfl, hi⟩
      obtain ⟨st1, hs1, hi1⟩ := hstep
      obtain ⟨st', hs', hi'⟩ := ih st1 hi1 hoT (fun q hq => hL q (List.mem_cons_of_mem _ hq))
      exact ⟨st', by rw [List.foldlM_cons, hs1]; exact hs', hi'⟩
  unfold GraphObj.ruleA
  split_ifs with hty
  · rw [(hi.kind op).1] at hty
    apply loop _ st hi hty
    intro p hpm hpT
    refine ⟨?_, ?_, hi.preds_listed op p hpm⟩
    · intro e
      rw [e] at hpm
      exact hi.pred_of_T p hpm hpT
    · intro e
      rw [e] at hpm
      exact hi.pred_T op hty hpm
  · exact ⟨st, rfl, hi⟩

/-- A fold of Rule B into a MatMul other than `M` keeps the invariant. -/
theorem FuseInv.fold_other {g : GraphObj} {T M : OpId} {X Y B : TensorId} {slot : Nat} {b : Bool}
    {st : OptState} (hp : FusePattern g T M X Y B slot) (hi : FuseInv g T M X Y slot b st)
    (op fop : OpId) (k : Nat) (input : TensorId) (hop : op ∈ g.ops) (hfop : fop ∈ g.ops)
    (hoM : (g.opObj op).type = OpType.MatMul) (hfT : (g.opObj fop).type = OpType.Transpose)
    (hne1 : op ≠ M) (hne2 : fop ≠ T) (hin : (st.g.opObj op).inputs[k]? = some input) :
    ∃ st', ruleBFold op fop k st = some st' ∧ FuseInv g T M X Y slot b st' := by
  have hfo_ne : fop ≠ op := fun e => by
    rw [e, hoM] at hfT; exact absurd hfT (by decide)
  have hMf : M ≠ fop := fun e => by
    rw [← e, hp.M_type] at hfT; exact absurd hfT (by decide)
  have hTo : T ≠ op := fun e => by
    rw [← e, hp.T_type] at hoM; exact absurd hoM (by decide)
  obtain ⟨fout, hfo⟩ := (hp.transposes fop hfop hfT).1
  rw [← (hi.kind fop).2.2.1] at hfo
  obtain ⟨saved, hsv⟩ := exists_head_of_ne_nil
    (inputs_ne_nil_of_length (hi.kind fop).2.2.2 (hp.transposes fop hfop hfT).2)
  obtain ⟨st', hrun, hdo, hdt, _, _, htu, htt, hou, hoi, hopr, hosu, _⟩ :=
    ruleBFold_spec op fop k st fout saved input hfo_ne hfo hsv hin
  have hsY : saved ≠ Y := fun e =>
    hi.reads_Y fop hfop (Ne.symm hMf) (e ▸ mem_of_head hsv)
  have hrec : ∀ o, o ≠ op → (st'.g.opObj o).inputs = (st.g.opObj o).inputs ∧
      unwiredPart (st'.g.opObj o) = unwiredPart (st.g.opObj o) := fun o ho =>
    ⟨by rw [hoi o, if_neg ho], by rw [hou o, if_neg ho]⟩
  have hMop : M ≠ op := Ne.symm hne1
  refine ⟨st', hrun, ?_, ?_, ?_, ?_, ?_, ?_, ?_, ?_, ?_, ?_, ?_, ?_, ?_⟩
  · intro o
    by_cases ho : o = op
    · have hu := hou o
      rw [if_pos ho] at hu
      obtain ⟨u1, u2, u3, _, _⟩ := unwiredPart_fields hu
      obtain ⟨_, _, _, t4, t5, t6⟩ := unwiredPart_toggleFlag_ne k (st.g.opObj o)
      refine ⟨(u1.trans t5).trans (hi.kind o).1, (u2.trans t6).trans (hi.kind o).2.1,
        (u3.trans t4).trans (hi.kind o).2.2.1, ?_⟩
      rw [hoi o, if_pos ho, rebind_length]
      exact (hi.kind o).2.2.2
    · obtain ⟨u1, u2, u3, _, _⟩ := unwiredPart_fields (hrec o ho).2
      exact ⟨u1.trans (hi.kind o).1, u2.trans (hi.kind o).2.1, u3.trans (hi.kind o).2.2.1,
        by rw [(hrec o ho).1]; exact (hi.kind o).2.2.2⟩
  · intro t
    obtain ⟨u1, u2⟩ := untargeted_fields (htu t)
    exact ⟨u1.trans (hi.tensor t).1, u2.trans (hi.tensor t).2⟩
  · intro o hty hne hm
    rw [hosu o M] at hm
    split_ifs at hm
    · rcases hm with hm | hm
      · exact hi.succ_M o hty hne hm.1
      · exact hMop hm
    · exact hi.succ_M o hty hne hm
  · intro o hty hm
    rw [hosu o T] at hm
    split_ifs at hm
    · rcases hm with hm | hm
      · exact hi.succ_T o hty hm.1
      · exact hTo hm
    · exact hi.succ_T o hty hm
  · intro p hpm
    rw [hopr T p, if_neg hTo] at hpm
    exact hi.pred_of_T p hpm
  · intro o hty hm
    have ho : o ≠ op := fun e => by
      rw [e, hoM] at hty; exact absurd hty (by decide)
    rw [hopr o T, if_neg ho] at hm
    exact hi.pred_T o hty hm
  · intro o ho hne hy
    rw [hoi o] at hy
    split_ifs at hy
    · rcases mem_rebind hy with h | h
      · exact hi.reads_Y o ho hne h
      · exact hsY h.symm
    · exact hi.reads_Y o ho hne hy
  · intro o s hs
    rw [hosu o s] at hs
    split_ifs at hs
    · rcases hs with hs | hs
      · exact hi.succ_inputs o s hs.1
      · rw [hs]
        intro e
        have := hp.matmuls op hop hoM
        rw [e] at this
        simp at this
    · exact hi.succ_inputs o s hs
  · intro o ho
    rw [hdo, mem_setAdd] at ho
    rcases ho with ho | ho
    · exact hi.deleted o ho
    · rw [ho]; exact hfT
  · rw [(hrec T hTo).1]; exact hi.T_inputs
  · intro o p hpm
    rw [hopr o p] at hpm
    split_ifs at hpm
    · rcases hpm with hpm | hpm
      · exact hi.preds_listed o p hpm.1
      · exact hi.preds_listed fop p hpm
    · exact hi.preds_listed o p hpm
  · intro hb0
    obtain ⟨q1, q2, q3, q4⟩ := hi.before hb0
    obtain ⟨_, _, _, u4, u5⟩ := unwiredPart_fields (hrec M hMop).2
    refine ⟨(hrec M hMop).1.trans q1, u4.trans q2, u5.trans q3, ?_⟩
    rw [hdo, mem_setAdd]
    rintro (h | h)
    · exact q4 h
    · exact hne2 h.symm
  · intro hb1
    obtain ⟨q1, q2, q3, q4, q5, q6⟩ := hi.after hb1
    obtain ⟨_, _, _, u4, u5⟩ := unwiredPart_fields (hrec M hMop).2
    refine ⟨(hrec M hMop).1.trans q1, u4.trans q2, u5.trans q3, ?_, ?_, ?_⟩
    · rw [hdo, mem_setAdd]
      exact Or.inl q4
    · rw [hdt, mem_setAdd]
      exact Or.inl q5
    · rw [htt X M]
      split_ifs
      · exact Or.inl ⟨q6, hMf⟩
      · exact q6

/-- The fold of `T` into `M` takes the invariant from "not folded" to "folded". -/
theorem FuseInv.fold_own {g : GraphObj} {T M : OpId} {X Y B : TensorId} {slot : Nat}
    {st : OptState} (hp : FusePattern g T M X Y B slot)
    (hi : FuseInv g T M X Y slot false st) :
    ∃ st', ruleBFold M T slot st = some st' ∧ FuseInv g T M X Y slot true st' := by
  obtain ⟨_, _, _, _, _, _, _, _, hTM⟩ := hp.facts
  obtain ⟨q1, q2, q3, q4⟩ := hi.before rfl
  have hfo : (st.g.opObj T).outputs = [Y] := by rw [(hi.kind T).2.2.1]; exact hp.T_outputs
  have hsv : (st.g.opObj T).inputs[0]? = some X := by rw [hi.T_inputs]; rfl
  have hin : (st.g.opObj M).inputs[slot]? = some Y := by
    rw [q1, hp.M_inputs]
    rcases hp.slot_range with h | h <;> simp [h]
  obtain ⟨st', hrun, hdo, hdt, _, _, htu, htt, hou, hoi, hopr, hosu, _⟩ :=
    ruleBFold_spec M T slot st Y X Y hTM hfo hsv hin
  have hrec : ∀ o, o ≠ M → (st'.g.opObj o).inputs = (st.g.opObj o).inputs ∧
      unwiredPart (st'.g.opObj o) = unwiredPart (st.g.opObj o) := fun o ho =>
    ⟨by rw [hoi o, if_neg ho], by rw [hou o, if_neg ho]⟩
  have hnotff : ∀ o, (g.opObj o).type = OpType.Transpose → o ∉ (st.g.opObj T).predecessors :=
    fun o hty hm => hi.pred_of_T o hm hty
  have hMne : (g.opObj M).inputs ≠ [] := by
    intro e
    have := hp.matmuls M hp.M_listed hp.M_type
    rw [e] at this
    simp at this
  refine ⟨st', hrun, ?_, ?_, ?_, ?_, ?_, ?_, ?_, ?_, ?_, ?_, ?_, ?_, ?_⟩
  · intro o
    by_cases ho : o = M
    · have hu := hou o
      rw [if_pos ho] at hu
      obtain ⟨u1, u2, u3, _, _⟩ := unwiredPart_fields hu
      obtain ⟨_, _, _, t4, t5, t6⟩ := unwiredPart_toggleFlag_ne slot (st.g.opObj o)
      refine ⟨(u1.trans t5).trans (hi.kind o).1, (u2.trans t6).trans (hi.kind o).2.1,
        (u3.trans t4).trans (hi.kind o).2.2.1, ?_⟩
      rw [hoi o, if_pos ho, rebind_length]
      exact (hi.kind o).2.2.2
    · obtain ⟨u1, u2, u3, _, _⟩ := unwiredPart_fields (hrec o ho).2
      exact ⟨u1.trans (hi.kind o).1, u2.trans (hi.kind o).2.1, u3.trans (hi.kind o).2.2.1,
        by rw [(hrec o ho).1]; exact (hi.kind o).2.2.2⟩
  · intro t
    obtain ⟨u1, u2⟩ := untargeted_fields (htu t)
    exact ⟨u1.trans (hi.tensor t).1, u2.trans (hi.tensor t).2⟩
  · intro o hty hne hm
    rw [hosu o M, if_neg (hnotff o hty)] at hm
    exact hi.succ_M o hty hne hm
  · intro o hty hm
    rw [hosu o T, if_neg (hnotff o hty)] at hm
    exact hi.succ_T o hty hm
  · intro p hpm
    rw [hopr T p, if_neg hTM] at hpm
    exact hi.pred_of_T p hpm
  · intro o hty hm
    have ho : o ≠ M := fun e => by
      rw [e, hp.M_type] at hty; exact absurd hty (by decide)
    rw [hopr o T, if_neg ho] at hm
    exact hi.pred_T o hty hm
  · intro o ho hne hy
    rw [hoi o, if_neg hne] at hy
    exact hi.reads_Y o ho hne hy
  · intro o s hs
    rw [hosu o s] at hs
    split_ifs at hs
    · rcases hs with hs | hs
      · exact hi.succ_inputs o s hs.1
      · rw [hs]; exact hMne
    · exact hi.succ_inputs o s hs
  · intro o ho
    rw [hdo, mem_setAdd] at ho
    rcases ho with ho | ho
    · exact hi.deleted o ho
    · rw [ho]; exact hp.T_type
  · rw [(hrec T hTM).1]; exact hi.T_inputs
  · intro o p hpm
    rw [hopr o p] at hpm
    split_ifs at hpm
    · rcases hpm with hpm | hpm
      · exact hi.preds_listed o p hpm.1
      · exact hi.preds_listed T p hpm
    · exact hi.preds_listed o p hpm
  · intro h
    exact absurd h (by decide)
  · intro _
    have hu := hou M
    rw [if_pos rfl] at hu
    obtain ⟨_, _, _, u4, u5⟩ := unwiredPart_fields hu
    refine ⟨by rw [hoi M, if_pos rfl, q1], ?_, ?_, ?_, ?_, ?_⟩
    · rw [u4, ← q2]
      unfold toggleFlag
      split_ifs <;> rfl
    · rw [u5, ← q3]
      unfold toggleFlag
      split_ifs <;> rfl
    · rw [hdo, mem_setAdd]
      exact Or.inr rfl
    · rw [hdt, mem_setAdd, (hi.tensor Y).2]
      exact Or.inr rfl
    · rw [htt X M, if_pos rfl]
      exact Or.inr rfl

theorem mem_of_getElem?_some {l : List TensorId} {k : Nat} {a : TensorId}
    (h : l[k]? = some a) : a ∈ l := by
  obtain ⟨hk, e⟩ := List.getElem?_eq_some.1 h
  rw [← e]
  exact List.getElem_mem ..

/-- One operand of Rule B at a listed MatMul `op`, for operand `k` holding the tensor `t`:
the test on the producer of `t` and the fold.  The `guard` stands for the extra test
`!deleted_ops.count(fop)` of operand `A`. -/
theorem FuseInv.slot {g : GraphObj} {T M : OpId} {X Y B : TensorId} {slot : Nat} {b : Bool}
    {st : OptState} (hp : FusePattern g T M X Y B slot) (hi : FuseInv g T M X Y slot b st)
    (op : OpId) (k : Nat) (t : TensorId) (hop : op ∈ g.ops)
    (hoM : (g.opObj op).type = OpType.MatMul) (hk : k = 0 ∨ k = 1)
    (ht : (st.g.opObj op).inputs[k]? = some t)
    (hP : lastTwoSwapped (g.opObj T).permute = true)
    (guard : OpId → Prop) [DecidablePred guard] (hguard : b = false → guard T) :
    ∃ st' b', (match (st.g.tensorObj t).source with
        | some fop =>
          if guard fop ∧ (st.g.opObj fop).type = OpType.Transpose then
            if lastTwoSwapped (st.g.opObj fop).permute then ruleBFold op fop k st else some st
          else some st
        | none => some st) = some st' ∧
      FuseInv g T M X Y slot b' st' ∧ (op ≠ M → b' = b) ∧ (b = true → b' = true) ∧
      (op = M → k = slot → b' = true) := by
  obtain ⟨f1, f2, _, _, _, _, _, _, hTM⟩ := hp.facts
  have hMin : b = false → (st.g.opObj M).inputs[slot]? = some Y := by
    intro hb
    rw [(hi.before hb).1, hp.M_inputs]
    rcases hp.slot_range with h | h <;> simp [h]
  -- the tensor read by `M` in a slot cannot come from a Transpose, unless it is `Y`
  have hMt : op = M → (b = false → k ≠ slot) →
      ∀ fop, (g.tensorObj t).source = some fop → (g.opObj fop).type ≠ OpType.Transpose := by
    intro e hcase fop hs
    subst e
    have hcases : t = X ∨ t = B := by
      cases hb : b with
      | false =>
        have hks := hcase hb
        rw [(hi.before hb).1, hp.M_inputs] at ht
        rcases hp.slot_range with h | h <;> rcases hk with h' | h' <;>
          simp [h, h'] at ht hks ⊢ <;> exact Or.inr ht.symm
      | true =>
        rw [(hi.after hb).1, hp.M_inputs] at ht
        have hBY := hp.other_ne
        rcases hp.slot_range with h | h <;> rcases hk with h' | h' <;>
          simp [h, h', rebind, hBY] at ht ⊢ <;> first | exact Or.inl ht.symm | exact Or.inr ht.symm
    rcases hcases with rfl | rfl
    · exact hp.X_source fop hs
    · exact hp.B_source fop hs
  cases hs : (st.g.tensorObj t).source with
  | none =>
    refine ⟨st, b, rfl, hi, fun _ => rfl, fun h => h, ?_⟩
    intro e hks
    cases hb : b with
    | true => rfl
    | false =>
      subst e
      have : t = Y := by
        have := hMin hb
        rw [hks] at ht
        rw [ht] at this
        exact Option.some.inj this
      rw [this, (hi.tensor Y).1, f1] at hs
      exact Option.noConfusion hs
  | some fop =>
    have hsg : (g.tensorObj t).source = some fop := by rw [← (hi.tensor t).1]; exact hs
    simp only
    by_cases hc : guard fop ∧ (st.g.opObj fop).type = OpType.Transpose
    · rw [if_pos hc]
      have hfT : (g.opObj fop).type = OpType.Transpose := by rw [← (hi.kind fop).1]; exact hc.2
      by_cases hl : lastTwoSwapped (st.g.opObj fop).permute = true
      · rw [if_pos hl]
        by_cases hoMe : op = M
        · -- only `T` can be folded into `M`, and only once
          have hkb : b = false ∧ k = slot := by
            by_contra hcon
            exact hMt hoMe (fun hb hks => hcon ⟨hb, hks⟩) fop hsg hfT
          obtain ⟨hb, hks⟩ := hkb
          subst hoMe
          subst hb
          have htY : t = Y := by
            have := hMin rfl
            rw [hks] at ht
            rw [ht] at this
            exact Option.some.inj this
          have hfe : fop = T := by
            rw [htY, f1] at hsg
            exact (Option.some.inj hsg).symm
          subst hfe
          rw [hks]
          obtain ⟨st', hrun, hi'⟩ := hi.fold_own hp
          exact ⟨st', true, hrun, hi', fun h => absurd rfl h, fun _ => rfl, fun _ _ => rfl⟩
        · have hfne : fop ≠ T := by
            intro e
            rw [e] at hsg
            have := f2 t hsg
            rw [this] at ht
            exact hi.reads_Y op hop hoMe (mem_of_getElem?_some ht)
          obtain ⟨st', hrun, hi'⟩ := hi.fold_other hp op fop k t hop
            (hp.wired.source_sound t fop hsg).1 hoM hfT hoMe hfne ht
          exact ⟨st', b, hrun, hi', fun _ => rfl, fun h => h, fun e => absurd e hoMe⟩
      · rw [if_neg hl]
        refine ⟨st, b, rfl, hi, fun _ => rfl, fun h => h, ?_⟩
        intro e hks
        cases hb : b with
        | true => rfl
        | false =>
          subst e
          have htY : t = Y := by
            have := hMin hb
            rw [hks] at ht
            rw [ht] at this
            exact Option.some.inj this
          have hfe : fop = T := by
            rw [htY, f1] at hsg
            exact (Option.some.inj hsg).symm
          exfalso
          apply hl
          rw [hfe, (hi.kind T).2.1]
          exact hP
    · rw [if_neg hc]
      refine ⟨st, b, rfl, hi, fun _ => rfl, fun h => h, ?_⟩
      intro e hks
      cases hb : b with
      | true => rfl
      | false =>
        subst e
        have htY : t = Y := by
          have := hMin hb
          rw [hks] at ht
          rw [ht] at this
          exact Option.some.inj this
        have hfe : fop = T := by
          rw [htY, f1] at hsg
          exact (Option.some.inj hsg).symm
        exfalso
        apply hc
        rw [hfe]
        exact ⟨hguard hb, by rw [(hi.kind T).1]; exact hp.T_type⟩

theorem exists_two_of_length {l : List TensorId} (h : 2 ≤ l.length) :
    ∃ a b, l[0]? = some a ∧ l[1]? = some b := by
  match l, h with
  | a :: b :: _, _ => exact ⟨a, b, by simp, by simp⟩

/-- Rule B at any listed operator keeps the invariant, and folds `T` when the operator is
`M`. -/
theorem FuseInv.ruleB {g : GraphObj} {T M : OpId} {X Y B : TensorId} {slot : Nat} {b : Bool}
    {st : OptState} (hp : FusePattern g T M X Y B slot)
    (hP : lastTwoSwapped (g.opObj T).permute = true) (hi : FuseInv g T M X Y slot b st)
    (op : OpId) (hop : op ∈ g.ops) :
    ∃ st', ruleB op st = some st' ∧ FuseInv g T M X Y slot (b || decide (op = M)) st' := by
  unfold GraphObj.ruleB
  split_ifs with hty
  · rw [(hi.kind op).1] at hty
    have hlen : 2 ≤ (st.g.opObj op).inputs.length := by
      rw [(hi.kind op).2.2.2]; exact hp.matmuls op hop hty
    obtain ⟨A, B0, hA, hB0⟩ := exists_two_of_length hlen
    obtain ⟨st1, b1, hr1, hi1, k1, k2, k3⟩ := hi.slot hp op 0 A hop hty (Or.inl rfl) hA hP
      (fun fop => fop ∉ st.deleted_ops) (fun hb => (hi.before hb).2.2.2)
    have hlen1 : 2 ≤ (st1.g.opObj op).inputs.length := by
      rw [(hi1.kind op).2.2.2]; exact hp.matmuls op hop hty
    obtain ⟨A1, B1, _, hB1⟩ := exists_two_of_length hlen1
    obtain ⟨st2, b2, hr2, hi2, j1, j2, j3⟩ := hi1.slot hp op 1 B1 hop hty (Or.inr rfl) hB1 hP
      (fun _ => True) (fun _ => trivial)
    have hb2 : b2 = (b || decide (op = M)) := by
      by_cases he : op = M
      · have : b2 = true := by
          rcases hp.slot_range with h | h
          · exact j2 (k3 he h.symm)
          · exact j3 he h.symm
        simp [he, this]
      · rw [j1 he, k1 he]
        simp [he]
    refine ⟨st2, ?_, hb2 ▸ hi2⟩
    simp only [hA, hB0, Option.some_bind]
    have hB : (match (st1.g.tensorObj B1).source with
        | some fop =>
          if (st1.g.opObj fop).type = OpType.Transpose then
            if lastTwoSwapped (st1.g.opObj fop).permute then ruleBFold op fop 1 st1 else some st1
          else some st1
        | none => some st1) = some st2 := by
      cases hsB : (st1.g.tensorObj B1).source with
      | none => simpa only [hsB] using hr2
      | some fop => simpa only [hsB, true_and] using hr2
    cases hsA : (st.g.tensorObj A).source with
    | none =>
      simp only [hsA] at hr1 ⊢
      cases hr1
      simp only [Option.some_bind, hB1]
      cases hsB : (st.g.tensorObj B1).source with
      | none => simpa only [hsB] using hB
      | some fop => simpa only [hsB] using hB
    | some fop0 =>
      simp only [hsA] at hr1 ⊢
      rw [hr1]
      simp only [Option.some_bind, hB1]
      cases hsB : (st1.g.tensorObj B1).source with
      | none => simpa only [hsB] using hB
      | some fop => simpa only [hsB] using hB
  · refine ⟨st, rfl, ?_⟩
    have hne : op ≠ M := by
      intro e
      apply hty
      rw [(hi.kind op).1, e]
      exact hp.M_type
    simpa [hne] using hi

/-- One iteration of the main loop of `optimize` keeps the invariant and folds `T` when the
operator is `M`. -/
theorem FuseInv.iteration {g : GraphObj} {T M : OpId} {X Y B : TensorId} {slot : Nat} {b : Bool}
    {st : OptState} (hp : FusePattern g T M X Y B slot)
    (hP : lastTwoSwapped (g.opObj T).permute = true) (hi : FuseInv g T M X Y slot b st)
    (op : OpId) (hop : op ∈ g.ops) :
    ∃ st', optimizeStep st op = some st' ∧ FuseInv g T M X Y slot (b || decide (op = M)) st' := by
  unfold optimizeStep
  split_ifs with hd
  · have hne : op ≠ M := by
      intro e
      have := hi.deleted op hd
      rw [e, hp.M_type] at this
      exact absurd this (by decide)
    exact ⟨st, rfl, by simpa [hne] using hi⟩
  · obtain ⟨st1, h1, hi1⟩ := hi.ruleA hp op hop
    obtain ⟨st2, h2, hi2⟩ := hi1.ruleB hp hP op hop
    exact ⟨st2, by rw [h1]; exact h2, hi2⟩

/-- The main loop of `optimize` over any list of listed operators. -/
theorem FuseInv.loop {g : GraphObj} {T M : OpId} {X Y B : TensorId} {slot : Nat}
    (hp : FusePattern g T M X Y B slot) (hP : lastTwoSwapped (g.opObj T).permute = true) :
    ∀ (L : List OpId) (b : Bool) (st : OptState), (∀ o ∈ L, o ∈ g.ops) →
      FuseInv g T M X Y slot b st →
      ∃ st', L.foldlM optimizeStep st = some st' ∧
        FuseInv g T M X Y slot (b || decide (M ∈ L)) st' := by
  intro L
  induction L with
  | nil => intro b st _ hi; exact ⟨st, rfl, by simpa using hi⟩
  | cons o rest ih =>
    intro b st hL hi
    obtain ⟨st1, h1, hi1⟩ := hi.iteration hp hP o (hL o (List.mem_cons_self _ _))
    obtain ⟨st', h', hi'⟩ := ih _ st1 (fun q hq => hL q (List.mem_cons_of_mem _ hq)) hi1
    refine ⟨st', by rw [List.foldlM_cons, h1]; exact h', ?_⟩
    have e : (b || decide (o = M) || decide (M ∈ rest)) = (b || decide (M ∈ o :: rest)) := by
      by_cases h1 : o = M
      · subst h1; simp
      · have h1' : ¬ M = o := fun e => h1 e.symm
        simp [h1, h1', List.mem_cons]
    rw [← e]
    exact hi'

/-- C5 (as amended): let `g` be any graph wired by `addOperatorAndConnect` in which every
tensor has at most one listed producer, every listed Transpose has one output and an input
and every listed MatMul two operands.  Let `T` be a listed Transpose from `X` to `Y` whose
permutation, of rank `n ≥ 2`, swaps exactly the last two axes, and `M` a listed MatMul with
operand `A` (`slot = 0`) or operand `B` (`slot = 1`) equal to `Y` and the other operand `B`;
`Y` is consumed only by `M`, and neither `X` nor the other operand is produced by a
Transpose.  Then `optimize` returns, and afterwards the flag of that operand of `M` is the
negation of its initial value, the operand is `X`, the other operand and the other flag are
unchanged, `X`'s targets contain `M`, the Transpose is gone from the operator list and `Y`
from the tensor list, and `M` is still listed.  The rest of the graph, the list order and
the initial flags are arbitrary. -/
theorem optimize_fuses_transpose (n : Nat) (hn : 2 ≤ n) (g : GraphObj) (T M : OpId)
    (X Y B : TensorId) (slot : Nat) (hp : FusePattern g T M X Y B slot)
    (hP : (g.opObj T).permute = swapPerm n (n - 2) (n - 1)) :
    ∃ g', optimize g = some g' ∧
      (g'.opObj M).transA = (if slot = 0 then !(g.opObj M).transA else (g.opObj M).transA) ∧
      (g'.opObj M).transB = (if slot = 0 then (g.opObj M).transB else !(g.opObj M).transB) ∧
      (g'.opObj M).inputs = (if slot = 0 then [X, B] else [B, X]) ∧
      M ∈ (g'.tensorObj X).targets ∧ T ∉ g'.ops ∧ Y ∉ g'.tensors ∧ M ∈ g'.ops := by
  have hP' : lastTwoSwapped (g.opObj T).permute = true := by
    rw [hP]; exact lastTwoSwapped_swapPerm n hn
  obtain ⟨st, hrun, hi⟩ := FuseInv.loop hp hP' g.ops false { g := g } (fun _ h => h)
    (FuseInv.init hp)
  have hM : (false || decide (M ∈ g.ops)) = true := by simp [hp.M_listed]
  obtain ⟨q1, q2, q3, q4, q5, q6⟩ := hi.after hM
  refine ⟨{ st.g with
      ops := g.ops.filter (fun o => decide (o ∉ st.deleted_ops)),
      tensors := g.tensors.filter
        (fun t => decide ((st.g.tensorObj t).fuid ∉ st.deleted_tensors)) },
    by unfold optimize; rw [hrun]; rfl, q2, q3, ?_, q6, ?_, ?_, ?_⟩
  · show (st.g.opObj M).inputs = _
    rw [q1, hp.M_inputs]
    have hBY := hp.other_ne
    rcases hp.slot_range with h | h <;> simp [h, rebind, hBY]
  · show T ∉ g.ops.filter _
    simp [q4]
  · show Y ∉ g.tensors.filter _
    simp [(hi.tensor Y).2, q5]
  · show M ∈ g.ops.filter _
    have : M ∉ st.deleted_ops := by
      intro h
      have := hi.deleted M h
      rw [hp.M_type] at this
      exact absurd this (by decide)
    simp [hp.M_listed, this]

theorem fusionGraph_pattern :
    FusePattern (fusionGraph [1, 0] false false false [0, 1]) 0 1 0 1 2 0 := by
  have hops : (fusionGraph [1, 0] false false false [0, 1]).ops = [0, 1] := by decide
  have hunw : Unwired (fusionObjects [1, 0] false false false) :=
    ⟨rfl, fun _ => rfl, fun _ => rfl, fun o => by by_cases h : o = 0 <;> simp [fusionObjects, h],
      fun o => by by_cases h : o = 0 <;> simp [fusionObjects, h]⟩
  have hk : ∀ o ∈ (fusionGraph [1, 0] false false false [0, 1]).ops,
      ((fusionGraph [1, 0] false false false [0, 1]).opObj o).outputs =
        (if o = 0 then [1] else [3]) ∧
      ((fusionGraph [1, 0] false false false [0, 1]).opObj o).inputs =
        (if o = 0 then [0] else [1, 2]) ∧
      ((fusionGraph [1, 0] false false false [0, 1]).opObj o).type =
        (if o = 0 then OpType.Transpose else OpType.MatMul) := by decide
  have hsrc : ∀ t ∈ [0, 2], ((fusionGraph [1, 0] false false false [0, 1]).tensorObj t).source =
      none := by decide
  refine ⟨(addAll_spec [0, 1] _ hunw.wired_init).1, ?_, ?_, ?_, Or.inl rfl, by decide, by decide,
    by decide, by decide, by decide, by decide, by decide, by decide, by decide, ?_, ?_⟩
  · intro a ha c hc t hta htc
    rw [(hk a ha).1] at hta
    rw [(hk c hc).1] at htc
    rw [hops] at ha hc
    simp only [List.mem_cons, List.mem_singleton, List.not_mem_nil, or_false] at ha hc
    rcases ha with rfl | rfl <;> rcases hc with rfl | rfl <;> simp_all
  · intro o ho _
    obtain ⟨h1, h2, _⟩ := hk o ho
    rw [h1, h2]
    split_ifs
    · exact ⟨⟨_, rfl⟩, by simp⟩
    · exact ⟨⟨_, rfl⟩, by simp⟩
  · intro o ho hty
    obtain ⟨_, h2, h3⟩ := hk o ho
    rw [h2]
    rw [h3] at hty
    split_ifs at hty ⊢
    simp
  · intro f hf
    rw [hsrc 0 (by decide)] at hf
    exact Option.noConfusion hf
  · intro f hf
    rw [hsrc 2 (by decide)] at hf
    exact Option.noConfusion hf

theorem optimize_fuses_transpose_witness :
    swapPerm 2 0 1 = [1, 0] ∧
      FusePattern (fusionGraph [1, 0] false false false [0, 1]) 0 1 0 1 2 0 ∧
      ∃ g', optimize (fusionGraph [1, 0] false false false [0, 1]) = some g' ∧
        (g'.opObj 1).transA = true ∧ (g'.opObj 1).transB = false ∧
        (g'.opObj 1).inputs = [0, 2] ∧ 1 ∈ (g'.tensorObj 0).targets ∧ 0 ∉ g'.ops ∧
        1 ∉ g'.tensors ∧ 1 ∈ g'.ops := by
  obtain ⟨g', h, h1, h2, h3, h4, h5, h6, h7⟩ :=
    optimize_fuses_transpose 2 (by decide) (fusionGraph [1, 0] false false false [0, 1]) 0 1
      0 1 2 0 fusionGraph_pattern (by decide)
  exact ⟨by decide, fusionGraph_pattern, g', h, h1, h2, h3, h4, h5, h6, h7⟩

/-- C5 as stated fails on valid graphs, listed in topological order, that contain the pattern
with `Y` consumed only by the MatMul.  (1) When `X` itself comes from a Transpose with the
same permutation `[1, 0]` (the chain graph: `X` is tensor `1`, the Transpose operator `1`, `Y`
tensor `2`, the MatMul operator `2`), Rule A cancels the two Transposes first: the MatMul
then reads tensor `0`, not `X`, and `transA` is not negated.  (2) When the other operand
comes from such a Transpose as well (`bothOperandsGraph`), both operands are folded: the
second operand is rebound and `transB` toggled too. -/
theorem optimize_fusion_not_local :
    checkValid (chainGraph [1, 0] OpType.MatMul [] false false [0, 1, 2]) = some true ∧
    lastTwoSwapped [1, 0] = true ∧
    ((chainGraph [1, 0] OpType.MatMul [] false false [0, 1, 2]).opObj 1).inputs = [1] ∧
    ((chainGraph [1, 0] OpType.MatMul [] false false [0, 1, 2]).opObj 1).outputs = [2] ∧
    ((chainGraph [1, 0] OpType.MatMul [] false false [0, 1, 2]).opObj 2).inputs = [2, 4] ∧
    ((chainGraph [1, 0] OpType.MatMul [] false false [0, 1, 2]).tensorObj 2).targets = [2] ∧
    (optimize (chainGraph [1, 0] OpType.MatMul [] false false [0, 1, 2])).map
        (fun g => (g.ops, g.tensors, (g.opObj 2).inputs, (g.opObj 2).transA, (g.opObj 2).transB)) =
      some ([2], [0, 3, 4], [0, 4], false, false) ∧
    checkValid (bothOperandsGraph [1, 0]) = some true ∧
    ((bothOperandsGraph [1, 0]).opObj 2).inputs = [1, 3] ∧
    ((bothOperandsGraph [1, 0]).tensorObj 1).targets = [2] ∧
    (optimize (bothOperandsGraph [1, 0])).map
        (fun g => (g.ops, g.tensors, (g.opObj 2).inputs, (g.opObj 2).transA, (g.opObj 2).transB)) =
      some ([2], [0, 2, 4], [0, 2], true, true) := by
  refine ⟨by decide, by decide, by decide, by decide, by decide, by decide, by decide,
    by decide, by decide, by decide, by decide⟩

/-! ## Idempotence of the rewrite pass -/

theorem pos_lt_of_precedes {g : GraphObj} (hnd : g.ops.Nodup) {a b : OpId}
    (h : precedes g.ops a b) : pos g a < pos g b :=
  indexOf_lt_of_precedes hnd h

theorem rebind_ne_nil {input saved : TensorId} {l : List TensorId} (h : l ≠ []) :
    rebind input saved l ≠ [] := by
  intro hc
  apply h
  have := rebind_length input saved l
  rw [hc] at this
  exact List.length_eq_zero.1 this.symm

/-- In a graph as in `Rewritable` the source of an output of a listed operator is that
operator. -/
theorem Rewritable.source_of_output {g : GraphObj} (h : Rewritable g) {f : OpId} {y : TensorId}
    (hf : f ∈ g.ops) (hy : y ∈ (g.opObj f).outputs) : (g.tensorObj y).source = some f := by
  cases hs : (g.tensorObj y).source with
  | none => exact absurd hs (h.wired.source_complete y f hf hy)
  | some a =>
    obtain ⟨ha, hya⟩ := h.wired.source_sound y a hs
    rw [h.unique a ha f hf y hya hy]

/-- The source of a tensor is listed and has the tensor as an output. -/
theorem Rewritable.output_of_source {g : GraphObj} (h : Rewritable g) {a : OpId} {t : TensorId}
    (hs : (g.tensorObj t).source = some a) : a ∈ g.ops ∧ t ∈ (g.opObj a).outputs :=
  h.wired.source_sound t a hs

/-- The invariant holds before the first iteration. -/
theorem RewriteInv.start {g : GraphObj} (h : Rewritable g) : RewriteInv g 0 { g := g } := by
  have hsrc : ∀ c ∈ g.ops, ∀ t ∈ (g.opObj c).inputs, ∀ a,
      (g.tensorObj t).source = some a → a ∈ g.ops ∧ pos g a < pos g c := by
    intro c hc t ht a hs
    exact ⟨(h.output_of_source hs).1, pos_lt_of_precedes h.nodup (h.ordered c hc t ht a hs)⟩
  have hpred : ∀ c ∈ g.ops, ∀ p ∈ (g.opObj c).predecessors, p ∈ g.ops ∧ pos g p < pos g c := by
    intro c hc p hp
    obtain ⟨hpl, _, t, htp, htc⟩ := h.wired.preds_sound p c hp
    exact hsrc c hc t htc p (h.source_of_output hpl htp)
  refine
    { kind := fun o => ⟨rfl, rfl, rfl⟩
      tensor := fun t => rfl
      single := fun f hf hT => (h.transposes f hf hT).1
      pair := h.matmuls
      dead := fun d hd => absurd hd (List.not_mem_nil d)
      src_before := hsrc
      pred_before := hpred
      succ_after := ?_
      pred_nodup := h.preds_nodup
      src_pred := ?_
      pred_src := ?_
      reader_succ := ?_
      succ_reader := ?_
      one_reader := fun f hf _ hT y hy c hc c' hc' _ _ h1 h2 =>
        h.single_reader f hf hT y hy c hc c' hc' h1 h2
      live_src := fun c _ _ t _ a _ => List.not_mem_nil a
      fresh := fun f _ _ _ _ => rfl
      head := ?_
      clean_transpose := fun o _ hlt => absurd hlt (Nat.not_lt_zero _)
      clean_matmul := fun o _ hlt => absurd hlt (Nat.not_lt_zero _) }
  · intro p hp s hs
    have hps : p ∈ (g.opObj s).predecessors := (h.wired.preds_succs p s).2 hs
    obtain ⟨_, hsl, t, _, hts⟩ := h.wired.preds_sound p s hps
    exact ⟨hsl, (hpred s hsl p hps).2, List.ne_nil_of_mem hts⟩
  · intro f hf _ _ x hx a hs
    obtain ⟨hal, hxa⟩ := h.output_of_source hs
    exact h.wired.preds_complete h.unique a hal f hf x hxa hx
  · intro f hf _ hT p hp x hx
    obtain ⟨hpl, _, t, htp, htf⟩ := h.wired.preds_sound p f hp
    obtain ⟨x0, hx0⟩ := (h.transposes f hf hT).1
    rw [hx0, List.mem_singleton] at hx htf
    rw [hx, ← htf]
    exact h.source_of_output hpl htp
  · intro f hf _ _ y hy c hc _ hyc
    exact (h.wired.preds_succs f c).1 (h.wired.preds_complete h.unique f hf c hc y hy hyc)
  · intro f hf _ hT c hc y hy
    obtain ⟨_, _, t, htf, htc⟩ := h.wired.preds_sound f c ((h.wired.preds_succs f c).2 hc)
    obtain ⟨y0, hy0⟩ := (h.transposes f hf hT).2
    rw [hy0, List.mem_singleton] at hy htf
    rw [hy, ← htf]
    exact htc
  · intro f hf _ hT hnf y hy c hc _ hyc
    by_contra hne
    exact hnf (h.first_input f hf hT y hy c hc hyc hne)

end GraphObj

end infini
